import Mathlib

/-!
The log rendering pipeline of consolex.

A shallow embedding of `style/chalk.go`, `style/theme.go` and `logging/logging.go`.

* A Go `string` is a sequence of bytes; it is embedded as a `List Char`, one
  `Char` per byte.  Every byte the pipeline inspects (space, double quote,
  backslash, `=`) is ASCII, and all other code only slices and concatenates.
* `strings.ToUpper` belongs to the Go standard library; the renderer takes it
  as an explicit argument `ToUpper`, so every theorem holds for whatever that
  function does.  `upperASCII` is its action on ASCII text, used to evaluate
  concrete lines.
* A Go map is only ever read by the code embedded here; it is embedded by its
  lookup function, and a nil map by `none`.
* A method with a pointer receiver that mutates the record in place is embedded
  as a function returning the new record.
* An `io.Writer` and a `slog.Handler` are embedded as state machines: a call maps
  the state of the sink to its new state and to the error it returns, if any.
* `strings.TrimSpace` removes the white space of Unicode; in a sequence of bytes
  a rune is its UTF-8 encoding.
* The steps of the operating system in `RotateAndCompressLog` act on a map from
  places to what is there, a regular file with its bytes or a directory.  How
  paths lead to places, which steps fail for a reason outside that state, the
  clock, `filepath.Join` and the compressor are given by a `RotateEnv`.  Other
  kinds of file (devices, pipes) and other processes are not part of the state.
* `ansiPattern.ReplaceAllString(s, "")` of the package `regexp` is embedded as
  the removal, from the left, of the matches of the pattern.
-/

namespace Consolex

set_option maxRecDepth 20000

/-- Go `string`: a sequence of bytes. -/
abbrev Str := List Char

/-- `strings.Join(elems, sep)`. -/
def Join (elems : List Str) (sep : Str) : Str := sep.intercalate elems

/-- `strings.IndexByte(s, c)`: index of the first `c` in `s`, or `-1`. -/
def IndexByte (s : Str) (c : Char) : Int :=
  if c ∈ s then (s.indexOf c : Nat) else -1

/-- `strings.Trim(s, cutset)` for a cutset of ASCII bytes: all leading and
trailing bytes that occur in the cutset are removed. -/
def Trim (s : Str) (cutset : Str) : Str :=
  (s.dropWhile (fun c => decide (c ∈ cutset))).rdropWhile (fun c => decide (c ∈ cutset))

/-- `strconv.Itoa(v)`. -/
def Itoa (v : Int) : Str :=
  if v < 0 then '-' :: Nat.toDigits 10 v.natAbs else Nat.toDigits 10 v.toNat

/-- The action of `strings.ToUpper` on ASCII text. -/
def upperASCII (s : Str) : Str := s.map Char.toUpper

/-! ## style/chalk.go -/

/-- `style.Chalk`. -/
structure Chalk where
  enabled : Bool
  codes : List Str
deriving DecidableEq, Repr

/-- `style.New()`. -/
def New : Chalk := { enabled := true, codes := [] }

/-- `style.Disabled()`. -/
def Disabled : Chalk := { enabled := false, codes := [] }

/-- The zero value `Chalk{}`. -/
def Chalk.zero : Chalk := { enabled := false, codes := [] }

/-- `Chalk.cloneWith`. -/
def Chalk.cloneWith (c : Chalk) (code : Str) : Chalk :=
  { enabled := c.enabled, codes := c.codes ++ [code] }

/-- `Chalk.code`. -/
def Chalk.code (c : Chalk) (v : Int) : Chalk := c.cloneWith (Itoa v)

def Chalk.Bold (c : Chalk) : Chalk := c.code 1
def Chalk.Dim (c : Chalk) : Chalk := c.code 2
def Chalk.Black (c : Chalk) : Chalk := c.code 30
def Chalk.Magenta (c : Chalk) : Chalk := c.code 35
def Chalk.White (c : Chalk) : Chalk := c.code 37
def Chalk.Gray (c : Chalk) : Chalk := c.code 90
def Chalk.BrightBlue (c : Chalk) : Chalk := c.code 94
def Chalk.BrightCyan (c : Chalk) : Chalk := c.code 96
def Chalk.BrightWhite (c : Chalk) : Chalk := c.code 97
def Chalk.BgRed (c : Chalk) : Chalk := c.code 41
def Chalk.BgYellow (c : Chalk) : Chalk := c.code 43
def Chalk.BgCyan (c : Chalk) : Chalk := c.code 46

/-- `Chalk.BgRGB`: `fmt.Sprintf("48;2;%d;%d;%d", r, g, b)` on three `uint8`. -/
def Chalk.BgRGB (c : Chalk) (r g b : Nat) : Chalk :=
  c.cloneWith ("48;2;".toList ++ Itoa r ++ ";".toList ++ Itoa g ++ ";".toList ++ Itoa b)

/-- `strings.TrimPrefix(s, p)`. -/
def TrimPrefix (s p : Str) : Str :=
  if p.isPrefixOf s then s.drop p.length else s

/-- The white space of `unicode.IsSpace`, every rune as the bytes of its UTF-8
encoding: U+0009 to U+000D, U+0020, U+0085, U+00A0, U+1680, U+2000 to U+200A,
U+2028, U+2029, U+202F, U+205F and U+3000. -/
def spaceRunes : List Str :=
  [[0x09], [0x0A], [0x0B], [0x0C], [0x0D], [0x20], [0xC2, 0x85], [0xC2, 0xA0],
   [0xE1, 0x9A, 0x80], [0xE2, 0x80, 0x80], [0xE2, 0x80, 0x81], [0xE2, 0x80, 0x82],
   [0xE2, 0x80, 0x83], [0xE2, 0x80, 0x84], [0xE2, 0x80, 0x85], [0xE2, 0x80, 0x86],
   [0xE2, 0x80, 0x87], [0xE2, 0x80, 0x88], [0xE2, 0x80, 0x89], [0xE2, 0x80, 0x8A],
   [0xE2, 0x80, 0xA8], [0xE2, 0x80, 0xA9], [0xE2, 0x80, 0xAF], [0xE2, 0x81, 0x9F],
   [0xE3, 0x80, 0x80]].map (fun bytes => bytes.map Char.ofNat)

/-- The white-space rune that the text starts with, if it starts with one.  A
byte sequence that is not valid UTF-8 decodes to U+FFFD, which is no white
space, and an encoding of a rune is valid in its shortest form only: the text
starts with a white-space rune exactly when it starts with one of `spaceRunes`. -/
def leadingSpace (s : Str) : Option Str :=
  spaceRunes.find? (fun r => r.isPrefixOf s)

/-- The white-space rune that the text ends with, if it ends with one
(`utf8.DecodeLastRuneInString` goes back to the nearest byte that starts a
rune, so it finds a rune exactly when the text ends with its encoding). -/
def trailingSpace (s : Str) : Option Str :=
  spaceRunes.find? (fun r => r.reverse.isPrefixOf s.reverse)

/-- White-space runes are removed from the front, at most `fuel` of them. -/
def trimLeftLoop : Nat → Str → Str
  | 0, s => s
  | fuel + 1, s =>
    match leadingSpace s with
    | some r => trimLeftLoop fuel (s.drop r.length)
    | none => s

/-- White-space runes are removed from the end, at most `fuel` of them. -/
def trimRightLoop : Nat → Str → Str
  | 0, s => s
  | fuel + 1, s =>
    match trailingSpace s with
    | some r => trimRightLoop fuel (s.take (s.length - r.length))
    | none => s

/-- `strings.TrimSpace(s)`: all leading and trailing white space, as defined by
Unicode, is removed.  The text is a sequence of bytes, so U+00A0 is the two bytes
C2 A0.  The leading runes are decoded from the front, then the trailing runes
from the end, as `strings.TrimFunc(s, unicode.IsSpace)` does; the number of
bytes is fuel enough (`leadingSpace_TrimSpace`, `trailingSpace_TrimSpace`). -/
def TrimSpace (s : Str) : Str :=
  let t := trimLeftLoop s.length s
  trimRightLoop t.length t

/-- Value of one hexadecimal digit, as `strconv.ParseUint(_, 16, _)` reads it. -/
def hexVal (c : Char) : Option Nat :=
  if '0' ≤ c ∧ c ≤ '9' then some (c.toNat - '0'.toNat)
  else if 'a' ≤ c ∧ c ≤ 'f' then some (c.toNat - 'a'.toNat + 10)
  else if 'A' ≤ c ∧ c ≤ 'F' then some (c.toNat - 'A'.toNat + 10)
  else none

/-- `strconv.ParseUint(h, 16, 32)` on a string of six bytes (no overflow can
occur): `none` stands for the error result. -/
def ParseUint16 (h : Str) : Option Nat :=
  h.foldl (fun acc c => acc.bind (fun v => (hexVal c).map (fun d => v * 16 + d))) (some 0)

/-- `style.parseHexColor`. -/
def parseHexColor (hex : Str) : Option (Nat × Nat × Nat) :=
  let h := TrimSpace (TrimPrefix hex "#".toList)
  if h.length ≠ 6 then none
  else match ParseUint16 h with
    | none => none
    | some v => some ((v / 65536) % 256, (v / 256) % 256, v % 256)

/-- `Chalk.BgHex`. -/
def Chalk.BgHex (c : Chalk) (hex : Str) : Chalk :=
  match parseHexColor hex with
  | some (r, g, b) => c.BgRGB r g b
  | none => c

/-- `Chalk.Wrap`. -/
def Chalk.Wrap (c : Chalk) (text : Str) : Str :=
  if !c.enabled || c.codes.length == 0 || text == [] then text
  else "\x1b[".toList ++ Join c.codes ";".toList ++ "m".toList ++ text ++ "\x1b[0m".toList

/-! ## style/theme.go -/

/-- `style.Theme`. -/
structure Theme where
  TimeKey : Chalk
  TimeValue : Chalk
  MsgKey : Chalk
  Debug : Chalk
  Info : Chalk
  Warn : Chalk
  Error : Chalk
  ErrKey : Chalk
  PlayerKey : Chalk
  WorldKey : Chalk
deriving DecidableEq, Repr

/-- `style.DefaultTheme()`. -/
def DefaultTheme : Theme :=
  { TimeKey := New.Gray
    TimeValue := New.BrightBlue
    MsgKey := New.BrightWhite
    Debug := New.Black.BgCyan.Bold
    Info := (New.Black.BgHex "#40E0D0".toList).Bold
    Warn := New.Black.BgYellow.Bold
    Error := New.White.BgRed.Bold
    ErrKey := New.White.BgRed.Bold
    PlayerKey := New.BrightCyan
    WorldKey := New.Magenta }

/-! ## logging/logging.go: data model -/

/-- `logging.RecordField`. -/
structure RecordField where
  Key : Str
  Value : Str
  ValueOut : Str
  ShowKey : Bool
  Styled : Bool
  Style : Chalk
deriving DecidableEq, Repr

/-- `logging.LogRecord`. -/
structure LogRecord where
  Raw : Str
  Time : Str
  Level : Str
  Message : Str
  Fields : List RecordField
deriving DecidableEq, Repr

/-- A Go `map[string]β` that is only read: its lookup function. -/
abbrev GoMap (β : Type) := Str → Option β

/-- A map literal. -/
def mapLit {β : Type} (entries : List (Str × β)) : GoMap β := fun k => entries.lookup k

/-- Lookup `m[k]` with the comma-ok form; a nil map (`none`) has no entry. -/
def mapGet {β : Type} (m : Option (GoMap β)) (k : Str) : Option β := m.bind (fun f => f k)

/-- `logging.Profile`; a nil map is `none`. -/
structure Profile where
  HideKeys : Option (GoMap Bool)
  LevelLabels : Option (GoMap Str)
  CompactMode : Bool

/-- `logging.DefaultProfile()`. -/
def DefaultProfile : Profile :=
  { HideKeys := some (mapLit [("time".toList, true), ("level".toList, true), ("msg".toList, true),
      ("err".toList, true), ("error".toList, true), ("player".toList, true),
      ("world".toList, true)])
    LevelLabels := some (mapLit [("DEBUG".toList, "DBG".toList), ("INFO".toList, "INF".toList),
      ("WARN".toList, "WRN".toList), ("ERROR".toList, "ERR".toList)])
    CompactMode := true }

/-- `logging.normalizeProfile`. -/
def normalizeProfile (p : Profile) : Profile :=
  let d := DefaultProfile
  let p := if p.HideKeys.isNone then { p with HideKeys := d.HideKeys } else p
  let p := if p.LevelLabels.isNone then { p with LevelLabels := d.LevelLabels } else p
  let p := if !p.CompactMode then { p with CompactMode := d.CompactMode } else p
  p

/-- `logging.Processor`: `Process(rec *LogRecord)` as a record transformer. -/
abbrev Processor := LogRecord → LogRecord

/-- `logging.Renderer`. -/
abbrev Renderer := LogRecord → Str

/-- `logging.FieldStyleProvider`: `StyleField(key, value)`. -/
abbrev FieldStyleProvider := Str → Str → Chalk × Bool

/-- `logging.FieldTransformer`: `TransformField(key, value)`. -/
abbrev FieldTransformer := Str → Str → Str × Bool

/-- The loop `for i := range xs` with `n = len(xs)` fixed on entry. -/
def forRange {σ : Type} (n : Nat) (body : Nat → σ → σ) (init : σ) : σ :=
  (List.range n).foldl (fun s i => body i s) init

/-- In-place update of `rec.Fields[i]`. -/
def LogRecord.updField (rec : LogRecord) (i : Nat) (g : RecordField → RecordField) : LogRecord :=
  match rec.Fields[i]? with
  | some f => { rec with Fields := rec.Fields.set i (g f) }
  | none => rec

/-! ## logging/logging.go: processors -/

/-- `logging.fieldTransformProcessor`; a nil transformer is `none`. -/
structure fieldTransformProcessor where
  transformer : Option FieldTransformer

/-- `fieldTransformProcessor.Process`. -/
def fieldTransformProcessor.Process (p : fieldTransformProcessor) (rec : LogRecord) : LogRecord :=
  match p.transformer with
  | none => rec
  | some t =>
    forRange rec.Fields.length (fun i rec =>
      match rec.Fields[i]? with
      | none => rec
      | some f =>
        let (out, ok) := t f.Key f.Value
        if ok then rec.updField i (fun f => { f with ValueOut := out }) else rec) rec

/-- `logging.fieldStyleProcessor`; a nil provider is `none`. -/
structure fieldStyleProcessor where
  provider : Option FieldStyleProvider

/-- `fieldStyleProcessor.Process`. -/
def fieldStyleProcessor.Process (p : fieldStyleProcessor) (rec : LogRecord) : LogRecord :=
  match p.provider with
  | none => rec
  | some sp =>
    forRange rec.Fields.length (fun i rec =>
      match rec.Fields[i]? with
      | none => rec
      | some f =>
        let value := if f.ValueOut ≠ [] then f.ValueOut else f.Value
        let (st, ok) := sp f.Key value
        if ok then rec.updField i (fun f => { f with Style := st, Styled := true }) else rec) rec

/-- `logging.errorFieldProcessor`. -/
structure errorFieldProcessor where
  errStyle : Chalk

/-- `errorFieldProcessor.Process`. -/
def errorFieldProcessor.Process (p : errorFieldProcessor) (rec : LogRecord) : LogRecord :=
  forRange rec.Fields.length (fun i rec =>
    match rec.Fields[i]? with
    | none => rec
    | some f =>
      if f.Styled then rec
      else if f.Key = "err".toList ∨ f.Key = "error".toList then
        rec.updField i (fun f => { f with Style := p.errStyle, Styled := true })
      else rec) rec

/-! ## logging/logging.go: tokenizer and parser -/

/-- The local variables of `splitQuotedTokens`; `start = -1` means "no token open". -/
structure SplitState where
  tokens : List Str
  start : Int
  inQuotes : Bool
  escaped : Bool
deriving DecidableEq, Repr

/-- The slice `s[i:j]`. -/
def slice (s : Str) (i j : Nat) : Str := (s.take j).drop i

/-- One iteration of the loop of `splitQuotedTokens`, at index `i` with `c = s[i]`. -/
def splitStep (s : Str) (i : Nat) (c : Char) (st : SplitState) : SplitState :=
  let start : Int := if st.start = -1 ∧ c ≠ ' ' then (i : Int) else st.start
  if start = -1 then { st with start := start }
  else if st.inQuotes then
    if st.escaped then { st with start := start, escaped := false }
    else if c = '\\' then { st with start := start, escaped := true }
    else if c = '"' then { st with start := start, inQuotes := false }
    else { st with start := start }
  else if c = '"' then { st with start := start, inQuotes := true }
  else if c = ' ' then
    { st with tokens := st.tokens ++ [slice s start.toNat i], start := -1 }
  else { st with start := start }

/-- The loop `for i := 0; i < len(s); i++`: `rest` is `s[i:]`. -/
def splitLoop (s : Str) : List Char → Nat → SplitState → SplitState
  | [], _, st => st
  | c :: rest, i, st => splitLoop s rest (i + 1) (splitStep s i c st)

/-- `logging.splitQuotedTokens`. -/
def splitQuotedTokens (s : Str) : List Str :=
  let st := splitLoop s s 0 { tokens := [], start := -1, inQuotes := false, escaped := false }
  if st.start ≠ -1 then st.tokens ++ [s.drop st.start.toNat] else st.tokens

/-- The body of the loop over tokens in `ParseTextLogLine`. -/
def parseToken (rec : LogRecord) (tok : Str) : LogRecord :=
  let i := IndexByte tok '='
  if i ≤ 0 then rec
  else
    let key := tok.take i.toNat
    let value := tok.drop (i.toNat + 1)
    if key = "time".toList then { rec with Time := value }
    else if key = "level".toList then { rec with Level := Trim value "\"".toList }
    else if key = "msg".toList then { rec with Message := value }
    else { rec with Fields := rec.Fields ++
      [{ Key := key, Value := value, ValueOut := [], ShowKey := true, Styled := false,
         Style := Chalk.zero }] }

/-- `logging.ParseTextLogLine`. -/
def ParseTextLogLine (line : Str) : LogRecord :=
  (splitQuotedTokens line).foldl parseToken
    { Raw := line, Time := [], Level := [], Message := [], Fields := [] }

/-! ## logging/logging.go: renderer and pipeline -/

/-- `logging.defaultRenderer`. -/
structure defaultRenderer where
  theme : Theme
  profile : Profile

/-- `defaultRenderer.levelBadge`. -/
def defaultRenderer.levelBadge (ToUpper : Str → Str) (r : defaultRenderer) (level : Str) : Str :=
  let lvl := ToUpper level
  let label := match mapGet r.profile.LevelLabels lvl with
    | some l => l
    | none => lvl
  if lvl = "DEBUG".toList then r.theme.Debug.Wrap label
  else if lvl = "WARN".toList then r.theme.Warn.Wrap label
  else if lvl = "ERROR".toList then r.theme.Error.Wrap label
  else r.theme.Info.Wrap label

/-- The body of the loop over `rec.Fields` in `defaultRenderer.Render`. -/
def defaultRenderer.renderField (r : defaultRenderer) (parts : List Str) (f : RecordField) :
    List Str :=
  let value := f.Value
  let value := if f.ValueOut ≠ [] then f.ValueOut else value
  let value := if f.Styled then f.Style.Wrap value else value
  let showKey := f.ShowKey
  let showKey :=
    if r.profile.CompactMode then
      match mapGet r.profile.HideKeys f.Key with
      | some hidden => if hidden then false else showKey
      | none => showKey
    else showKey
  if !showKey then parts ++ [value]
  else parts ++ [f.Key ++ "=".toList ++ value]

/-- The slice `parts` of `defaultRenderer.Render` just before it is joined. -/
def defaultRenderer.parts (ToUpper : Str → Str) (r : defaultRenderer) (rec : LogRecord) :
    List Str :=
  let parts : List Str := []
  let parts := if rec.Time ≠ [] then parts ++ [r.theme.TimeValue.Dim.Wrap rec.Time] else parts
  let parts := if rec.Level ≠ [] then parts ++ [r.levelBadge ToUpper rec.Level] else parts
  let parts := if rec.Message ≠ [] then parts ++ [rec.Message] else parts
  rec.Fields.foldl r.renderField parts

/-- `defaultRenderer.Render`. -/
def defaultRenderer.Render (ToUpper : Str → Str) (r : defaultRenderer) (rec : LogRecord) : Str :=
  Join (r.parts ToUpper rec) " ".toList

/-- `logging.newDefaultRenderer`. -/
def newDefaultRenderer (ToUpper : Str → Str) (theme : Theme) (profile : Profile) : Renderer :=
  defaultRenderer.Render ToUpper { theme := theme, profile := normalizeProfile profile }

/-- `logging.Pipeline`. -/
structure Pipeline where
  processors : List Processor
  renderer : Renderer

/-- `logging.NewPipeline`; a nil provider, transformer or renderer is `none`. -/
def NewPipeline (ToUpper : Str → Str) (theme : Theme) (profile : Profile)
    (provider : Option FieldStyleProvider) (transformer : Option FieldTransformer)
    (extras : List Processor) (renderer : Option Renderer) : Pipeline :=
  let processors : List Processor :=
    [ fieldTransformProcessor.Process { transformer := transformer },
      fieldStyleProcessor.Process { provider := provider },
      errorFieldProcessor.Process { errStyle := theme.ErrKey } ]
  let processors := processors ++ extras
  let renderer := match renderer with
    | none => newDefaultRenderer ToUpper theme profile
    | some r => r
  { processors := processors, renderer := renderer }

/-- `Pipeline.Colorize`. -/
def Pipeline.Colorize (p : Pipeline) (line : Str) : Str :=
  let rec0 := ParseTextLogLine line
  let rec1 := p.processors.foldl (fun rec proc => proc rec) rec0
  p.renderer rec1

/-- The package-level `pipeline`: `NewPipeline(DefaultTheme(), DefaultProfile(), nil, nil, nil, nil)`. -/
def defaultPipeline (ToUpper : Str → Str) : Pipeline :=
  NewPipeline ToUpper DefaultTheme DefaultProfile none none [] none

/-! ## logging/logging.go: colorizing writer and fan-out handler -/

/-- `logging.ColorizeLogLine`, with the package-level `pipeline` as an argument
(`none` is the nil pipeline). -/
def ColorizeLogLine (pl : Option Pipeline) (line : Str) : Str :=
  match pl with
  | none => line
  | some pl => pl.Colorize line

/-- An `io.Writer`: one call of `Write` maps the state of the sink and the bytes
to the new state of the sink and the error, if any. -/
abbrev SinkWrite (σ ε : Type) := σ → Str → σ × Option ε

/-- `logging.ColorizingWriter`; the sink `dst` is passed along as a state. -/
structure ColorizingWriter where
  buf : Str
deriving DecidableEq, Repr

/-- What one call of `ColorizingWriter.Write` leaves behind and returns. -/
structure WriteResult (σ ε : Type) where
  buf : Str
  dst : σ
  n : Nat
  err : Option ε
deriving DecidableEq, Repr

/-- The `for` loop of `ColorizingWriter.Write`; `plen` is `len(p)`.  Every
iteration costs one unit of fuel; `none` means that the fuel ran out. -/
def writeLoop {σ ε : Type} (pl : Option Pipeline) (write : SinkWrite σ ε) (plen : Nat) :
    Nat → Str → σ → Option (WriteResult σ ε)
  | 0, _, _ => none
  | fuel + 1, buf, dst =>
    let i := IndexByte buf '\n'
    if i < 0 then some { buf := buf, dst := dst, n := plen, err := none }
    else
      let line := buf.take i.toNat
      let buf := buf.drop (i.toNat + 1)
      match write dst (ColorizeLogLine pl line ++ "\n".toList) with
      | (dst, some err) => some { buf := buf, dst := dst, n := plen, err := some err }
      | (dst, none) => writeLoop pl write plen fuel buf dst

/-- `ColorizingWriter.Write`: the loop is given one unit of fuel more than the
buffer has bytes. -/
def ColorizingWriter.Write {σ ε : Type} (pl : Option Pipeline) (write : SinkWrite σ ε)
    (w : ColorizingWriter) (dst : σ) (p : Str) : Option (WriteResult σ ε) :=
  let buf := w.buf ++ p
  writeLoop pl write p.length (buf.length + 1) buf dst

/-- A `slog.Handler` as `fanoutHandler` uses it: `Enabled` is a predicate,
`Handle` acts on the state `ω` of the world behind the sinks and may fail. -/
structure Handler (κ ρ lvl ω ε : Type) where
  Enabled : κ → lvl → Bool
  Handle : κ → ρ → ω → ω × Option ε

/-- `logging.fanoutHandler`. -/
structure fanoutHandler (κ ρ lvl ω ε : Type) where
  handlers : List (Handler κ ρ lvl ω ε)

/-- The loop of `fanoutHandler.Enabled`, with its early return. -/
def enabledLoop {κ ρ lvl ω ε : Type} (ctx : κ) (level : lvl) :
    List (Handler κ ρ lvl ω ε) → Bool
  | [] => false
  | next :: rest => if next.Enabled ctx level then true else enabledLoop ctx level rest

/-- `fanoutHandler.Enabled`. -/
def fanoutHandler.Enabled {κ ρ lvl ω ε : Type} (h : fanoutHandler κ ρ lvl ω ε) (ctx : κ)
    (level : lvl) : Bool :=
  enabledLoop ctx level h.handlers

/-- `fanoutHandler.Handle`: the state of the loop is the world and `firstErr`. -/
def fanoutHandler.Handle {κ ρ lvl ω ε : Type} (h : fanoutHandler κ ρ lvl ω ε) (ctx : κ)
    (rec : ρ) (world : ω) : ω × Option ε :=
  h.handlers.foldl (fun (st : ω × Option ε) next =>
    match next.Handle ctx rec st.1 with
    | (world, some err) => if st.2.isNone then (world, some err) else (world, st.2)
    | (world, none) => (world, st.2)) (world, none)

/-! ## logging/logging.go: rotation, over a model of the file system -/

/-- What there can be at a place of the file system: a regular file, with the
bytes it holds, or a directory. -/
inductive Node where
  | file (content : Str) : Node
  | dir : Node
deriving DecidableEq, Repr

/-- The state of the file system: what there is at every place, `none` where
there is nothing.  A place (of type `ι`) is the object that a path names or
would name once it is made: two paths that lead to one file (`logs/x` and
`./logs/x`, a link and its target) are one place, see `RotateEnv.resolve`. -/
structure FS (ι : Type) where
  nodes : ι → Option Node

/-- The contents of the regular file at a place, `none` when there is no regular
file. -/
def FS.content {ι : Type} (fs : FS ι) (i : ι) : Option Str :=
  match fs.nodes i with
  | some (Node.file c) => some c
  | _ => none

/-- The place `i` holds a regular file with the contents `content` afterwards. -/
def FS.put {ι : Type} [DecidableEq ι] (fs : FS ι) (i : ι) (content : Str) : FS ι :=
  { nodes := fun j => if j = i then some (Node.file content) else fs.nodes j }

/-- Every place of `chain` at which there is nothing becomes a directory. -/
def FS.mkdirs {ι : Type} [DecidableEq ι] (fs : FS ι) (chain : List ι) : FS ι :=
  { nodes := fun j => if j ∈ chain ∧ fs.nodes j = none then some Node.dir else fs.nodes j }

/-- The errors that the state of the file system forces on a system call. -/
inductive Errno where
  /-- No such file or directory. -/
  | ENOENT : Errno
  /-- Not a directory. -/
  | ENOTDIR : Errno
  /-- Is a directory. -/
  | EISDIR : Errno
deriving DecidableEq, Repr

/-- The reading of the clock that `time.Now()` returns, in the local zone:
`t.Date()` and `t.Clock()`. -/
structure Time where
  year : Nat
  month : Nat
  day : Nat
  hour : Nat
  minute : Nat
  second : Nat
deriving DecidableEq, Repr

/-- `appendInt` of the package `time`: the decimal digits of `x`, with zeros in
front of them up to `width` digits. -/
def appendInt (x width : Nat) : Str :=
  List.replicate (width - (Nat.toDigits 10 x).length) '0' ++ Nat.toDigits 10 x

/-- `t.Format(layout)` for a layout whose elements are `2006` (year, four
digits), `01` (month), `02` (day of the month), `15` (hour, 0 to 23), `04`
(minute) and `05` (second), two digits each; every other byte of such a layout
stands for itself.  The layout `2006-01-02_15-04-05` of this package is one. -/
def Time.Format (t : Time) : Str → Str
  | '2' :: '0' :: '0' :: '6' :: rest => appendInt t.year 4 ++ t.Format rest
  | '0' :: '1' :: rest => appendInt t.month 2 ++ t.Format rest
  | '0' :: '2' :: rest => appendInt t.day 2 ++ t.Format rest
  | '1' :: '5' :: rest => appendInt t.hour 2 ++ t.Format rest
  | '0' :: '4' :: rest => appendInt t.minute 2 ++ t.Format rest
  | '0' :: '5' :: rest => appendInt t.second 2 ++ t.Format rest
  | c :: rest => c :: t.Format rest
  | [] => []

/-- What lies outside the code during one call of `RotateAndCompressLog`: how
paths lead to places, which system calls fail and with what error, the clock,
the path join and the compressor. -/
structure RotateEnv (ε ι : Type) where
  /-- The place that a path names, or would name once made, links followed.
  Paths that lead to one object have one place. -/
  resolve : Str → ι
  /-- The places of the directories above a path, the outermost first: the
  directories that `os.MkdirAll(path)` makes, when missing, before it makes the
  path itself. -/
  ancestors : Str → List ι
  /-- The error value that the package `os` returns for a system error. -/
  errno : Errno → ε
  /-- Error of `os.MkdirAll` when it fails for a reason outside the state (a
  permission, a full disk). -/
  mkdirAllErr : Option ε
  /-- How many directories of the chain `os.MkdirAll` got through before such a
  failure. -/
  mkdirAllDone : Nat
  /-- Error of `os.Stat` other than "does not exist". -/
  statErr : Option ε
  /-- The size that `os.Stat` reports for a directory. -/
  dirSize : Nat
  /-- Error of `os.Open` for a reason outside the state. -/
  openErr : Option ε
  /-- Error of `os.Create` for a reason outside the state. -/
  createErr : Option ε
  /-- Error of `io.Copy` for a reason outside the state. -/
  copyErr : Option ε
  /-- Error of `gz.Close`. -/
  gzCloseErr : Option ε
  /-- Error of `out.Close`. -/
  outCloseErr : Option ε
  /-- Error of `os.Truncate` for a reason outside the state. -/
  truncateErr : Option ε
  /-- Whether a failing `os.Truncate` has emptied the file all the same. -/
  truncatedAnyway : Bool
  /-- The bytes found in the archive when `io.Copy`, `gz.Close` or `out.Close`
  has failed. -/
  junk : Str
  /-- The value of `time.Now()`. -/
  now : Time
  /-- The function `filepath.Join` on two elements. -/
  join : Str → Str → Str
  /-- The gzip stream of a text. -/
  compress : Str → Str

/-- The three answers of `os.Stat` that the code tells apart. -/
inductive StatResult (ε : Type) where
  | notExist : StatResult ε
  | failed : ε → StatResult ε
  | size : Nat → StatResult ε

/-- The directories that `os.MkdirAll(dir)` needs: the ones above `dir`, the
outermost first, then `dir` itself. -/
def dirChain {ε ι : Type} (env : RotateEnv ε ι) (dir : Str) : List ι :=
  env.ancestors dir ++ [env.resolve dir]

/-- `os.MkdirAll(dir, 0o755)`: the missing directories of the chain are made.
The call fails with `ENOTDIR` when a regular file stands at a place of the
chain; when it fails for another reason, the directories it got through exist.
No regular file is made or changed. -/
def osMkdirAll {ε ι : Type} [DecidableEq ι] (env : RotateEnv ε ι) (fs : FS ι) (dir : Str) :
    FS ι × Option ε :=
  match env.mkdirAllErr with
  | some e => (fs.mkdirs ((dirChain env dir).take env.mkdirAllDone), some e)
  | none =>
    if (dirChain env dir).any (fun i => (fs.content i).isSome) then
      (fs, some (env.errno Errno.ENOTDIR))
    else (fs.mkdirs (dirChain env dir), none)

/-- `os.Stat(path)`: the size of a regular file is the number of its bytes (the
files of a pseudo file system such as `/proc`, which report the size 0 whatever
they hold, are not part of the state), the size of a directory is the one the
file system reports. -/
def osStat {ε ι : Type} (env : RotateEnv ε ι) (fs : FS ι) (path : Str) : StatResult ε :=
  match env.statErr with
  | some e => StatResult.failed e
  | none =>
    match fs.nodes (env.resolve path) with
    | none => StatResult.notExist
    | some (Node.file content) => StatResult.size content.length
    | some Node.dir => StatResult.size env.dirSize

/-- `os.Open(path)`: a regular file and a directory can both be opened for
reading. -/
def osOpen {ε ι : Type} (env : RotateEnv ε ι) (fs : FS ι) (path : Str) : Option ε :=
  match env.openErr with
  | some e => some e
  | none =>
    match fs.nodes (env.resolve path) with
    | none => some (env.errno Errno.ENOENT)
    | some _ => none

/-- `os.Create(path)`: the file is made, or emptied when it exists; the call
fails with `EISDIR` on a directory. -/
def osCreate {ε ι : Type} [DecidableEq ι] (env : RotateEnv ε ι) (fs : FS ι) (path : Str) :
    FS ι × Option ε :=
  match env.createErr with
  | some e => (fs, some e)
  | none =>
    match fs.nodes (env.resolve path) with
    | some Node.dir => (fs, some (env.errno Errno.EISDIR))
    | _ => (fs.put (env.resolve path) [], none)

/-- `io.Copy(gz, in)`, `in` reading the file at `src` and `gz` writing to the
file at `dst`: on success the archive receives the gzip stream of what `src`
holds at that moment (the bytes of the archive are looked at only after the
compressor has been closed), on failure it holds `junk`.  Reading a directory
fails with `EISDIR`. -/
def ioCopy {ε ι : Type} [DecidableEq ι] (env : RotateEnv ε ι) (fs : FS ι) (dst src : Str) :
    FS ι × Option ε :=
  match env.copyErr with
  | some e => (fs.put (env.resolve dst) env.junk, some e)
  | none =>
    match fs.nodes (env.resolve src) with
    | some (Node.file content) => (fs.put (env.resolve dst) (env.compress content), none)
    | some Node.dir => (fs.put (env.resolve dst) env.junk, some (env.errno Errno.EISDIR))
    | none => (fs.put (env.resolve dst) env.junk, some (env.errno Errno.ENOENT))

/-- `gz.Close()` on the compressor writing to the file at `dst`. -/
def gzClose {ε ι : Type} [DecidableEq ι] (env : RotateEnv ε ι) (fs : FS ι) (dst : Str) :
    FS ι × Option ε :=
  match env.gzCloseErr with
  | some e => (fs.put (env.resolve dst) env.junk, some e)
  | none => (fs, none)

/-- `out.Close()` on the file at `dst`. -/
def outClose {ε ι : Type} [DecidableEq ι] (env : RotateEnv ε ι) (fs : FS ι) (dst : Str) :
    FS ι × Option ε :=
  match env.outCloseErr with
  | some e => (fs.put (env.resolve dst) env.junk, some e)
  | none => (fs, none)

/-- `os.Truncate(path, 0)`: a regular file is emptied. -/
def osTruncate {ε ι : Type} [DecidableEq ι] (env : RotateEnv ε ι) (fs : FS ι) (path : Str) :
    FS ι × Option ε :=
  match fs.nodes (env.resolve path) with
  | none => (fs, some (env.errno Errno.ENOENT))
  | some Node.dir => (fs, some (env.errno Errno.EISDIR))
  | some (Node.file _) =>
    match env.truncateErr with
    | some e => (if env.truncatedAnyway then fs.put (env.resolve path) [] else fs, some e)
    | none => (fs.put (env.resolve path) [], none)

/-- `logging.RotateAndCompressLog`: the file system afterwards and the error. -/
def RotateAndCompressLog {ε ι : Type} [DecidableEq ι] (env : RotateEnv ε ι) (fs : FS ι)
    (srcPath archiveDir : Str) : FS ι × Option ε :=
  let srcPath := TrimSpace srcPath
  let srcPath := if srcPath = [] then "server.log".toList else srcPath
  let archiveDir := TrimSpace archiveDir
  let archiveDir := if archiveDir = [] then "logs".toList else archiveDir
  match osMkdirAll env fs archiveDir with
  | (fs, some err) => (fs, some err)
  | (fs, none) =>
    match osStat env fs srcPath with
    | StatResult.notExist => (fs, none)
    | StatResult.failed err => (fs, some err)
    | StatResult.size n =>
      if n = 0 then (fs, none)
      else
        let ts := env.now.Format "2006-01-02_15-04-05".toList
        let dst := env.join archiveDir ("server_".toList ++ ts ++ ".log.gz".toList)
        match osOpen env fs srcPath with
        | some err => (fs, some err)
        | none =>
          match osCreate env fs dst with
          | (fs, some err) => (fs, some err)
          | (fs, none) =>
            let (fs, copyErr) := ioCopy env fs dst srcPath
            let (fs, closeErr) := gzClose env fs dst
            let (fs, outCloseErr) := outClose env fs dst
            if copyErr.isSome then (fs, copyErr)
            else if closeErr.isSome then (fs, closeErr)
            else if outCloseErr.isSome then (fs, outCloseErr)
            else osTruncate env fs srcPath

/-! ## style/chalk.go: the remaining decorations and `StripANSI` -/

/-- `Chalk.WithEnabled`. -/
def Chalk.WithEnabled (c : Chalk) (enabled : Bool) : Chalk := { c with enabled := enabled }

def Chalk.Italic (c : Chalk) : Chalk := c.code 3
def Chalk.Underline (c : Chalk) : Chalk := c.code 4
def Chalk.Inverse (c : Chalk) : Chalk := c.code 7
def Chalk.Strikethrough (c : Chalk) : Chalk := c.code 9
def Chalk.Red (c : Chalk) : Chalk := c.code 31
def Chalk.Green (c : Chalk) : Chalk := c.code 32
def Chalk.Yellow (c : Chalk) : Chalk := c.code 33
def Chalk.Blue (c : Chalk) : Chalk := c.code 34
def Chalk.Cyan (c : Chalk) : Chalk := c.code 36
def Chalk.BrightBlack (c : Chalk) : Chalk := c.code 90
def Chalk.BrightRed (c : Chalk) : Chalk := c.code 91
def Chalk.BrightGreen (c : Chalk) : Chalk := c.code 92
def Chalk.BrightYellow (c : Chalk) : Chalk := c.code 93
def Chalk.BrightMagenta (c : Chalk) : Chalk := c.code 95
def Chalk.BgBlack (c : Chalk) : Chalk := c.code 40
def Chalk.BgGreen (c : Chalk) : Chalk := c.code 42
def Chalk.BgBlue (c : Chalk) : Chalk := c.code 44
def Chalk.BgMagenta (c : Chalk) : Chalk := c.code 45
def Chalk.BgWhite (c : Chalk) : Chalk := c.code 47

/-- `Chalk.RGB`: `fmt.Sprintf("38;2;%d;%d;%d", r, g, b)` on three `uint8`. -/
def Chalk.RGB (c : Chalk) (r g b : Nat) : Chalk :=
  c.cloneWith ("38;2;".toList ++ Itoa r ++ ";".toList ++ Itoa g ++ ";".toList ++ Itoa b)

/-- `Chalk.Hex`. -/
def Chalk.Hex (c : Chalk) (hex : Str) : Chalk :=
  match parseHexColor hex with
  | some (r, g, b) => c.RGB r g b
  | none => c

/-- The bytes of the class `[0-9;]` of `ansiPattern`. -/
def isCodeChar (c : Char) : Bool := c.isDigit || c == ';'

/-- A match of `ansiPattern` (ESC, `[`, a longest run of `[0-9;]`, `m`) at the
start of the text: the text after the match, or `none` when there is no match. -/
def matchANSI (s : Str) : Option Str :=
  match s with
  | '\x1b' :: '[' :: rest =>
    match rest.dropWhile isCodeChar with
    | 'm' :: tail => some tail
    | _ => none
  | _ => none

/-- `ansiPattern.ReplaceAllString(s, "")`: the text is read from the left; a
match is left out and reading goes on behind it, any other byte is kept.  Every
step costs one unit of fuel; without fuel the rest of the text is kept. -/
def stripLoop : Nat → Str → Str
  | 0, s => s
  | _ + 1, [] => []
  | fuel + 1, c :: rest =>
    match matchANSI (c :: rest) with
    | some tail => stripLoop fuel tail
    | none => c :: stripLoop fuel rest

/-- `style.StripANSI`: a step never needs more fuel than the text has bytes. -/
def StripANSI (s : Str) : Str := stripLoop s.length s

/-! ## logging/logging.go: the style processor with a provider that has a state -/

/-- A `FieldStyleProvider` whose `StyleField` reads and changes a state of its
own. -/
abbrev StatefulStyleProvider (σ : Type) := σ → Str → Str → (Chalk × Bool) × σ

/-- `fieldStyleProcessor.Process` for a provider with a state: the loop carries
the record and the state of the provider. -/
def styleLoopStateful {σ : Type} (sp : StatefulStyleProvider σ) (rec : LogRecord) (s : σ) :
    LogRecord × σ :=
  forRange rec.Fields.length (fun i (st : LogRecord × σ) =>
    match st.1.Fields[i]? with
    | none => st
    | some f =>
      let value := if f.ValueOut ≠ [] then f.ValueOut else f.Value
      let r := sp st.2 f.Key value
      if r.1.2 then
        (st.1.updField i (fun f => { f with Style := r.1.1, Styled := true }), r.2)
      else (st.1, r.2)) (rec, s)

/-! ## Reference definitions used to state the properties -/

/-- What the error fallback does to one field. -/
def errFallback (errStyle : Chalk) (f : RecordField) : RecordField :=
  if f.Styled = false ∧ (f.Key = "err".toList ∨ f.Key = "error".toList) then
    { f with Style := errStyle, Styled := true }
  else f

/-- The keys that `ParseTextLogLine` stores in a scalar of the record. -/
def reservedKeys : List Str := ["time".toList, "level".toList, "msg".toList]

/-- The record field a token stands for: the token is cut at its first `=`, which
must not be its first byte, and the key must not be reserved. -/
def fieldOfToken (tok : Str) : Option RecordField :=
  if '=' ∈ tok ∧ 0 < tok.indexOf '=' ∧ tok.take (tok.indexOf '=') ∉ reservedKeys then
    some { Key := tok.take (tok.indexOf '='), Value := tok.drop (tok.indexOf '=' + 1),
           ValueOut := [], ShowKey := true, Styled := false, Style := Chalk.zero }
  else none

/-- The text after the first `=` of the last token whose text before its first
`=` is `key`; empty when there is no such token. -/
def lastValueOf (key : Str) (toks : List Str) : Str :=
  match (toks.filter (fun t => decide ('=' ∈ t ∧ t.take (t.indexOf '=') = key))).getLast? with
  | some t => t.drop (t.indexOf '=' + 1)
  | none => []

/-- The record `ParseTextLogLine` starts from. -/
def emptyRecord (line : Str) : LogRecord :=
  { Raw := line, Time := [], Level := [], Message := [], Fields := [] }

/-- The value of a field that is shown: its display value when that is
non-empty, its raw value otherwise. -/
def effectiveValue (f : RecordField) : Str :=
  if f.ValueOut ≠ [] then f.ValueOut else f.Value

/-- The effective value, wrapped in the field's style when the field is styled. -/
def styledValue (f : RecordField) : Str :=
  if f.Styled then f.Style.Wrap (effectiveValue f) else effectiveValue f

/-- Key visibility: the field's own `ShowKey`, forced to false when the profile
is in compact mode and maps the key to true in its hide list. -/
def keyVisible (p : Profile) (f : RecordField) : Bool :=
  f.ShowKey && !(p.CompactMode && mapGet p.HideKeys f.Key == some true)

/-- The part a field contributes to the rendered line. -/
def fieldPart (p : Profile) (f : RecordField) : Str :=
  if keyVisible p f then f.Key ++ "=".toList ++ styledValue f else styledValue f

/-- The theme style of a badge, chosen by the uppercased level. -/
def badgeStyle (theme : Theme) (lvl : Str) : Chalk :=
  if lvl = "DEBUG".toList then theme.Debug
  else if lvl = "WARN".toList then theme.Warn
  else if lvl = "ERROR".toList then theme.Error
  else theme.Info

/-- A profile that sets only a hide list: `Profile{HideKeys: map[string]bool{"k": true}}`. -/
def hideKProfile : Profile :=
  { HideKeys := some (mapLit [("k".toList, true)]), LevelLabels := none, CompactMode := false }

/-- The zero profile `Profile{}`: both maps nil, `CompactMode` false. -/
def zeroProfile : Profile :=
  { HideKeys := none, LevelLabels := none, CompactMode := false }

/-- A profile with both maps set and empty. -/
def emptyMapsProfile : Profile :=
  { HideKeys := some (mapLit []), LevelLabels := some (mapLit []), CompactMode := true }

/-- An unstyled field `key=value` as the parser makes it. -/
def plainField (key value : Str) : RecordField :=
  { Key := key, Value := value, ValueOut := [], ShowKey := true, Styled := false,
    Style := Chalk.zero }

/-- The tokenizer as a function of the unread text `rest`, the text `cur` of the
token that is open (if any), and the two quote flags: the tokens still to be
emitted. -/
def scanTokens : List Char → Option Str → Bool → Bool → List Str
  | [], none, _, _ => []
  | [], some t, _, _ => [t]
  | c :: rest, cur, q, e =>
    if cur = none ∧ c = ' ' then scanTokens rest none q e
    else if q then
      if e then scanTokens rest (some (cur.getD [] ++ [c])) q false
      else if c = '\\' then scanTokens rest (some (cur.getD [] ++ [c])) q true
      else if c = '"' then scanTokens rest (some (cur.getD [] ++ [c])) false e
      else scanTokens rest (some (cur.getD [] ++ [c])) q e
    else if c = '"' then scanTokens rest (some (cur.getD [] ++ [c])) true e
    else if c = ' ' then cur.getD [] :: scanTokens rest none q e
    else scanTokens rest (some (cur.getD [] ++ [c])) q e

/-- The text of the open token when `pre` has been read. -/
def curOf (pre : Str) (st : SplitState) : Option Str :=
  if st.start = -1 then none else some (pre.drop st.start.toNat)

/-- The statements of `splitQuotedTokens` after its loop. -/
def splitFinish (s : Str) (st : SplitState) : List Str :=
  if st.start ≠ -1 then st.tokens ++ [s.drop st.start.toNat] else st.tokens

/-- The pieces of a line between its spaces, empty pieces left out. -/
def spacePieces (line : Str) : List Str :=
  (line.splitOn ' ').filter (fun piece => decide (piece ≠ []))

/-- The record that `Colorize` hands to the renderer: the parsed line after every
processor of the pipeline has run. -/
def Pipeline.processed (p : Pipeline) (line : Str) : LogRecord :=
  p.processors.foldl (fun rec proc => proc rec) (ParseTextLogLine line)

/-- The renderer that `NewPipeline` builds for the default theme and profile. -/
def defaultPipelineRenderer : defaultRenderer :=
  { theme := DefaultTheme, profile := normalizeProfile DefaultProfile }

/-- No two neighbouring bytes are both spaces. -/
def noDoubleSpace (out : Str) : Prop :=
  out.Chain' (fun a b => ¬ (a = ' ' ∧ b = ' '))

/-- A record with the fields `error=boom`, an `err` field that is already styled,
and `Error=x`. -/
def errDemoRecord : LogRecord :=
  { Raw := [], Time := [], Level := [], Message := [],
    Fields := [plainField "error".toList "boom".toList,
      { plainField "err".toList "e".toList with Styled := true, Style := New.Bold },
      plainField "Error".toList "x".toList] }

/-- What the transform processor does to one field. -/
def transformField (t : FieldTransformer) (f : RecordField) : RecordField :=
  if (t f.Key f.Value).2 then { f with ValueOut := (t f.Key f.Value).1 } else f

/-- What the style processor does to one field. -/
def styleField (sp : FieldStyleProvider) (f : RecordField) : RecordField :=
  if (sp f.Key (effectiveValue f)).2 then
    { f with Style := (sp f.Key (effectiveValue f)).1, Styled := true }
  else f

/-- A transform hook that answers every field with the empty display value. -/
def blankTransformer : FieldTransformer := fun _ _ => ([], true)

/-- The input of `ColorizingWriter.Write` read byte by byte: `cur` is the line
read so far, `rest` the unread bytes.  The result is the text left in the
buffer, the state of the sink and the error. -/
def scanLines {σ ε : Type} (pl : Option Pipeline) (write : SinkWrite σ ε) :
    Str → List Char → σ → Str × σ × Option ε
  | cur, [], dst => (cur, dst, none)
  | cur, c :: rest, dst =>
    if c = '\n' then
      match write dst (ColorizeLogLine pl cur ++ "\n".toList) with
      | (dst, some err) => (rest, dst, some err)
      | (dst, none) => scanLines pl write [] rest dst
    else scanLines pl write (cur ++ [c]) rest dst

/-- The sink after the given lines have been written to it one by one, each
colorized and followed by a newline. -/
def emitLines {σ ε : Type} (pl : Option Pipeline) (write : SinkWrite σ ε) (dst : σ)
    (lines : List Str) : σ :=
  lines.foldl (fun s line => (write s (ColorizeLogLine pl line ++ "\n".toList)).1) dst

/-- Every sink called once, in order, on the record: the world afterwards and
what each call returned. -/
def callAll {κ ρ lvl ω ε : Type} (ctx : κ) (rec : ρ) :
    List (Handler κ ρ lvl ω ε) → ω → ω × List (Option ε)
  | [], world => (world, [])
  | next :: rest, world =>
    let r := next.Handle ctx rec world
    let rs := callAll ctx rec rest r.1
    (rs.1, r.2 :: rs.2)

/-- A sink that keeps the bytes written to it and counts the calls; its second
call fails with the error `boom` and writes nothing. -/
def secondCallFails : SinkWrite (Str × Nat) Str := fun s x =>
  if s.2 = 1 then ((s.1, s.2 + 1), some "boom".toList) else ((s.1 ++ x, s.2 + 1), none)

/-- A sink that appends the bytes written to it and never fails. -/
def appendSink : SinkWrite Str Str := fun s x => (s ++ x, none)

/-- A sink that logs its name in the world and fails with the error `errA`. -/
def sinkA : Handler Unit Str Nat (List Str) Str :=
  { Enabled := fun _ _ => false,
    Handle := fun _ rec world => (world ++ ["A".toList ++ rec], some "errA".toList) }

/-- A sink that logs its name in the world and succeeds; it is enabled from
level 4 on. -/
def sinkB : Handler Unit Str Nat (List Str) Str :=
  { Enabled := fun _ level => decide (4 ≤ level),
    Handle := fun _ rec world => (world ++ ["B".toList ++ rec], none) }

/-- The source path that `RotateAndCompressLog` works on. -/
def rotateSrc (srcPath : Str) : Str :=
  if TrimSpace srcPath = [] then "server.log".toList else TrimSpace srcPath

/-- The archive directory that `RotateAndCompressLog` works on. -/
def rotateDir (archiveDir : Str) : Str :=
  if TrimSpace archiveDir = [] then "logs".toList else TrimSpace archiveDir

/-- The path of the archive: `server_<time>.log.gz` in the archive directory. -/
def rotateDst {ε ι : Type} (env : RotateEnv ε ι) (archiveDir : Str) : Str :=
  env.join (rotateDir archiveDir)
    ("server_".toList ++ env.now.Format "2006-01-02_15-04-05".toList ++ ".log.gz".toList)

/-- The steps of `RotateAndCompressLog` that follow a successful `os.MkdirAll`,
on the source path `src` and the archive path `dst`. -/
def rotateTail {ε ι : Type} [DecidableEq ι] (env : RotateEnv ε ι) (fs : FS ι) (src dst : Str) :
    FS ι × Option ε :=
  match osStat env fs src with
  | StatResult.notExist => (fs, none)
  | StatResult.failed err => (fs, some err)
  | StatResult.size n =>
    if n = 0 then (fs, none)
    else
      match osOpen env fs src with
      | some err => (fs, some err)
      | none =>
        match osCreate env fs dst with
        | (fs, some err) => (fs, some err)
        | (fs, none) =>
          let r3 := ioCopy env fs dst src
          let r4 := gzClose env r3.1 dst
          let r5 := outClose env r4.1 dst
          if r3.2.isSome then (r5.1, r3.2)
          else if r4.2.isSome then (r5.1, r4.2)
          else if r5.2.isSome then (r5.1, r5.2)
          else osTruncate env r5.1 src

/-- Two decimal digits. -/
def twoDigits (n : Nat) : Str := [Nat.digitChar (n / 10), Nat.digitChar (n % 10)]

/-- Four decimal digits. -/
def fourDigits (n : Nat) : Str :=
  [Nat.digitChar (n / 1000), Nat.digitChar (n / 100 % 10), Nat.digitChar (n / 10 % 10),
    Nat.digitChar (n % 10)]

/-- The time written `YYYY-MM-DD_HH-MM-SS`. -/
def stampOf (t : Time) : Str :=
  fourDigits t.year ++ '-' :: twoDigits t.month ++ '-' :: twoDigits t.day ++
    '_' :: twoDigits t.hour ++ '-' :: twoDigits t.minute ++ '-' :: twoDigits t.second

/-- A relative path written with slashes, without its empty elements and its
elements `.`: `./logs//x` and `logs/x` lead to the same place. -/
def cleanPath (p : Str) : Str :=
  "/".toList.intercalate ((p.splitOn '/').filter (fun name => name ≠ [] ∧ name ≠ ".".toList))

/-- The directories above a relative path written with slashes, the outermost
first: `a` and `a/b` for `a/b/c`. -/
def parentDirs (p : Str) : List Str :=
  ((p.splitOn '/').dropLast.inits.tail).map (fun names => "/".toList.intercalate names)

/-- The text of a system error. -/
def errnoText : Errno → Str
  | Errno.ENOENT => "no such file or directory".toList
  | Errno.ENOTDIR => "not a directory".toList
  | Errno.EISDIR => "is a directory".toList

/-- An environment in which no step fails for a reason outside the state, on
2 November 2026 at midnight, for relative paths in a file system without links.
A place is a path as `cleanPath` writes it; a directory has the size 4096; paths
are joined with a slash and the compressor puts `gz:` before the text. -/
def calmEnv : RotateEnv Str Str :=
  { resolve := cleanPath, ancestors := fun p => parentDirs (cleanPath p),
    errno := errnoText, mkdirAllErr := none, mkdirAllDone := 0, statErr := none,
    dirSize := 4096, openErr := none, createErr := none, copyErr := none,
    gzCloseErr := none, outCloseErr := none, truncateErr := none, truncatedAnyway := false,
    junk := "gz:".toList,
    now := { year := 2026, month := 11, day := 2, hour := 0, minute := 0, second := 0 },
    join := fun dir name => dir ++ "/".toList ++ name,
    compress := fun text => "gz:".toList ++ text }

/-- The inverse of the compressor of `calmEnv`. -/
def calmGunzip (archive : Str) : Option Str :=
  if "gz:".toList.isPrefixOf archive then some (archive.drop 3) else none

/-- A file system holding only `server.log` with the text `hello`. -/
def oneLogFS : FS Str :=
  { nodes := fun q => if q = "server.log".toList then some (Node.file "hello".toList) else none }

/-- A file system holding `server.log` and an archive made in the same second. -/
def sameSecondFS : FS Str :=
  { nodes := fun q =>
      if q = "server.log".toList then some (Node.file "hello".toList)
      else if q = "logs".toList then some Node.dir
      else if q = "logs/server_2026-11-02_00-00-00.log.gz".toList then
        some (Node.file "gz:old".toList)
      else none }

/-- A file system whose only file has the very path of the archive to be made. -/
def aliasFS : FS Str :=
  { nodes := fun q =>
      if q = "logs".toList then some Node.dir
      else if q = "logs/server_2026-11-02_00-00-00.log.gz".toList then
        some (Node.file "hello".toList)
      else none }

/-- An empty file system. -/
def emptyFS : FS Str := { nodes := fun _ => none }

/-- A date and a time of day of the calendar, up to the year 9999. -/
def Time.calendar (t : Time) : Prop :=
  t.year ≤ 9999 ∧ 1 ≤ t.month ∧ t.month ≤ 12 ∧ 1 ≤ t.day ∧ t.day ≤ 31 ∧ t.hour ≤ 23 ∧
    t.minute ≤ 59 ∧ t.second ≤ 59

/-- The file system once `os.MkdirAll` has returned. -/
def afterMkdirAll {ε ι : Type} [DecidableEq ι] (env : RotateEnv ε ι) (fs : FS ι)
    (archiveDir : Str) : FS ι :=
  (osMkdirAll env fs (rotateDir archiveDir)).1

/-- The file system once `os.Create` has returned. -/
def afterCreate {ε ι : Type} [DecidableEq ι] (env : RotateEnv ε ι) (fs : FS ι)
    (archiveDir : Str) : FS ι :=
  (osCreate env (afterMkdirAll env fs archiveDir) (rotateDst env archiveDir)).1

/-- Whether the text of a token before its first `=` is `key`. -/
def hasKey (key : Str) : Str → Bool :=
  fun t => decide ('=' ∈ t ∧ t.take (t.indexOf '=') = key)

/-- The text of a token after its first `=`. -/
def valueOfToken (tok : Str) : Str := tok.drop (tok.indexOf '=' + 1)

/-- A provider without a state of its own, seen as a stateful one that records
every query `(key, value)` it is asked. -/
def loggedProvider (sp : FieldStyleProvider) : StatefulStyleProvider (List (Str × Str)) :=
  fun log key value => (sp key value, log ++ [(key, value)])

/-- A style hook that styles the key `name` in bold and nothing else. -/
def nameBold : FieldStyleProvider :=
  fun key _ => if key = "name".toList then (New.Bold, true) else (Chalk.zero, false)

/-- A transform hook that shows the value of the key `dimension` as `OVERWORLD`
and leaves every other field alone. -/
def dimensionUpper : FieldTransformer :=
  fun key _ => if key = "dimension".toList then ("OVERWORLD".toList, true) else ([], false)

/-- A record with the fields `name=hub` and `dimension=overworld`. -/
def twoFieldRecord : LogRecord :=
  { Raw := "raw".toList, Time := "t".toList, Level := "info".toList, Message := "m".toList,
    Fields := [plainField "name".toList "hub".toList,
      plainField "dimension".toList "overworld".toList] }

/-- The decorations of `style/chalk.go` that add a fixed code, each with the
number it passes to `Chalk.code`. -/
def decorationTable : List ((Chalk → Chalk) × Int) :=
  [(Chalk.Bold, 1), (Chalk.Dim, 2), (Chalk.Italic, 3), (Chalk.Underline, 4),
   (Chalk.Inverse, 7), (Chalk.Strikethrough, 9),
   (Chalk.Black, 30), (Chalk.Red, 31), (Chalk.Green, 32), (Chalk.Yellow, 33),
   (Chalk.Blue, 34), (Chalk.Magenta, 35), (Chalk.Cyan, 36), (Chalk.White, 37),
   (Chalk.Gray, 90),
   (Chalk.BrightBlack, 90), (Chalk.BrightRed, 91), (Chalk.BrightGreen, 92),
   (Chalk.BrightYellow, 93), (Chalk.BrightBlue, 94), (Chalk.BrightMagenta, 95),
   (Chalk.BrightCyan, 96), (Chalk.BrightWhite, 97),
   (Chalk.BgBlack, 40), (Chalk.BgRed, 41), (Chalk.BgGreen, 42), (Chalk.BgYellow, 43),
   (Chalk.BgBlue, 44), (Chalk.BgMagenta, 45), (Chalk.BgCyan, 46), (Chalk.BgWhite, 47)]

/-- The values of `Chalk` that a caller can make: from `New()` or `Disabled()`
by the methods of `style/chalk.go`. -/
inductive Built : Chalk → Prop where
  | new : Built New
  | disabled : Built Disabled
  | withEnabled (c : Chalk) (enabled : Bool) : Built c → Built (c.WithEnabled enabled)
  | fixed (p : (Chalk → Chalk) × Int) (c : Chalk) :
      p ∈ decorationTable → Built c → Built (p.1 c)
  | rgb (c : Chalk) (r g b : Nat) : Built c → Built (c.RGB r g b)
  | bgRGB (c : Chalk) (r g b : Nat) : Built c → Built (c.BgRGB r g b)
  | hex (c : Chalk) (h : Str) : Built c → Built (c.Hex h)
  | bgHex (c : Chalk) (h : Str) : Built c → Built (c.BgHex h)

/-- The keys that the default pipeline treats in a way of its own: the three
scalars, the two error keys and the keys hidden by the default profile. -/
def specialKeys : List Str :=
  ["time".toList, "level".toList, "msg".toList, "err".toList, "error".toList,
   "player".toList, "world".toList]

/-! ## Loops over the fields -/

theorem forRange_succ {σ : Type} (n : Nat) (body : Nat → σ → σ) (init : σ) :
    forRange (n + 1) body init = body n (forRange n body init) := by
  simp [forRange, List.range_succ, List.foldl_append]

theorem updField_of_getElem? (rec : LogRecord) (i : Nat) (g : RecordField → RecordField)
    (f : RecordField) (h : rec.Fields[i]? = some f) :
    rec.updField i g = { rec with Fields := rec.Fields.set i (g f) } := by
  simp [LogRecord.updField, h]

theorem set_self_of_getElem? {α : Type} (l : List α) (i : Nat) (a : α) (h : l[i]? = some a) :
    l.set i a = l := by
  apply List.ext_getElem?
  intro j
  by_cases hj : i = j
  · subst hj
    rw [List.getElem?_set_self (by
      rcases List.getElem?_eq_some.1 h with ⟨hlt, _⟩; exact hlt), h]
  · rw [List.getElem?_set_ne hj]

/-- A loop that rewrites every field in place with `h` maps `h` over the fields. -/
theorem forRange_fields_map (h : RecordField → RecordField) (body : Nat → LogRecord → LogRecord)
    (hbody : ∀ i (r : LogRecord) f, r.Fields[i]? = some f →
      body i r = { r with Fields := r.Fields.set i (h f) })
    (rec : LogRecord) :
    forRange rec.Fields.length body rec = { rec with Fields := rec.Fields.map h } := by
  have key : ∀ k, k ≤ rec.Fields.length →
      forRange k body rec =
        { rec with Fields := (rec.Fields.take k).map h ++ rec.Fields.drop k } := by
    intro k
    induction k with
    | zero => intro _; simp [forRange]
    | succ k ih =>
      intro hk
      have hlt : k < rec.Fields.length := hk
      rw [forRange_succ, ih (Nat.le_of_lt hlt)]
      have hget : ((List.map h (List.take k rec.Fields) ++ List.drop k rec.Fields))[k]?
          = some rec.Fields[k] := by
        rw [List.getElem?_append_right (by simp [Nat.min_eq_left (Nat.le_of_lt hlt)])]
        simp [Nat.min_eq_left (Nat.le_of_lt hlt), List.getElem?_eq_getElem hlt]
      rw [hbody k _ _ hget]
      congr 1
      simp only
      rw [List.set_append_right _ _ (by simp [Nat.min_eq_left (Nat.le_of_lt hlt)])]
      simp only [List.length_map, List.length_take, Nat.min_eq_left (Nat.le_of_lt hlt),
        Nat.sub_self]
      rw [List.drop_eq_getElem_cons hlt, List.set_cons_zero, List.take_succ,
        List.getElem?_eq_getElem hlt]
      simp only [Option.toList, List.map_append, List.map_cons, List.map_nil, List.append_assoc,
        List.singleton_append]
  have := key rec.Fields.length (Nat.le_refl _)
  simpa using this

theorem errorFieldProcessor_Process_eq (p : errorFieldProcessor) (rec : LogRecord) :
    p.Process rec = { rec with Fields := rec.Fields.map (errFallback p.errStyle) } := by
  unfold errorFieldProcessor.Process
  apply forRange_fields_map
  intro i r f hf
  simp only [hf]
  cases hs : f.Styled with
  | true =>
    have h1 : errFallback p.errStyle f = f := by
      unfold errFallback
      rw [if_neg (by rw [hs]; rintro ⟨h, _⟩; cases h)]
    rw [h1, set_self_of_getElem? _ _ _ hf]; simp
  | false =>
    by_cases hk : f.Key = "err".toList ∨ f.Key = "error".toList
    · have h1 : errFallback p.errStyle f = { f with Style := p.errStyle, Styled := true } := by
        unfold errFallback
        rw [if_pos ⟨hs, hk⟩]
      rw [h1, if_neg (by simp), if_pos hk, updField_of_getElem? _ _ _ _ hf]
    · have h1 : errFallback p.errStyle f = f := by
        unfold errFallback
        rw [if_neg (fun h => hk h.2)]
      rw [h1, set_self_of_getElem? _ _ _ hf, if_neg (by simp), if_neg hk]

/-! ## Parser -/

theorem IndexByte_of_mem (s : Str) (c : Char) (h : c ∈ s) :
    IndexByte s c = (s.indexOf c : Nat) := by
  simp [IndexByte, h]

theorem IndexByte_of_not_mem (s : Str) (c : Char) (h : c ∉ s) : IndexByte s c = -1 := by
  simp [IndexByte, h]

theorem indexOf_pos_iff (s : Str) (c : Char) (h : c ∈ s) :
    0 < s.indexOf c ↔ s.head? ≠ some c := by
  cases s with
  | nil => simp at h
  | cons a t =>
    by_cases hac : a = c
    · subst hac; simp
    · have : (a :: t).indexOf c = t.indexOf c + 1 := by
        rw [List.indexOf_cons_ne _ hac]
      rw [this]
      simp [hac]

/-- A token without a usable `=` leaves the record as it is. -/
theorem parseToken_skip (rec : LogRecord) (tok : Str)
    (h : '=' ∉ tok ∨ tok.head? = some '=') : parseToken rec tok = rec := by
  unfold parseToken
  by_cases hm : '=' ∈ tok
  · have h0 : ¬ 0 < tok.indexOf '=' := by
      rw [indexOf_pos_iff tok '=' hm]
      rcases h with h | h
      · exact absurd hm h
      · simp [h]
    have : IndexByte tok '=' ≤ 0 := by
      rw [IndexByte_of_mem _ _ hm]; omega
    simp [this]
  · simp [IndexByte_of_not_mem _ _ hm]

/-- A token with a usable `=`: the record after the loop body. -/
theorem parseToken_usable (rec : LogRecord) (tok : Str)
    (hm : '=' ∈ tok) (hpos : 0 < tok.indexOf '=') :
    parseToken rec tok =
      if tok.take (tok.indexOf '=') = "time".toList then
        { rec with Time := tok.drop (tok.indexOf '=' + 1) }
      else if tok.take (tok.indexOf '=') = "level".toList then
        { rec with Level := Trim (tok.drop (tok.indexOf '=' + 1)) "\"".toList }
      else if tok.take (tok.indexOf '=') = "msg".toList then
        { rec with Message := tok.drop (tok.indexOf '=' + 1) }
      else { rec with Fields := rec.Fields ++
        [{ Key := tok.take (tok.indexOf '='), Value := tok.drop (tok.indexOf '=' + 1),
           ValueOut := [], ShowKey := true, Styled := false, Style := Chalk.zero }] } := by
  unfold parseToken
  have h1 : IndexByte tok '=' = (tok.indexOf '=' : Nat) := IndexByte_of_mem _ _ hm
  have h2 : ¬ (IndexByte tok '=' ≤ 0) := by rw [h1]; omega
  simp only [h1, Int.toNat_ofNat] at h2 ⊢
  rw [if_neg h2]

theorem usable_or_skip (tok : Str) :
    ('=' ∈ tok ∧ 0 < tok.indexOf '=') ∨ ('=' ∉ tok ∨ tok.head? = some '=') := by
  by_cases hm : '=' ∈ tok
  · by_cases hp : 0 < tok.indexOf '='
    · exact Or.inl ⟨hm, hp⟩
    · right; right
      rw [indexOf_pos_iff tok '=' hm] at hp
      exact not_not.1 hp
  · exact Or.inr (Or.inl hm)

theorem parseToken_fields (rec : LogRecord) (tok : Str) :
    (parseToken rec tok).Fields = rec.Fields ++ (fieldOfToken tok).toList := by
  rcases usable_or_skip tok with ⟨hm, hp⟩ | hs
  · rw [parseToken_usable rec tok hm hp]
    unfold fieldOfToken reservedKeys
    by_cases h1 : tok.take (tok.indexOf '=') = "time".toList
    · simp [h1, hm, hp]
    by_cases h2 : tok.take (tok.indexOf '=') = "level".toList
    · simp [h1, h2, hm, hp]
    by_cases h3 : tok.take (tok.indexOf '=') = "msg".toList
    · simp [h1, h2, h3, hm, hp]
    rw [if_neg h1, if_neg h2, if_neg h3]
    rw [if_pos ⟨hm, hp, by
      intro hmem
      simp only [List.mem_cons, List.mem_singleton] at hmem
      rcases hmem with h | h | h | h
      · exact h1 h
      · exact h2 h
      · exact h3 h
      · cases h⟩]
    rfl
  · rw [parseToken_skip rec tok hs]
    have : fieldOfToken tok = none := by
      unfold fieldOfToken
      rw [if_neg]
      rintro ⟨hm, hp, _⟩
      rw [indexOf_pos_iff tok '=' hm] at hp
      rcases hs with hs | hs
      · exact hs hm
      · exact hp hs
    simp [this]

theorem foldl_parseToken_fields (toks : List Str) (rec : LogRecord) :
    (toks.foldl parseToken rec).Fields = rec.Fields ++ toks.filterMap fieldOfToken := by
  induction toks generalizing rec with
  | nil => simp
  | cons t ts ih =>
    rw [List.foldl_cons, ih, parseToken_fields]
    cases h : fieldOfToken t <;> simp [List.filterMap_cons, h]

theorem foldl_parseToken_filter (toks : List Str) (rec : LogRecord) :
    toks.foldl parseToken rec =
      (toks.filter (fun tok => decide ('=' ∈ tok ∧ tok.head? ≠ some '='))).foldl parseToken rec := by
  induction toks generalizing rec with
  | nil => rfl
  | cons t ts ih =>
    by_cases h : '=' ∈ t ∧ t.head? ≠ some '='
    · rw [List.filter_cons_of_pos (by simpa using h), List.foldl_cons, List.foldl_cons, ih]
    · rw [List.filter_cons_of_neg (by simpa using h), List.foldl_cons, ← ih]
      rw [parseToken_skip]
      by_cases hm : '=' ∈ t
      · right
        by_contra hh
        exact h ⟨hm, hh⟩
      · exact Or.inl hm

/-- C2: the fields of the parsed record are, in token order, the fields of the
tokens whose first `=` is not at index 0 and whose key is not `time`, `level` or
`msg` (key before the `=`, value after it, key shown, no display value, no
style); tokens with no `=` or with `=` first can be dropped from the line's
tokens without changing the record. -/
theorem C2_parse_fields (line : Str) :
    (ParseTextLogLine line).Fields = (splitQuotedTokens line).filterMap fieldOfToken ∧
    ParseTextLogLine line =
      ((splitQuotedTokens line).filter
        (fun tok => decide ('=' ∈ tok ∧ tok.head? ≠ some '='))).foldl parseToken
        (emptyRecord line) := by
  constructor
  · unfold ParseTextLogLine
    rw [foldl_parseToken_fields]
    simp
  · unfold ParseTextLogLine emptyRecord
    exact foldl_parseToken_filter _ _

theorem parseToken_time (rec : LogRecord) (tok : Str) :
    (parseToken rec tok).Time =
      if '=' ∈ tok ∧ tok.take (tok.indexOf '=') = "time".toList then
        tok.drop (tok.indexOf '=' + 1) else rec.Time := by
  rcases usable_or_skip tok with ⟨hm, hp⟩ | hs
  · rw [parseToken_usable rec tok hm hp]
    split_ifs <;> simp_all
  · rw [parseToken_skip rec tok hs, if_neg]
    rintro ⟨hm, hk⟩
    rcases hs with hs | hs
    · exact hs hm
    · have := (indexOf_pos_iff tok '=' hm).not.2 (not_not.2 hs)
      have h0 : tok.indexOf '=' = 0 := by omega
      rw [h0] at hk
      simp at hk

theorem parseToken_message (rec : LogRecord) (tok : Str) :
    (parseToken rec tok).Message =
      if '=' ∈ tok ∧ tok.take (tok.indexOf '=') = "msg".toList then
        tok.drop (tok.indexOf '=' + 1) else rec.Message := by
  rcases usable_or_skip tok with ⟨hm, hp⟩ | hs
  · rw [parseToken_usable rec tok hm hp]
    split_ifs <;> simp_all
  · rw [parseToken_skip rec tok hs, if_neg]
    rintro ⟨hm, hk⟩
    rcases hs with hs | hs
    · exact hs hm
    · have := (indexOf_pos_iff tok '=' hm).not.2 (not_not.2 hs)
      have h0 : tok.indexOf '=' = 0 := by omega
      rw [h0] at hk
      simp at hk

theorem parseToken_level (rec : LogRecord) (tok : Str) :
    (parseToken rec tok).Level =
      if '=' ∈ tok ∧ tok.take (tok.indexOf '=') = "level".toList then
        Trim (tok.drop (tok.indexOf '=' + 1)) "\"".toList else rec.Level := by
  rcases usable_or_skip tok with ⟨hm, hp⟩ | hs
  · rw [parseToken_usable rec tok hm hp]
    split_ifs <;> simp_all
  · rw [parseToken_skip rec tok hs, if_neg]
    rintro ⟨hm, hk⟩
    rcases hs with hs | hs
    · exact hs hm
    · have := (indexOf_pos_iff tok '=' hm).not.2 (not_not.2 hs)
      have h0 : tok.indexOf '=' = 0 := by omega
      rw [h0] at hk
      simp at hk

theorem lastValueOf_append_singleton (key : Str) (toks : List Str) (t : Str) :
    lastValueOf key (toks ++ [t]) =
      if '=' ∈ t ∧ t.take (t.indexOf '=') = key then t.drop (t.indexOf '=' + 1)
      else lastValueOf key toks := by
  unfold lastValueOf
  rw [List.filter_append]
  by_cases h : '=' ∈ t ∧ t.take (t.indexOf '=') = key
  · rw [if_pos h, List.filter_cons_of_pos (by simpa using h)]
    simp
  · rw [if_neg h, List.filter_cons_of_neg (by simpa using h)]
    simp

theorem Trim_nil (cutset : Str) : Trim [] cutset = [] := by
  simp [Trim, List.rdropWhile]

theorem foldl_parseToken_scalars (line : Str) (toks : List Str) :
    (toks.foldl parseToken (emptyRecord line)).Time = lastValueOf "time".toList toks ∧
    (toks.foldl parseToken (emptyRecord line)).Level =
      Trim (lastValueOf "level".toList toks) "\"".toList ∧
    (toks.foldl parseToken (emptyRecord line)).Message = lastValueOf "msg".toList toks := by
  induction toks using List.reverseRecOn with
  | nil => simp [emptyRecord, lastValueOf, Trim_nil]
  | append_singleton ts t ih =>
    obtain ⟨ih1, ih2, ih3⟩ := ih
    rw [List.foldl_append, List.foldl_cons, List.foldl_nil]
    refine ⟨?_, ?_, ?_⟩
    · rw [parseToken_time, lastValueOf_append_singleton, ih1]
    · rw [parseToken_level, lastValueOf_append_singleton, ih2]
      split_ifs <;> rfl
    · rw [parseToken_message, lastValueOf_append_singleton, ih3]

theorem fieldOfToken_key (tok : Str) (f : RecordField) (h : fieldOfToken tok = some f) :
    f.Key ∉ reservedKeys := by
  unfold fieldOfToken at h
  split_ifs at h with hc
  cases h
  exact hc.2.2

/-- C3 (as the code behaves): for every line, each scalar is taken from the last
token carrying its reserved key (`Level` with its double quotes trimmed), and no
field of the record has a reserved key: repeated reserved keys overwrite the
scalar and are never appended to `Fields`. -/
theorem C3_reserved_last_wins (line : Str) :
    (ParseTextLogLine line).Time = lastValueOf "time".toList (splitQuotedTokens line) ∧
    (ParseTextLogLine line).Level =
      Trim (lastValueOf "level".toList (splitQuotedTokens line)) "\"".toList ∧
    (ParseTextLogLine line).Message = lastValueOf "msg".toList (splitQuotedTokens line) ∧
    ∀ f ∈ (ParseTextLogLine line).Fields,
      f.Key ≠ "time".toList ∧ f.Key ≠ "level".toList ∧ f.Key ≠ "msg".toList := by
  have hs := foldl_parseToken_scalars line (splitQuotedTokens line)
  refine ⟨hs.1, hs.2.1, hs.2.2, ?_⟩
  intro f hf
  have hfields : (ParseTextLogLine line).Fields =
      (splitQuotedTokens line).filterMap fieldOfToken := by
    unfold ParseTextLogLine
    rw [foldl_parseToken_fields]
    simp
  rw [hfields, List.mem_filterMap] at hf
  obtain ⟨tok, _, htok⟩ := hf
  have hk := fieldOfToken_key tok f htok
  unfold reservedKeys at hk
  simp only [List.mem_cons, List.mem_singleton, List.not_mem_nil, or_false, not_or] at hk
  exact hk

/-- C3 fails as stated: in `msg=a msg=b` the message is `b`, not the first value
`a`, and the second `msg` token is not appended to the fields. -/
theorem C3_counterexample :
    (ParseTextLogLine "msg=a msg=b".toList).Message = "b".toList ∧
    (ParseTextLogLine "msg=a msg=b".toList).Message ≠ "a".toList ∧
    (ParseTextLogLine "msg=a msg=b".toList).Fields = [] := by
  decide

/-! ## Pipeline and processors -/

/-- C1: `Colorize` parses the line, runs the transform processor, the style
processor, the error fallback (with `theme.ErrKey`) and then the extras in the
order given, and renders the result with the supplied renderer, or with the
default renderer of `(theme, profile)` when none is supplied. -/
theorem C1_colorize_order (ToUpper : Str → Str) (theme : Theme) (profile : Profile)
    (provider : Option FieldStyleProvider) (transformer : Option FieldTransformer)
    (extras : List Processor) (renderer : Option Renderer) (line : Str) :
    (NewPipeline ToUpper theme profile provider transformer extras renderer).Colorize line =
      (renderer.getD (newDefaultRenderer ToUpper theme profile))
        (extras.foldl (fun rec proc => proc rec)
          (errorFieldProcessor.Process { errStyle := theme.ErrKey }
            (fieldStyleProcessor.Process { provider := provider }
              (fieldTransformProcessor.Process { transformer := transformer }
                (ParseTextLogLine line))))) := by
  cases renderer <;>
    simp [NewPipeline, Pipeline.Colorize, List.foldl_append]

/-- C10: the error fallback keeps the number and order of fields and the scalars
of the record; a field that is not styled and whose key is exactly `err` or
`error` gets the error-key style and is marked styled; every other field (already
styled, or with any other key such as `Error`) is unchanged. -/
theorem C10_error_fallback (p : errorFieldProcessor) (rec : LogRecord) :
    (p.Process rec).Fields.length = rec.Fields.length ∧
    (∀ (i : Nat) (f : RecordField), rec.Fields[i]? = some f →
      (f.Styled = false ∧ (f.Key = "err".toList ∨ f.Key = "error".toList) →
        (p.Process rec).Fields[i]? = some { f with Style := p.errStyle, Styled := true }) ∧
      (¬ (f.Styled = false ∧ (f.Key = "err".toList ∨ f.Key = "error".toList)) →
        (p.Process rec).Fields[i]? = some f)) ∧
    (p.Process rec).Raw = rec.Raw ∧ (p.Process rec).Time = rec.Time ∧
    (p.Process rec).Level = rec.Level ∧ (p.Process rec).Message = rec.Message := by
  rw [errorFieldProcessor_Process_eq]
  refine ⟨by simp, ?_, rfl, rfl, rfl, rfl⟩
  intro i f hf
  constructor
  · intro h
    simp only [List.getElem?_map, hf, Option.map_some']
    unfold errFallback
    rw [if_pos h]
  · intro h
    simp only [List.getElem?_map, hf, Option.map_some']
    unfold errFallback
    rw [if_neg h]

/-- C10 on a record with the fields `error=boom`, an already styled `err`, and
`Error=x`: only the first is restyled. -/
theorem C10_error_fallback_witness :
    (errorFieldProcessor.Process { errStyle := DefaultTheme.ErrKey } errDemoRecord).Fields[0]? =
      some { plainField "error".toList "boom".toList with
        Style := DefaultTheme.ErrKey, Styled := true } ∧
    (errorFieldProcessor.Process { errStyle := DefaultTheme.ErrKey } errDemoRecord).Fields[1]? =
      some { plainField "err".toList "e".toList with Styled := true, Style := New.Bold } ∧
    (errorFieldProcessor.Process { errStyle := DefaultTheme.ErrKey } errDemoRecord).Fields[2]? =
      some (plainField "Error".toList "x".toList) :=
  ⟨((C10_error_fallback { errStyle := DefaultTheme.ErrKey } errDemoRecord).2.1 0 _ rfl).1
      ⟨rfl, Or.inr rfl⟩,
   ((C10_error_fallback { errStyle := DefaultTheme.ErrKey } errDemoRecord).2.1 1 _ rfl).2
      (by decide),
   ((C10_error_fallback { errStyle := DefaultTheme.ErrKey } errDemoRecord).2.1 2 _ rfl).2
      (by decide)⟩

/-! ## Renderer -/

theorem renderField_eq (r : defaultRenderer) (parts : List Str) (f : RecordField) :
    r.renderField parts f = parts ++ [fieldPart r.profile f] := by
  unfold defaultRenderer.renderField fieldPart keyVisible styledValue effectiveValue
  cases hc : r.profile.CompactMode <;> cases hs : f.ShowKey <;>
    cases hm : mapGet r.profile.HideKeys f.Key with
    | none => simp
    | some b => cases b <;> simp

theorem foldl_renderField (r : defaultRenderer) (fields : List RecordField) (parts : List Str) :
    fields.foldl r.renderField parts = parts ++ fields.map (fieldPart r.profile) := by
  induction fields generalizing parts with
  | nil => simp
  | cons f fs ih => rw [List.foldl_cons, ih, renderField_eq]; simp

theorem parts_eq (ToUpper : Str → Str) (r : defaultRenderer) (rec : LogRecord) :
    r.parts ToUpper rec =
      (if rec.Time ≠ [] then [r.theme.TimeValue.Dim.Wrap rec.Time] else []) ++
      (if rec.Level ≠ [] then [r.levelBadge ToUpper rec.Level] else []) ++
      (if rec.Message ≠ [] then [rec.Message] else []) ++
      rec.Fields.map (fieldPart r.profile) := by
  unfold defaultRenderer.parts
  rw [foldl_renderField]
  by_cases h1 : rec.Time = [] <;> by_cases h2 : rec.Level = [] <;>
    by_cases h3 : rec.Message = [] <;> simp [h1, h2, h3]

/-- C6 (as the code behaves): `Render` is the single-space join of, in order, the
time wrapped in the theme's time-value style with the dim decoration added (only
when `Time` is non-empty), the level badge (only when `Level` is non-empty), the
raw message (only when non-empty), and one part per field in field order:
`key=v` when the key is visible and the bare `v` when it is hidden, `v` being the
effective value wrapped in the field's style when the field is styled. -/
theorem C6_render_layout (ToUpper : Str → Str) (r : defaultRenderer) (rec : LogRecord) :
    r.Render ToUpper rec =
      Join ((if rec.Time ≠ [] then [r.theme.TimeValue.Dim.Wrap rec.Time] else []) ++
        (if rec.Level ≠ [] then [r.levelBadge ToUpper rec.Level] else []) ++
        (if rec.Message ≠ [] then [rec.Message] else []) ++
        rec.Fields.map (fun f =>
          if keyVisible r.profile f then f.Key ++ "=".toList ++ styledValue f
          else styledValue f)) " ".toList := by
  unfold defaultRenderer.Render
  rw [parts_eq]
  rfl

/-- C6 fails as stated: with the default theme a record holding only the time
`t` renders as `ESC[94;2mt ESC[0m` (dim added), not as the time wrapped in the
time-value style `ESC[94m`. -/
theorem C6_counterexample :
    defaultRenderer.Render upperASCII { theme := DefaultTheme, profile := DefaultProfile }
        { Raw := [], Time := "t".toList, Level := [], Message := [], Fields := [] }
      = "\x1b[94;2mt\x1b[0m".toList ∧
    defaultRenderer.Render upperASCII { theme := DefaultTheme, profile := DefaultProfile }
        { Raw := [], Time := "t".toList, Level := [], Message := [], Fields := [] }
      ≠ Join [DefaultTheme.TimeValue.Wrap "t".toList] " ".toList := by
  decide

theorem normalizeProfile_HideKeys_some (p : Profile) (m : GoMap Bool) (h : p.HideKeys = some m) :
    (normalizeProfile p).HideKeys = some m := by
  rcases p with ⟨hk, ll, cm⟩
  simp only at h
  subst h
  cases ll <;> cases cm <;> rfl

theorem normalizeProfile_LevelLabels_some (p : Profile) (m : GoMap Str)
    (h : p.LevelLabels = some m) : (normalizeProfile p).LevelLabels = some m := by
  rcases p with ⟨hk, ll, cm⟩
  simp only at h
  subst h
  cases hk <;> cases cm <;> rfl

theorem normalizeProfile_HideKeys_none (p : Profile) (h : p.HideKeys = none) :
    (normalizeProfile p).HideKeys = DefaultProfile.HideKeys := by
  rcases p with ⟨hk, ll, cm⟩
  simp only at h
  subst h
  cases ll <;> cases cm <;> rfl

theorem normalizeProfile_LevelLabels_none (p : Profile) (h : p.LevelLabels = none) :
    (normalizeProfile p).LevelLabels = DefaultProfile.LevelLabels := by
  rcases p with ⟨hk, ll, cm⟩
  simp only at h
  subst h
  cases hk <;> cases cm <;> rfl

theorem normalizeProfile_CompactMode (p : Profile) : (normalizeProfile p).CompactMode = true := by
  rcases p with ⟨hk, ll, cm⟩
  cases hk <;> cases ll <;> cases cm <;> rfl

/-- C7: `normalizeProfile` turns `CompactMode = false` into `true`, so the hide
list is applied although the profile is not in compact mode: with
`Profile{HideKeys: {"k": true}, CompactMode: false}` the line `k=v` is rendered
as `v`, not as `k=v`. -/
theorem C7_compact_false_still_hides :
    hideKProfile.CompactMode = false ∧
    (∀ p : Profile, (normalizeProfile p).CompactMode = true) ∧
    (NewPipeline upperASCII DefaultTheme hideKProfile none none [] none).Colorize "k=v".toList
      = "v".toList := by
  exact ⟨rfl, normalizeProfile_CompactMode, by decide⟩

theorem levelBadge_eq (ToUpper : Str → Str) (r : defaultRenderer) (level : Str) :
    r.levelBadge ToUpper level =
      (badgeStyle r.theme (ToUpper level)).Wrap
        ((mapGet r.profile.LevelLabels (ToUpper level)).getD (ToUpper level)) := by
  unfold defaultRenderer.levelBadge badgeStyle
  cases h : mapGet r.profile.LevelLabels (ToUpper level) <;>
    simp only [Option.getD] <;> split_ifs <;> simp only [h]

/-- C8 (as the code behaves): for a profile whose `HideKeys` map is set, a field
with `ShowKey = true` whose key has no entry in it is rendered as `key=value`; for
a profile whose `LevelLabels` map is set, a level whose uppercased form has no
entry in it gets the uppercased level as badge label (the renderer is the one
`NewPipeline` builds when no renderer is supplied).  A map left unset is replaced
by the map of the default profile, whose entries then apply. -/
theorem C8_missing_entries (ToUpper : Str → Str) (theme : Theme) (p : Profile) :
    (∀ (provider : Option FieldStyleProvider) (transformer : Option FieldTransformer)
        (extras : List Processor),
      (NewPipeline ToUpper theme p provider transformer extras none).renderer =
        defaultRenderer.Render ToUpper { theme := theme, profile := normalizeProfile p }) ∧
    (∀ (m : GoMap Bool) (f : RecordField) (parts : List Str),
      p.HideKeys = some m → m f.Key = none → f.ShowKey = true →
      defaultRenderer.renderField { theme := theme, profile := normalizeProfile p } parts f =
        parts ++ [f.Key ++ "=".toList ++ styledValue f]) ∧
    (∀ (m : GoMap Str) (level : Str),
      p.LevelLabels = some m → m (ToUpper level) = none →
      defaultRenderer.levelBadge ToUpper { theme := theme, profile := normalizeProfile p } level =
        (badgeStyle theme (ToUpper level)).Wrap (ToUpper level)) ∧
    (p.HideKeys = none → (normalizeProfile p).HideKeys = DefaultProfile.HideKeys) ∧
    (p.LevelLabels = none → (normalizeProfile p).LevelLabels = DefaultProfile.LevelLabels) := by
  refine ⟨fun _ _ _ => rfl, ?_, ?_, normalizeProfile_HideKeys_none p,
    normalizeProfile_LevelLabels_none p⟩
  · intro m f parts hm hk hs
    rw [renderField_eq]
    unfold fieldPart keyVisible
    simp [normalizeProfile_HideKeys_some p m hm, mapGet, hk, hs]
  · intro m level hm hk
    rw [levelBadge_eq]
    simp [normalizeProfile_LevelLabels_some p m hm, mapGet, hk]

/-- C8 at a profile with both maps set and empty: `player=bob` keeps its key and
the level `info` gets the label `INFO`. -/
theorem C8_missing_entries_witness :
    defaultRenderer.renderField
        { theme := DefaultTheme, profile := normalizeProfile emptyMapsProfile } []
        (plainField "player".toList "bob".toList) = ["player=bob".toList] ∧
    defaultRenderer.levelBadge upperASCII
        { theme := DefaultTheme, profile := normalizeProfile emptyMapsProfile } "info".toList =
      DefaultTheme.Info.Wrap "INFO".toList :=
  ⟨(C8_missing_entries upperASCII DefaultTheme emptyMapsProfile).2.1 (mapLit [])
      (plainField "player".toList "bob".toList) [] rfl rfl rfl,
   (C8_missing_entries upperASCII DefaultTheme emptyMapsProfile).2.2.1 (mapLit [])
      "info".toList rfl rfl⟩

/-- C8 fails as stated for maps left unset: with the zero profile neither map
has any entry, yet `player=bob` is rendered without its key and the level
`info` gets the label `INF`. -/
theorem C8_counterexample :
    mapGet zeroProfile.HideKeys "player".toList = none ∧
    mapGet zeroProfile.LevelLabels (upperASCII "info".toList) = none ∧
    (NewPipeline upperASCII DefaultTheme zeroProfile none none [] none).Colorize
        "level=info player=bob".toList =
      DefaultTheme.Info.Wrap "INF".toList ++ " bob".toList ∧
    (NewPipeline upperASCII DefaultTheme zeroProfile none none [] none).Colorize
        "level=info player=bob".toList ≠
      DefaultTheme.Info.Wrap "INFO".toList ++ " player=bob".toList := by
  decide

/-! ## Tokenizer -/

theorem splitStep_spec (s pre rest : List Char) (c : Char) (st : SplitState)
    (hs : s = pre ++ c :: rest)
    (hinv : st.start = -1 ∨ (0 ≤ st.start ∧ st.start.toNat ≤ pre.length)) :
    ((splitStep s pre.length c st).start = -1 ∨
      (0 ≤ (splitStep s pre.length c st).start ∧
        (splitStep s pre.length c st).start.toNat ≤ (pre ++ [c]).length)) ∧
    (splitStep s pre.length c st).tokens ++
        scanTokens rest (curOf (pre ++ [c]) (splitStep s pre.length c st))
          (splitStep s pre.length c st).inQuotes (splitStep s pre.length c st).escaped =
      st.tokens ++ scanTokens (c :: rest) (curOf pre st) st.inQuotes st.escaped := by
  rcases st with ⟨toks, start, q, e⟩
  have hslice : ∀ j : Nat, j ≤ pre.length → slice s j pre.length = pre.drop j := by
    intro j _
    unfold slice
    rw [hs, List.take_left]
  have hdrop : ∀ (j : Nat) (x : Char), j ≤ pre.length →
      (pre ++ [x]).drop j = pre.drop j ++ [x] := by
    intro j x hj
    rw [List.drop_append_of_le_length hj]
  have hdrop2 : ∀ x : Char, (pre ++ [x]).drop pre.length = [x] := by simp
  have hne : ((pre.length : Nat) : Int) ≠ -1 := by omega
  simp only at hinv
  by_cases h1 : start = -1
  · subst h1
    by_cases hc : c = ' '
    · subst hc
      simp [splitStep, scanTokens, curOf]
    · cases q <;> cases e <;> by_cases hq : c = '"' <;> by_cases hb : c = '\\' <;>
        simp [splitStep, scanTokens, curOf, hc, hq, hb, hne, hdrop2]
  · rcases hinv with hinv | ⟨h0, hle⟩
    · exact absurd hinv h1
    · obtain ⟨j, rfl⟩ := Int.eq_ofNat_of_zero_le h0
      simp only [Int.toNat_ofNat] at hle
      have hj : ((j : Nat) : Int) ≠ -1 := by omega
      cases q <;> cases e <;> by_cases hc : c = ' ' <;> by_cases hq : c = '"' <;>
        by_cases hb : c = '\\' <;>
        simp [splitStep, scanTokens, curOf, hc, hq, hb, hj, hdrop j _ hle, hslice j hle, hle,
          Nat.le_succ_of_le hle]

theorem splitLoop_scan (s : Str) (rest : List Char) :
    ∀ (pre : List Char) (st : SplitState), s = pre ++ rest →
      (st.start = -1 ∨ (0 ≤ st.start ∧ st.start.toNat ≤ pre.length)) →
      splitFinish s (splitLoop s rest pre.length st) =
        st.tokens ++ scanTokens rest (curOf pre st) st.inQuotes st.escaped := by
  induction rest with
  | nil =>
    intro pre st hs _
    simp only [List.append_nil] at hs
    subst hs
    unfold splitLoop splitFinish curOf
    by_cases h : st.start = -1 <;> simp [h, scanTokens]
  | cons c rest ih =>
    intro pre st hs hinv
    obtain ⟨hinv2, hstep⟩ := splitStep_spec s pre rest c st hs hinv
    unfold splitLoop
    have := ih (pre ++ [c]) (splitStep s pre.length c st) (by simp [hs]) hinv2
    rw [List.length_append, List.length_singleton] at this
    rw [this, hstep]

/-- The tokenizer, read off the unread text. -/
theorem splitQuotedTokens_eq_scan (s : Str) :
    splitQuotedTokens s = scanTokens s none false false := by
  have := splitLoop_scan s s [] { tokens := [], start := -1, inQuotes := false, escaped := false }
    (by simp) (Or.inl rfl)
  simpa [splitFinish, splitQuotedTokens, curOf] using this

theorem scan_space_none (r : List Char) (q e : Bool) :
    scanTokens (' ' :: r) none q e = scanTokens r none q e := by
  simp [scanTokens]

theorem scan_space_some (r : List Char) (t : Str) (e : Bool) :
    scanTokens (' ' :: r) (some t) false e = t :: scanTokens r none false e := by
  simp [scanTokens]

theorem scan_plain (c : Char) (r : List Char) (cur : Option Str) (e : Bool)
    (hs : c ≠ ' ') (hq : c ≠ '"') :
    scanTokens (c :: r) cur false e = scanTokens r (some (cur.getD [] ++ [c])) false e := by
  simp [scanTokens, hs, hq]

theorem scan_open (r : List Char) (cur : Option Str) (e : Bool) :
    scanTokens ('"' :: r) cur false e = scanTokens r (some (cur.getD [] ++ ['"'])) true e := by
  simp [scanTokens]

theorem scan_close (r : List Char) (t : Str) :
    scanTokens ('"' :: r) (some t) true false = scanTokens r (some (t ++ ['"'])) false false := by
  simp [scanTokens]

theorem scan_quoted (c : Char) (r : List Char) (t : Str) (hq : c ≠ '"') (hb : c ≠ '\\') :
    scanTokens (c :: r) (some t) true false = scanTokens r (some (t ++ [c])) true false := by
  simp [scanTokens, hq, hb]

/-- Outside quotes a run of bytes without space or quote extends the open token. -/
theorem scan_word (w : Str) (r : List Char) (cur : Option Str) (e : Bool)
    (hs : ' ' ∉ w) (hq : '"' ∉ w) (hne : w ≠ [] ∨ cur ≠ none) :
    scanTokens (w ++ r) cur false e = scanTokens r (some (cur.getD [] ++ w)) false e := by
  induction w generalizing cur with
  | nil =>
    rcases hne with h | h
    · exact absurd rfl h
    · cases cur with
      | none => exact absurd rfl h
      | some t => simp
  | cons c w ih =>
    simp only [List.mem_cons, not_or] at hs hq
    rw [List.cons_append, scan_plain c _ cur e (Ne.symm hs.1) (Ne.symm hq.1),
      ih _ hs.2 hq.2 (Or.inr (by simp))]
    simp

/-- Inside quotes a run of bytes without quote or backslash extends the open token. -/
theorem scan_inside (x : Str) (r : List Char) (t : Str) (hq : '"' ∉ x) (hb : '\\' ∉ x) :
    scanTokens (x ++ r) (some t) true false = scanTokens r (some (t ++ x)) true false := by
  induction x generalizing t with
  | nil => simp
  | cons c x ih =>
    simp only [List.mem_cons, not_or] at hq hb
    rw [List.cons_append, scan_quoted c _ t (Ne.symm hq.1) (Ne.symm hb.1), ih _ hq.2 hb.2]
    simp

/-- A space after text without quotes ends the open token, and the rest of the
line is tokenized on its own. -/
theorem scan_append_space (a b : List Char) (cur : Option Str) (hq : '"' ∉ a) :
    scanTokens (a ++ ' ' :: b) cur false false =
      scanTokens a cur false false ++ scanTokens b none false false := by
  induction a generalizing cur with
  | nil =>
    cases cur with
    | none => simp [scanTokens]
    | some t => simp [scanTokens]
  | cons c a ih =>
    simp only [List.mem_cons, not_or] at hq
    by_cases hc : c = ' '
    · subst hc
      cases cur with
      | none => rw [List.cons_append, scan_space_none, scan_space_none, ih _ hq.2]
      | some t => rw [List.cons_append, scan_space_some, scan_space_some, ih _ hq.2]; simp
    · rw [List.cons_append, scan_plain c _ cur false hc (Ne.symm hq.1),
        scan_plain c _ cur false hc (Ne.symm hq.1), ih _ hq.2]

theorem scan_spaces (n : Nat) (r : List Char) :
    scanTokens (List.replicate n ' ' ++ r) none false false = scanTokens r none false false := by
  induction n with
  | zero => simp
  | succ n ih => rw [List.replicate_succ, List.cons_append, scan_space_none, ih]

theorem scan_nil_none (q e : Bool) : scanTokens [] none q e = [] := by
  simp [scanTokens]

theorem scan_nil_some (t : Str) (q e : Bool) : scanTokens [] (some t) q e = [t] := by
  simp [scanTokens]

theorem scan_tokens_clean (rest : List Char) (cur : Option Str) (hq : '"' ∉ rest)
    (hcur : ∀ t, cur = some t → t ≠ [] ∧ ' ' ∉ t) :
    ∀ tok ∈ scanTokens rest cur false false, tok ≠ [] ∧ ' ' ∉ tok := by
  induction rest generalizing cur with
  | nil =>
    cases cur with
    | none => simp [scanTokens]
    | some t =>
      intro tok htok
      rw [scan_nil_some, List.mem_singleton] at htok
      rw [htok]
      exact hcur t rfl
  | cons c r ih =>
    simp only [List.mem_cons, not_or] at hq
    by_cases hc : c = ' '
    · subst hc
      cases cur with
      | none =>
        rw [scan_space_none]
        exact ih none hq.2 (by simp)
      | some t =>
        rw [scan_space_some]
        intro tok htok
        rcases List.mem_cons.1 htok with h | h
        · rw [h]; exact hcur t rfl
        · exact ih none hq.2 (by simp) tok h
    · rw [scan_plain c r cur false hc (Ne.symm hq.1)]
      apply ih _ hq.2
      intro t ht
      simp only [Option.some.injEq] at ht
      subst ht
      refine ⟨by simp, ?_⟩
      cases cur with
      | none => simpa using Ne.symm hc
      | some u =>
        have := (hcur u rfl).2
        simp only [Option.getD_some, List.mem_append, List.mem_singleton, not_or]
        exact ⟨this, Ne.symm hc⟩

theorem splitOn_space_word (t : Str) (ht : ' ' ∉ t) : t.splitOn ' ' = [t] := by
  induction t with
  | nil => rfl
  | cons x t ih =>
    simp only [List.mem_cons, not_or] at ht
    have hx : (x == ' ') = false := by simpa using Ne.symm ht.1
    unfold List.splitOn at ih ⊢
    rw [List.splitOnP_cons, ih ht.2]
    simp [hx]

theorem splitOn_space_append (t r : Str) (ht : ' ' ∉ t) :
    (t ++ ' ' :: r).splitOn ' ' = t :: r.splitOn ' ' := by
  induction t with
  | nil =>
    unfold List.splitOn
    rw [List.nil_append, List.splitOnP_cons]
    simp
  | cons x t ih =>
    simp only [List.mem_cons, not_or] at ht
    have hx : (x == ' ') = false := by simpa using Ne.symm ht.1
    unfold List.splitOn at ih ⊢
    rw [List.cons_append, List.splitOnP_cons, ih ht.2]
    simp [hx]

theorem spacePieces_nil : spacePieces [] = [] := by
  decide

theorem spacePieces_word (t : Str) (hne : t ≠ []) (ht : ' ' ∉ t) : spacePieces t = [t] := by
  unfold spacePieces
  rw [splitOn_space_word t ht]
  simp [hne]

theorem spacePieces_space (r : Str) : spacePieces (' ' :: r) = spacePieces r := by
  unfold spacePieces
  have := splitOn_space_append [] r (by simp)
  rw [List.nil_append] at this
  rw [this]
  simp

theorem spacePieces_append (t r : Str) (hne : t ≠ []) (ht : ' ' ∉ t) :
    spacePieces (t ++ ' ' :: r) = t :: spacePieces r := by
  unfold spacePieces
  rw [splitOn_space_append t r ht]
  simp [hne]

theorem scan_eq_spacePieces (rest : List Char) (cur : Option Str) (hq : '"' ∉ rest)
    (hcur : ∀ t, cur = some t → t ≠ [] ∧ ' ' ∉ t) :
    scanTokens rest cur false false = spacePieces (cur.getD [] ++ rest) := by
  induction rest generalizing cur with
  | nil =>
    cases cur with
    | none => rw [scan_nil_none]; exact spacePieces_nil.symm
    | some t =>
      rw [scan_nil_some, Option.getD_some, List.append_nil,
        spacePieces_word t (hcur t rfl).1 (hcur t rfl).2]
  | cons c r ih =>
    simp only [List.mem_cons, not_or] at hq
    by_cases hc : c = ' '
    · subst hc
      cases cur with
      | none =>
        rw [scan_space_none, ih none hq.2 (by simp)]
        simp [spacePieces_space]
      | some t =>
        rw [scan_space_some, ih none hq.2 (by simp), Option.getD_some,
          spacePieces_append t r (hcur t rfl).1 (hcur t rfl).2]
        simp
    · rw [scan_plain c r cur false hc (Ne.symm hq.1), ih _ hq.2]
      · simp
      · intro t ht
        simp only [Option.some.injEq] at ht
        subst ht
        refine ⟨by simp, ?_⟩
        cases cur with
        | none => simpa using Ne.symm hc
        | some u =>
          have := (hcur u rfl).2
          simp only [Option.getD_some, List.mem_append, List.mem_singleton, not_or]
          exact ⟨this, Ne.symm hc⟩

/-- C5: on a line without a double quote the tokens are the non-empty pieces
between the spaces, in order; no token is empty or contains a space; a line of
spaces only (or the empty line) has no token; spaces before and after the line
change nothing; and a run of spaces inside the line separates the tokens of the
text before it from those of the text after it, with no empty token. -/
theorem C5_split_no_quotes (line : Str) (hq : '"' ∉ line) :
    splitQuotedTokens line = spacePieces line ∧
    (∀ tok ∈ splitQuotedTokens line, tok ≠ [] ∧ ' ' ∉ tok) ∧
    ((∀ c ∈ line, c = ' ') → splitQuotedTokens line = []) ∧
    (∀ m n : Nat, splitQuotedTokens (List.replicate m ' ' ++ line ++ List.replicate n ' ') =
      splitQuotedTokens line) ∧
    (∀ (a b : Str) (n : Nat), line = a ++ List.replicate (n + 1) ' ' ++ b →
      splitQuotedTokens line = splitQuotedTokens a ++ splitQuotedTokens b) := by
  refine ⟨?_, ?_, ?_, ?_, ?_⟩
  · rw [splitQuotedTokens_eq_scan, scan_eq_spacePieces line none hq (by simp)]
    simp
  · rw [splitQuotedTokens_eq_scan]
    exact scan_tokens_clean line none hq (by simp)
  · intro hall
    have : line = List.replicate line.length ' ' := List.eq_replicate_of_mem hall
    rw [splitQuotedTokens_eq_scan, this]
    have h := scan_spaces line.length []
    rw [List.append_nil] at h
    rw [h, scan_nil_none]
  · intro m n
    rw [splitQuotedTokens_eq_scan, splitQuotedTokens_eq_scan, List.append_assoc, scan_spaces]
    cases n with
    | zero => simp
    | succ n =>
      rw [List.replicate_succ, scan_append_space line _ none hq]
      have h := scan_spaces n []
      rw [List.append_nil] at h
      rw [h, scan_nil_none, List.append_nil]
  · intro a b n hab
    have hqa : '"' ∉ a := by
      intro h; apply hq; rw [hab]; simp [h]
    rw [hab, splitQuotedTokens_eq_scan, splitQuotedTokens_eq_scan, splitQuotedTokens_eq_scan,
      List.append_assoc, List.replicate_succ, List.cons_append, scan_append_space a _ none hqa,
      scan_spaces]

/-- C5 on the line `  a   b  `. -/
theorem C5_split_no_quotes_witness :
    splitQuotedTokens "  a   b  ".toList = spacePieces "  a   b  ".toList ∧
    splitQuotedTokens "  a   b  ".toList = ["a".toList, "b".toList] :=
  ⟨(C5_split_no_quotes "  a   b  ".toList (by decide)).1, by decide⟩

theorem Join_nil (sep : Str) : Join [] sep = [] := by
  simp [Join, List.intercalate]

theorem Join_singleton (x sep : Str) : Join [x] sep = x := by
  simp [Join, List.intercalate]

theorem Join_cons_cons (x y : Str) (ys : List Str) (sep : Str) :
    Join (x :: y :: ys) sep = x ++ sep ++ Join (y :: ys) sep := by
  simp [Join, List.intercalate, List.intersperse]

theorem Join_append (a b : List Str) (sep : Str) (ha : a ≠ []) (hb : b ≠ []) :
    Join (a ++ b) sep = Join a sep ++ sep ++ Join b sep := by
  induction a with
  | nil => exact absurd rfl ha
  | cons x a ih =>
    cases a with
    | nil =>
      cases b with
      | nil => exact absurd rfl hb
      | cons y ys => rw [List.singleton_append, Join_cons_cons, Join_singleton]
    | cons x2 a =>
      rw [List.cons_append, List.cons_append, Join_cons_cons, ← List.cons_append,
        ih (by simp), Join_cons_cons]
      simp

theorem not_mem_Join (c : Char) (ws : List Str) (sep : Str) (hsep : c ∉ sep)
    (hws : ∀ w ∈ ws, c ∉ w) : c ∉ Join ws sep := by
  induction ws with
  | nil => simp [Join_nil]
  | cons x ws ih =>
    cases ws with
    | nil =>
      rw [Join_singleton]
      exact hws x (by simp)
    | cons y ys =>
      rw [Join_cons_cons]
      simp only [List.mem_append, not_or]
      exact ⟨⟨hws x (by simp), hsep⟩, ih (fun w hw => hws w (List.mem_cons_of_mem _ hw))⟩

theorem scan_clean_word (w : Str) (hne : w ≠ []) (hs : ' ' ∉ w) (hq : '"' ∉ w) :
    scanTokens w none false false = [w] := by
  have := scan_word w [] none false hs hq (Or.inl hne)
  rw [List.append_nil] at this
  rw [this, scan_nil_some]
  simp

/-- The single-space join of words without space or quote is tokenized into
these words. -/
theorem scan_Join_clean (ws : List Str) (hws : ∀ w ∈ ws, w ≠ [] ∧ ' ' ∉ w ∧ '"' ∉ w) :
    scanTokens (Join ws " ".toList) none false false = ws := by
  induction ws with
  | nil => rw [Join_nil, scan_nil_none]
  | cons x ws ih =>
    have hx := hws x (by simp)
    cases ws with
    | nil => rw [Join_singleton, scan_clean_word x hx.1 hx.2.1 hx.2.2]
    | cons y ys =>
      rw [Join_cons_cons]
      have : x ++ " ".toList ++ Join (y :: ys) " ".toList =
          x ++ ' ' :: Join (y :: ys) " ".toList := by simp
      rw [this, scan_append_space x _ none hx.2.2, scan_clean_word x hx.1 hx.2.1 hx.2.2,
        ih (fun w hw => hws w (List.mem_cons_of_mem _ hw))]
      simp

theorem scan_Join_append (pre rest : List Str)
    (hpre : ∀ w ∈ pre, w ≠ [] ∧ ' ' ∉ w ∧ '"' ∉ w) :
    scanTokens (Join (pre ++ rest) " ".toList) none false false =
      pre ++ scanTokens (Join rest " ".toList) none false false := by
  by_cases hp : pre = []
  · subst hp; simp
  by_cases hr : rest = []
  · subst hr
    rw [List.append_nil, scan_Join_clean pre hpre, Join_nil, scan_nil_none, List.append_nil]
  rw [Join_append pre rest _ hp hr]
  have : Join pre " ".toList ++ " ".toList ++ Join rest " ".toList =
      Join pre " ".toList ++ ' ' :: Join rest " ".toList := by simp
  rw [this, scan_append_space _ _ none
    (not_mem_Join '"' pre _ (by decide) (fun w hw => (hpre w hw).2.2)),
    scan_Join_clean pre hpre]

theorem scan_word_open (w : Str) (r : List Char) (cur : Option Str) (e : Bool)
    (hs : ' ' ∉ w) (hq : '"' ∉ w) :
    scanTokens (w ++ '"' :: r) cur false e =
      scanTokens r (some (cur.getD [] ++ w ++ ['"'])) true e := by
  induction w generalizing cur with
  | nil => rw [List.nil_append, scan_open]; simp
  | cons c w ih =>
    simp only [List.mem_cons, not_or] at hs hq
    rw [List.cons_append, scan_plain c _ cur e (Ne.symm hs.1) (Ne.symm hq.1), ih _ hs.2 hq.2]
    simp

/-- A token `p"q"` is read as one token, whatever follows its closing quote. -/
theorem scan_quoted_token (p q : Str) (r : List Char)
    (hps : ' ' ∉ p) (hpq : '"' ∉ p) (hqq : '"' ∉ q) (hqb : '\\' ∉ q) :
    scanTokens ((p ++ '"' :: q ++ ['"']) ++ r) none false false =
      scanTokens r (some (p ++ '"' :: q ++ ['"'])) false false := by
  have h1 : (p ++ '"' :: q ++ ['"']) ++ r = p ++ '"' :: (q ++ '"' :: r) := by simp
  rw [h1, scan_word_open p _ none false hps hpq, scan_inside q _ _ hqq hqb, scan_close]
  simp

theorem scan_unterminated (p q : Str) (hps : ' ' ∉ p) (hpq : '"' ∉ p)
    (hqq : '"' ∉ q) (hqb : '\\' ∉ q) :
    scanTokens (p ++ '"' :: q) none false false = [p ++ '"' :: q] := by
  have h := scan_inside q [] (p ++ ['"']) hqq hqb
  rw [List.append_nil] at h
  rw [scan_word_open p _ none false hps hpq]
  simp only [Option.getD_none, List.nil_append]
  rw [h, scan_nil_some]
  simp

/-- C4: a double-quoted region never splits a token.  In a single-space join of
words without space or quote around one token `p"q"` (`q` may contain spaces but
no quote or backslash) the tokens are exactly the joined items, quotes kept; the
same holds when the token `p"q` is last and its quote is never closed. -/
theorem C4_quoted_region (pre post : List Str) (p q : Str)
    (hpre : ∀ w ∈ pre, w ≠ [] ∧ ' ' ∉ w ∧ '"' ∉ w)
    (hpost : ∀ w ∈ post, w ≠ [] ∧ ' ' ∉ w ∧ '"' ∉ w)
    (hps : ' ' ∉ p) (hpq : '"' ∉ p) (hqq : '"' ∉ q) (hqb : '\\' ∉ q) :
    splitQuotedTokens (Join (pre ++ [p ++ '"' :: q ++ ['"']] ++ post) " ".toList) =
      pre ++ [p ++ '"' :: q ++ ['"']] ++ post ∧
    splitQuotedTokens (Join (pre ++ [p ++ '"' :: q]) " ".toList) = pre ++ [p ++ '"' :: q] := by
  constructor
  · rw [splitQuotedTokens_eq_scan, List.append_assoc, scan_Join_append pre _ hpre,
      List.singleton_append]
    congr 1
    cases post with
    | nil =>
      rw [Join_singleton]
      have h := scan_quoted_token p q [] hps hpq hqq hqb
      rw [List.append_nil] at h
      rw [h, scan_nil_some]
    | cons y ys =>
      rw [Join_cons_cons]
      have h2 : (p ++ '"' :: q ++ ['"']) ++ " ".toList ++ Join (y :: ys) " ".toList =
          (p ++ '"' :: q ++ ['"']) ++ (' ' :: Join (y :: ys) " ".toList) := by simp
      rw [h2, scan_quoted_token p q _ hps hpq hqq hqb, scan_space_some,
        scan_Join_clean (y :: ys) hpost]
  · rw [splitQuotedTokens_eq_scan, scan_Join_append pre _ hpre, Join_singleton,
      scan_unterminated p q hps hpq hqq hqb]

/-- C4 on the lines `a=1 b="x y" c=3` and `k="abc`. -/
theorem C4_quoted_region_witness :
    splitQuotedTokens "a=1 b=\"x y\" c=3".toList =
      ["a=1".toList, "b=\"x y\"".toList, "c=3".toList] ∧
    splitQuotedTokens "k=\"abc".toList = ["k=\"abc".toList] :=
  ⟨(C4_quoted_region ["a=1".toList] ["c=3".toList] "b=".toList "x y".toList
      (by decide) (by decide) (by decide) (by decide) (by decide) (by decide)).1,
   (C4_quoted_region [] [] "k=".toList "abc".toList
      (by decide) (by decide) (by decide) (by decide) (by decide) (by decide)).2⟩

/-! ## The rendered line of the default pipeline -/

theorem Wrap_ne_nil (c : Chalk) (t : Str) (h : t ≠ []) : c.Wrap t ≠ [] := by
  unfold Chalk.Wrap
  split_ifs
  · exact h
  · simp

theorem Wrap_no_space (c : Chalk) (t : Str) (hc : ' ' ∉ Join c.codes ";".toList)
    (ht : ' ' ∉ t) : ' ' ∉ c.Wrap t := by
  unfold Chalk.Wrap
  split_ifs
  · exact ht
  · have h1 : ' ' ∉ "\x1b[".toList := by decide
    have h2 : ' ' ∉ "m".toList := by decide
    have h3 : ' ' ∉ "\x1b[0m".toList := by decide
    simp only [List.mem_append, not_or]
    exact ⟨⟨⟨⟨h1, hc⟩, h2⟩, ht⟩, h3⟩

theorem upperASCII_ne_nil (s : Str) (h : s ≠ []) : upperASCII s ≠ [] := by
  unfold upperASCII
  simpa using h

theorem toUpper_ne_space (c : Char) (h : c ≠ ' ') : c.toUpper ≠ ' ' := by
  unfold Char.toUpper
  simp only []
  split_ifs with hc
  · obtain ⟨h1, h2⟩ := hc
    generalize c.toNat = n at h1 h2
    interval_cases n <;> decide
  · exact h

theorem upperASCII_no_space (s : Str) (h : ' ' ∉ s) : ' ' ∉ upperASCII s := by
  unfold upperASCII
  intro hmem
  obtain ⟨c, hc, heq⟩ := List.mem_map.1 hmem
  exact toUpper_ne_space c (fun hcs => h (hcs ▸ hc)) heq

theorem badgeStyle_default_codes (lvl : Str) :
    ' ' ∉ Join (badgeStyle DefaultTheme lvl).codes ";".toList := by
  unfold badgeStyle
  split_ifs <;> decide

theorem default_label (lvl l : Str)
    (h : mapGet (normalizeProfile DefaultProfile).LevelLabels lvl = some l) :
    l ≠ [] ∧ ' ' ∉ l := by
  have hn : (normalizeProfile DefaultProfile).LevelLabels = DefaultProfile.LevelLabels := rfl
  rw [hn] at h
  simp only [DefaultProfile, mapGet, Option.bind, mapLit, List.lookup] at h
  split at h
  · cases h; decide
  · split at h
    · cases h; decide
    · split at h
      · cases h; decide
      · split at h
        · cases h; decide
        · cases h

theorem processed_default (ToUpper : Str → Str) (line : Str) :
    (defaultPipeline ToUpper).processed line =
      { ParseTextLogLine line with
        Fields := (ParseTextLogLine line).Fields.map (errFallback DefaultTheme.ErrKey) } := by
  have : (defaultPipeline ToUpper).processed line =
      errorFieldProcessor.Process { errStyle := DefaultTheme.ErrKey } (ParseTextLogLine line) := rfl
  rw [this, errorFieldProcessor_Process_eq]

theorem Colorize_default (ToUpper : Str → Str) (line : Str) :
    (defaultPipeline ToUpper).Colorize line =
      Join (defaultPipelineRenderer.parts ToUpper ((defaultPipeline ToUpper).processed line))
        " ".toList := rfl

theorem fieldOfToken_shape (tok : Str) (f : RecordField) (h : fieldOfToken tok = some f) :
    f.ValueOut = [] ∧ f.ShowKey = true ∧ f.Styled = false ∧ f.Key ≠ [] := by
  unfold fieldOfToken at h
  split_ifs at h with hc
  cases h
  refine ⟨rfl, rfl, rfl, ?_⟩
  intro hk
  have := congrArg List.length hk
  simp only [List.length_take, List.length_nil] at this
  have hlt := List.indexOf_lt_length.2 hc.1
  omega

theorem processed_default_fields (ToUpper : Str → Str) (line : Str) (f : RecordField)
    (hf : f ∈ ((defaultPipeline ToUpper).processed line).Fields) :
    f.ValueOut = [] ∧ f.ShowKey = true ∧ f.Key ≠ [] ∧
      (f.Styled = true → f.Style = DefaultTheme.ErrKey) := by
  rw [processed_default] at hf
  simp only [List.mem_map] at hf
  obtain ⟨g, hg, rfl⟩ := hf
  have hfields : (ParseTextLogLine line).Fields =
      (splitQuotedTokens line).filterMap fieldOfToken := by
    unfold ParseTextLogLine
    rw [foldl_parseToken_fields]
    simp
  rw [hfields, List.mem_filterMap] at hg
  obtain ⟨tok, _, htok⟩ := hg
  obtain ⟨h1, h2, h3, h4⟩ := fieldOfToken_shape tok g htok
  unfold errFallback
  split_ifs
  · exact ⟨h1, h2, h4, fun _ => rfl⟩
  · exact ⟨h1, h2, h4, fun h => by rw [h3] at h; cases h⟩

theorem chain_of_no_space (x : Str) (hx : ' ' ∉ x) : noDoubleSpace x := by
  unfold noDoubleSpace
  induction x with
  | nil => exact List.chain'_nil
  | cons a x ih =>
    simp only [List.mem_cons, not_or] at hx
    rw [List.chain'_cons']
    exact ⟨fun b _ h => hx.1 h.1.symm, ih hx.2⟩

theorem head?_ne_space (x : Str) (hx : ' ' ∉ x) : x.head? ≠ some ' ' := by
  cases x with
  | nil => simp
  | cons a x =>
    simp only [List.mem_cons, not_or] at hx
    simpa using Ne.symm hx.1

theorem getLast?_ne_space (x : Str) (hx : ' ' ∉ x) : x.getLast? ≠ some ' ' := by
  intro h
  exact hx (List.mem_of_getLast?_eq_some h)

/-- The single-space join of non-empty parts without spaces has no space at
either end and no two spaces in a row. -/
theorem Join_tidy (parts : List Str) (hparts : ∀ part ∈ parts, part ≠ [] ∧ ' ' ∉ part) :
    (Join parts " ".toList).head? ≠ some ' ' ∧ (Join parts " ".toList).getLast? ≠ some ' ' ∧
      noDoubleSpace (Join parts " ".toList) := by
  induction parts with
  | nil =>
    rw [Join_nil]
    exact ⟨by simp, by simp, List.chain'_nil⟩
  | cons x ps ih =>
    obtain ⟨hxne, hxs⟩ := hparts x (by simp)
    cases ps with
    | nil =>
      rw [Join_singleton]
      exact ⟨head?_ne_space x hxs, getLast?_ne_space x hxs, chain_of_no_space x hxs⟩
    | cons y ys =>
      obtain ⟨ih1, ih2, ih3⟩ := ih (fun part hp => hparts part (List.mem_cons_of_mem _ hp))
      have hyne : y ≠ [] := (hparts y (by simp)).1
      have hJne : Join (y :: ys) " ".toList ≠ [] := by
        cases ys with
        | nil => rw [Join_singleton]; exact hyne
        | cons z zs =>
          rw [Join_cons_cons]
          simp [hyne]
      have hform : Join (x :: y :: ys) " ".toList = x ++ ' ' :: Join (y :: ys) " ".toList := by
        rw [Join_cons_cons]; simp
      rw [hform]
      refine ⟨?_, ?_, ?_⟩
      · rw [List.head?_append_of_ne_nil _ hxne]
        exact head?_ne_space x hxs
      · rw [List.getLast?_append_of_ne_nil _ (by simp), List.getLast?_cons]
        cases hl : (Join (y :: ys) " ".toList).getLast? with
        | none => exact absurd (List.getLast?_eq_none_iff.1 hl) hJne
        | some z =>
          rw [hl] at ih2
          simpa using ih2
      · unfold noDoubleSpace at ih3 ⊢
        rw [List.chain'_append]
        refine ⟨chain_of_no_space x hxs, ?_, ?_⟩
        · rw [List.chain'_cons']
          refine ⟨?_, ih3⟩
          intro b hb h
          apply ih1
          rw [Option.mem_def] at hb
          rw [hb, h.2]
        · intro a ha b _ h
          exact hxs (h.1 ▸ List.mem_of_mem_getLast? ha)

theorem default_fieldPart_ne_nil (ToUpper : Str → Str) (line : Str) (f : RecordField)
    (hf : f ∈ ((defaultPipeline ToUpper).processed line).Fields)
    (hval : mapGet DefaultProfile.HideKeys f.Key = some true → f.Value ≠ []) :
    fieldPart defaultPipelineRenderer.profile f ≠ [] := by
  obtain ⟨hout, hshow, _, _⟩ := processed_default_fields ToUpper line f hf
  unfold fieldPart
  split_ifs with hv
  · simp
  · have hhid : mapGet DefaultProfile.HideKeys f.Key = some true := by
      unfold keyVisible at hv
      have hc : defaultPipelineRenderer.profile.CompactMode = true := rfl
      have hm : mapGet defaultPipelineRenderer.profile.HideKeys f.Key =
          mapGet DefaultProfile.HideKeys f.Key := rfl
      rw [hshow, hc, hm] at hv
      simpa using hv
    have hne : effectiveValue f ≠ [] := by
      unfold effectiveValue
      rw [hout]
      simpa using hval hhid
    unfold styledValue
    split_ifs
    · exact Wrap_ne_nil _ _ hne
    · exact hne

theorem default_fieldPart_no_space (ToUpper : Str → Str) (line : Str) (f : RecordField)
    (hf : f ∈ ((defaultPipeline ToUpper).processed line).Fields)
    (hk : ' ' ∉ f.Key) (hv : ' ' ∉ f.Value) :
    ' ' ∉ fieldPart defaultPipelineRenderer.profile f := by
  obtain ⟨hout, _, _, hstyle⟩ := processed_default_fields ToUpper line f hf
  have hev : ' ' ∉ effectiveValue f := by
    unfold effectiveValue
    rw [hout]
    simpa using hv
  have hsv : ' ' ∉ styledValue f := by
    unfold styledValue
    split_ifs with hs
    · rw [hstyle hs]
      exact Wrap_no_space _ _ (by decide) hev
    · exact hev
  unfold fieldPart
  split_ifs
  · have he : ' ' ∉ "=".toList := by decide
    simp only [List.mem_append, not_or]
    exact ⟨⟨hk, he⟩, hsv⟩
  · exact hsv

theorem default_badge (ToUpper : Str → Str)
    (hU1 : ∀ s, s ≠ [] → ToUpper s ≠ []) (level : Str) (hl : level ≠ []) :
    defaultPipelineRenderer.levelBadge ToUpper level ≠ [] ∧
    ((∀ s, ' ' ∉ s → ' ' ∉ ToUpper s) → ' ' ∉ level →
      ' ' ∉ defaultPipelineRenderer.levelBadge ToUpper level) := by
  rw [levelBadge_eq]
  have hlab : (mapGet defaultPipelineRenderer.profile.LevelLabels (ToUpper level)).getD
        (ToUpper level) ≠ [] ∧
      ((∀ s, ' ' ∉ s → ' ' ∉ ToUpper s) → ' ' ∉ level →
        ' ' ∉ (mapGet defaultPipelineRenderer.profile.LevelLabels (ToUpper level)).getD
          (ToUpper level)) := by
    cases hm : mapGet defaultPipelineRenderer.profile.LevelLabels (ToUpper level) with
    | none => exact ⟨hU1 level hl, fun hU2 hs => hU2 level hs⟩
    | some l =>
      have := default_label (ToUpper level) l hm
      exact ⟨this.1, fun _ _ => this.2⟩
  exact ⟨Wrap_ne_nil _ _ hlab.1, fun hU2 hs =>
    Wrap_no_space _ _ (badgeStyle_default_codes _) (hlab.2 hU2 hs)⟩

/-- C9 (as the code behaves): for the default pipeline and a line none of whose
fields with a key hidden by the default profile has an empty value, every part
joined by the renderer is non-empty; if moreover time, level, message, keys and
values of the record contain no space, the rendered line has no space at either
end and no two spaces in a row.  (`ToUpper` is assumed to keep non-empty text
non-empty and to introduce no space.) -/
theorem C9_render_tidy (ToUpper : Str → Str)
    (hU1 : ∀ s, s ≠ [] → ToUpper s ≠ []) (hU2 : ∀ s, ' ' ∉ s → ' ' ∉ ToUpper s) (line : Str)
    (hval : ∀ f ∈ ((defaultPipeline ToUpper).processed line).Fields,
      mapGet DefaultProfile.HideKeys f.Key = some true → f.Value ≠ []) :
    (defaultPipeline ToUpper).Colorize line =
      Join (defaultPipelineRenderer.parts ToUpper ((defaultPipeline ToUpper).processed line))
        " ".toList ∧
    (∀ part ∈ defaultPipelineRenderer.parts ToUpper ((defaultPipeline ToUpper).processed line),
      part ≠ []) ∧
    (' ' ∉ ((defaultPipeline ToUpper).processed line).Time →
      ' ' ∉ ((defaultPipeline ToUpper).processed line).Level →
      ' ' ∉ ((defaultPipeline ToUpper).processed line).Message →
      (∀ f ∈ ((defaultPipeline ToUpper).processed line).Fields, ' ' ∉ f.Key ∧ ' ' ∉ f.Value) →
      ((defaultPipeline ToUpper).Colorize line).head? ≠ some ' ' ∧
      ((defaultPipeline ToUpper).Colorize line).getLast? ≠ some ' ' ∧
      noDoubleSpace ((defaultPipeline ToUpper).Colorize line)) := by
  have hne : ∀ part ∈ defaultPipelineRenderer.parts ToUpper
      ((defaultPipeline ToUpper).processed line), part ≠ [] := by
    intro part hp
    rw [parts_eq] at hp
    simp only [List.mem_append, List.mem_map] at hp
    rcases hp with ((hp | hp) | hp) | ⟨f, hf, rfl⟩
    · split_ifs at hp with h
      · rw [List.mem_singleton] at hp
        rw [hp]
        exact Wrap_ne_nil _ _ h
      · cases hp
    · split_ifs at hp with h
      · rw [List.mem_singleton] at hp
        rw [hp]
        exact (default_badge ToUpper hU1 _ h).1
      · cases hp
    · split_ifs at hp with h
      · rw [List.mem_singleton] at hp
        rw [hp]
        exact h
      · cases hp
    · exact default_fieldPart_ne_nil ToUpper line f hf (hval f hf)
  refine ⟨Colorize_default ToUpper line, hne, ?_⟩
  intro hT hL hM hF
  rw [Colorize_default]
  apply Join_tidy
  intro part hp
  refine ⟨hne part hp, ?_⟩
  rw [parts_eq] at hp
  simp only [List.mem_append, List.mem_map] at hp
  rcases hp with ((hp | hp) | hp) | ⟨f, hf, rfl⟩
  · split_ifs at hp with h
    · rw [List.mem_singleton] at hp
      rw [hp]
      exact Wrap_no_space _ _ (by decide) hT
    · cases hp
  · split_ifs at hp with h
    · rw [List.mem_singleton] at hp
      rw [hp]
      exact (default_badge ToUpper hU1 _ h).2 hU2 hL
    · cases hp
  · split_ifs at hp with h
    · rw [List.mem_singleton] at hp
      rw [hp]
      exact hM
    · cases hp
  · exact default_fieldPart_no_space ToUpper line f hf (hF f hf).1 (hF f hf).2

theorem not_noDoubleSpace (a b : Str) : ¬ noDoubleSpace (a ++ ' ' :: ' ' :: b) := by
  unfold noDoubleSpace
  rw [List.chain'_append]
  rintro ⟨_, h, _⟩
  rw [List.chain'_cons] at h
  exact h.1 ⟨rfl, rfl⟩

/-- C9 on the line `time=12 level=info msg=hi a=1 err=boom`. -/
theorem C9_render_tidy_witness :
    ((defaultPipeline upperASCII).Colorize
        "time=12 level=info msg=hi a=1 err=boom".toList).head? ≠ some ' ' ∧
    ((defaultPipeline upperASCII).Colorize
        "time=12 level=info msg=hi a=1 err=boom".toList).getLast? ≠ some ' ' ∧
    noDoubleSpace ((defaultPipeline upperASCII).Colorize
        "time=12 level=info msg=hi a=1 err=boom".toList) :=
  (C9_render_tidy upperASCII upperASCII_ne_nil upperASCII_no_space
    "time=12 level=info msg=hi a=1 err=boom".toList (by decide)).2.2
    (by decide) (by decide) (by decide) (by decide)

/-- C9 fails as stated.  In `player= a=1` the hidden key `player` has an empty
value: one joined part is empty and the rendered line starts with a space,
although no key or value contains a space.  In `level="a  b"` time and message
are empty and there is no field, yet the badge carries two spaces in a row. -/
theorem C9_counterexample :
    ([] ∈ defaultPipelineRenderer.parts upperASCII
        ((defaultPipeline upperASCII).processed "player= a=1".toList) ∧
      (∀ f ∈ ((defaultPipeline upperASCII).processed "player= a=1".toList).Fields,
        ' ' ∉ f.Key ∧ ' ' ∉ f.Value) ∧
      (defaultPipeline upperASCII).Colorize "player= a=1".toList = " a=1".toList ∧
      ((defaultPipeline upperASCII).Colorize "player= a=1".toList).head? = some ' ') ∧
    (((defaultPipeline upperASCII).processed "level=\"a  b\"".toList).Time = [] ∧
      ((defaultPipeline upperASCII).processed "level=\"a  b\"".toList).Message = [] ∧
      ((defaultPipeline upperASCII).processed "level=\"a  b\"".toList).Fields = [] ∧
      (defaultPipeline upperASCII).Colorize "level=\"a  b\"".toList =
        DefaultTheme.Info.Wrap "A  B".toList ∧
      ¬ noDoubleSpace ((defaultPipeline upperASCII).Colorize "level=\"a  b\"".toList)) := by
  refine ⟨⟨by decide, by decide, by decide, by decide⟩,
    by decide, by decide, by decide, by decide, ?_⟩
  have h : (defaultPipeline upperASCII).Colorize "level=\"a  b\"".toList =
      "\x1b[30;48;2;64;224;208;1mA".toList ++ ' ' :: ' ' :: "B\x1b[0m".toList := by decide
  rw [h]
  exact not_noDoubleSpace _ _

/-! ## Transform and style processors -/

theorem fieldTransformProcessor_Process_eq (t : FieldTransformer) (rec : LogRecord) :
    fieldTransformProcessor.Process { transformer := some t } rec =
      { rec with Fields := rec.Fields.map (transformField t) } := by
  unfold fieldTransformProcessor.Process
  simp only
  apply forRange_fields_map
  intro i r f hf
  simp only [hf]
  cases hok : (t f.Key f.Value).2 with
  | true =>
    have h1 : transformField t f = { f with ValueOut := (t f.Key f.Value).1 } := by
      unfold transformField
      rw [if_pos hok]
    rw [h1, updField_of_getElem? _ _ _ _ hf]
    simp
  | false =>
    have h1 : transformField t f = f := by
      unfold transformField
      rw [if_neg (by simp [hok])]
    rw [h1, set_self_of_getElem? _ _ _ hf]
    simp

theorem fieldStyleProcessor_Process_eq (sp : FieldStyleProvider) (rec : LogRecord) :
    fieldStyleProcessor.Process { provider := some sp } rec =
      { rec with Fields := rec.Fields.map (styleField sp) } := by
  unfold fieldStyleProcessor.Process
  simp only
  apply forRange_fields_map
  intro i r f hf
  simp only [hf]
  have hev : (if f.ValueOut ≠ [] then f.ValueOut else f.Value) = effectiveValue f := rfl
  rw [hev]
  cases hok : (sp f.Key (effectiveValue f)).2 with
  | true =>
    have h1 : styleField sp f =
        { f with Style := (sp f.Key (effectiveValue f)).1, Styled := true } := by
      unfold styleField
      rw [if_pos hok]
    rw [h1, updField_of_getElem? _ _ _ _ hf]
    simp
  | false =>
    have h1 : styleField sp f = f := by
      unfold styleField
      rw [if_neg (by simp [hok])]
    rw [h1, set_self_of_getElem? _ _ _ hf]
    simp

/-- C11 (as the code behaves): for a field without display value (as the parser
makes it) the transform hook's answer `d` becomes the effective value only when
the hook reports `applied = true` and `d` is non-empty; otherwise the effective
value is the raw `Value`.  The style lookup is queried with that effective value
and the default renderer renders it; key and raw value are kept. -/
theorem C11_effective_value (t : FieldTransformer) (sp : FieldStyleProvider)
    (r : defaultRenderer) (rec : LogRecord) (i : Nat) (f : RecordField)
    (hf : rec.Fields[i]? = some f) (hout : f.ValueOut = []) :
    ∃ f1 : RecordField,
      (fieldTransformProcessor.Process { transformer := some t } rec).Fields[i]? = some f1 ∧
      f1.Key = f.Key ∧ f1.Value = f.Value ∧
      effectiveValue f1 =
        (if (t f.Key f.Value).2 = true ∧ (t f.Key f.Value).1 ≠ [] then (t f.Key f.Value).1
         else f.Value) ∧
      (fieldStyleProcessor.Process { provider := some sp }
          (fieldTransformProcessor.Process { transformer := some t } rec)).Fields[i]? =
        some (if (sp f.Key (effectiveValue f1)).2 = true then
            { f1 with Style := (sp f.Key (effectiveValue f1)).1, Styled := true }
          else f1) ∧
      ∀ parts : List Str, r.renderField parts f1 =
        parts ++ [if keyVisible r.profile f1 then
            f.Key ++ "=".toList ++
              (if f1.Styled then f1.Style.Wrap (effectiveValue f1) else effectiveValue f1)
          else (if f1.Styled then f1.Style.Wrap (effectiveValue f1) else effectiveValue f1)] := by
  refine ⟨transformField t f, ?_, ?_, ?_, ?_, ?_, ?_⟩
  · rw [fieldTransformProcessor_Process_eq]
    simp [hf]
  · unfold transformField; split_ifs <;> rfl
  · unfold transformField; split_ifs <;> rfl
  · unfold transformField effectiveValue
    cases hok : (t f.Key f.Value).2 with
    | true =>
      by_cases hd : (t f.Key f.Value).1 = []
      · simp [hd, hout]
      · simp [hd]
    | false => simp [hout]
  · rw [fieldStyleProcessor_Process_eq, fieldTransformProcessor_Process_eq]
    have hk : (transformField t f).Key = f.Key := by
      unfold transformField; split_ifs <;> rfl
    simp only [List.getElem?_map, hf, Option.map_some']
    unfold styleField
    rw [hk]
  · intro parts
    have hk : (transformField t f).Key = f.Key := by
      unfold transformField; split_ifs <;> rfl
    rw [renderField_eq]
    unfold fieldPart styledValue
    rw [hk]

/-- C11 on the field `k=v` and a hook that turns every value into `shown`. -/
theorem C11_effective_value_witness :
    ∃ f1 : RecordField,
      (fieldTransformProcessor.Process { transformer := some (fun _ _ => ("shown".toList, true)) }
        { Raw := [], Time := [], Level := [], Message := [],
          Fields := [plainField "k".toList "v".toList] }).Fields[0]? = some f1 ∧
      effectiveValue f1 = "shown".toList := by
  obtain ⟨f1, h1, _, _, h4, _⟩ := C11_effective_value (fun _ _ => ("shown".toList, true))
    (fun _ _ => (Chalk.zero, false)) defaultPipelineRenderer
    { Raw := [], Time := [], Level := [], Message := [],
      Fields := [plainField "k".toList "v".toList] } 0 (plainField "k".toList "v".toList)
    rfl rfl
  exact ⟨f1, h1, h4⟩

/-- C11 fails as stated for the empty display value: when the hook answers
`("", true)` for the field `k=v`, the effective value is still `v`, and the line
is rendered as `k=v`, not as `k=`. -/
theorem C11_counterexample :
    blankTransformer "k".toList "v".toList = ([], true) ∧
    (fieldTransformProcessor.Process { transformer := some blankTransformer }
        (ParseTextLogLine "k=v".toList)).Fields.map effectiveValue = ["v".toList] ∧
    (NewPipeline upperASCII DefaultTheme DefaultProfile none (some blankTransformer) []
        none).Colorize "k=v".toList = "k=v".toList := by
  decide

/-! ## Colorizing writer -/

theorem split_at_indexOf (c : Char) (buf : Str) (h : c ∈ buf) :
    buf = buf.take (buf.indexOf c) ++ c :: buf.drop (buf.indexOf c + 1) ∧
      c ∉ buf.take (buf.indexOf c) := by
  induction buf with
  | nil => simp at h
  | cons a t ih =>
    by_cases hac : a = c
    · subst hac
      simp
    · have hct : c ∈ t := by
        rcases List.mem_cons.1 h with h | h
        · exact absurd h.symm hac
        · exact h
      have hidx : (a :: t).indexOf c = t.indexOf c + 1 := List.indexOf_cons_ne _ hac
      obtain ⟨ih1, ih2⟩ := ih hct
      rw [hidx]
      simp only [List.take_succ_cons, List.drop_succ_cons, List.cons_append, List.mem_cons,
        not_or]
      exact ⟨by rw [← ih1], fun h => hac h.symm, ih2⟩

theorem scanLines_no_newline {σ ε : Type} (pl : Option Pipeline) (write : SinkWrite σ ε)
    (x : Str) (hx : '\n' ∉ x) (cur : Str) (rest : List Char) (dst : σ) :
    scanLines pl write cur (x ++ rest) dst = scanLines pl write (cur ++ x) rest dst := by
  induction x generalizing cur with
  | nil => simp
  | cons c x ih =>
    simp only [List.mem_cons, not_or] at hx
    rw [List.cons_append, scanLines, if_neg (Ne.symm hx.1), ih hx.2]
    simp

theorem scanLines_nil {σ ε : Type} (pl : Option Pipeline) (write : SinkWrite σ ε)
    (cur : Str) (dst : σ) : scanLines pl write cur [] dst = (cur, dst, none) := by
  rw [scanLines]

theorem scanLines_newline {σ ε : Type} (pl : Option Pipeline) (write : SinkWrite σ ε)
    (cur : Str) (rest : List Char) (dst : σ) :
    scanLines pl write cur ('\n' :: rest) dst =
      match write dst (ColorizeLogLine pl cur ++ "\n".toList) with
      | (dst, some err) => (rest, dst, some err)
      | (dst, none) => scanLines pl write [] rest dst := by
  rw [scanLines, if_pos rfl]

/-- The loop of `Write` never runs out of fuel, and its result is the one read
off byte by byte. -/
theorem writeLoop_eq_scan {σ ε : Type} (pl : Option Pipeline) (write : SinkWrite σ ε)
    (plen : Nat) (fuel : Nat) :
    ∀ (buf : Str) (dst : σ), buf.length < fuel →
      writeLoop pl write plen fuel buf dst =
        some { buf := (scanLines pl write [] buf dst).1,
               dst := (scanLines pl write [] buf dst).2.1,
               n := plen,
               err := (scanLines pl write [] buf dst).2.2 } := by
  induction fuel with
  | zero => intro buf dst h; omega
  | succ fuel ih =>
    intro buf dst hlen
    unfold writeLoop
    by_cases hm : '\n' ∈ buf
    · obtain ⟨hsplit, hnot⟩ := split_at_indexOf '\n' buf hm
      have hi : IndexByte buf '\n' = (buf.indexOf '\n' : Nat) := IndexByte_of_mem _ _ hm
      have hneg : ¬ (IndexByte buf '\n' < 0) := by rw [hi]; omega
      simp only [hi, Int.toNat_ofNat] at hneg ⊢
      rw [if_neg hneg]
      have hscan : scanLines pl write [] buf dst =
          match write dst (ColorizeLogLine pl (buf.take (buf.indexOf '\n')) ++ "\n".toList) with
          | (dst, some err) => (buf.drop (buf.indexOf '\n' + 1), dst, some err)
          | (dst, none) => scanLines pl write [] (buf.drop (buf.indexOf '\n' + 1)) dst := by
        conv_lhs => rw [hsplit]
        rw [scanLines_no_newline pl write _ hnot, scanLines_newline]
        simp
      rw [hscan]
      have hshort : (buf.drop (buf.indexOf '\n' + 1)).length < fuel := by
        have hidx := List.indexOf_lt_length.2 hm
        rw [List.length_drop]; omega
      rcases hw : write dst (ColorizeLogLine pl (buf.take (buf.indexOf '\n')) ++ "\n".toList)
        with ⟨d, _ | e⟩
      · simp only
        exact ih _ _ hshort
      · simp only
    · have hi : IndexByte buf '\n' = -1 := IndexByte_of_not_mem _ _ hm
      have h0 := scanLines_no_newline pl write buf hm [] [] dst
      rw [List.append_nil, List.nil_append, scanLines_nil] at h0
      rw [hi, if_pos (by omega), h0]

theorem Write_eq_scan {σ ε : Type} (pl : Option Pipeline) (write : SinkWrite σ ε)
    (w : ColorizingWriter) (dst : σ) (p : Str) :
    ColorizingWriter.Write pl write w dst p =
      some { buf := (scanLines pl write [] (w.buf ++ p) dst).1,
             dst := (scanLines pl write [] (w.buf ++ p) dst).2.1,
             n := p.length,
             err := (scanLines pl write [] (w.buf ++ p) dst).2.2 } := by
  unfold ColorizingWriter.Write
  exact writeLoop_eq_scan pl write p.length _ _ dst (Nat.lt_succ_self _)

theorem splitOn_sep_word (sep : Char) (t : Str) (ht : sep ∉ t) : t.splitOn sep = [t] := by
  induction t with
  | nil => rfl
  | cons x t ih =>
    simp only [List.mem_cons, not_or] at ht
    have hx : (x == sep) = false := by simpa using Ne.symm ht.1
    unfold List.splitOn at ih ⊢
    rw [List.splitOnP_cons, ih ht.2]
    simp [hx]

theorem splitOn_sep_append (sep : Char) (t r : Str) (ht : sep ∉ t) :
    (t ++ sep :: r).splitOn sep = t :: r.splitOn sep := by
  induction t with
  | nil =>
    unfold List.splitOn
    rw [List.nil_append, List.splitOnP_cons]
    simp
  | cons x t ih =>
    simp only [List.mem_cons, not_or] at ht
    have hx : (x == sep) = false := by simpa using Ne.symm ht.1
    unfold List.splitOn at ih ⊢
    rw [List.cons_append, List.splitOnP_cons, ih ht.2]
    simp [hx]

theorem splitOn_ne_nil (sep : Char) (t : Str) : t.splitOn sep ≠ [] := by
  unfold List.splitOn
  exact List.splitOnP_ne_nil _ _

theorem emitLines_cons {σ ε : Type} (pl : Option Pipeline) (write : SinkWrite σ ε) (dst : σ)
    (line : Str) (lines : List Str) :
    emitLines pl write dst (line :: lines) =
      emitLines pl write (write dst (ColorizeLogLine pl line ++ "\n".toList)).1 lines := rfl

/-- With a sink that does not fail, the bytes read are cut at the newlines: all
pieces but the last are written, the last one stays in the buffer. -/
theorem scanLines_ok {σ ε : Type} (pl : Option Pipeline) (write : SinkWrite σ ε)
    (hok : ∀ s x, (write s x).2 = none) (buf : List Char) :
    ∀ (cur : Str) (dst : σ), '\n' ∉ cur →
      scanLines pl write cur buf dst =
        ((((cur ++ buf).splitOn '\n').getLast?).getD [],
          emitLines pl write dst ((cur ++ buf).splitOn '\n').dropLast, none) := by
  induction buf with
  | nil =>
    intro cur dst hcur
    rw [scanLines_nil, List.append_nil, splitOn_sep_word '\n' cur hcur]
    simp [emitLines]
  | cons c rest ih =>
    intro cur dst hcur
    by_cases hc : c = '\n'
    · subst hc
      rw [scanLines_newline, splitOn_sep_append '\n' cur rest hcur]
      have hw : write dst (ColorizeLogLine pl cur ++ "\n".toList) =
          ((write dst (ColorizeLogLine pl cur ++ "\n".toList)).1, none) := by
        rw [← hok dst (ColorizeLogLine pl cur ++ "\n".toList)]
      rw [hw]
      simp only
      have ih0 := ih [] (write dst (ColorizeLogLine pl cur ++ "\n".toList)).1 (by simp)
      rw [List.nil_append] at ih0
      rw [ih0]
      obtain ⟨y, ys, hys⟩ := List.exists_cons_of_ne_nil (splitOn_ne_nil '\n' rest)
      rw [hys]
      simp [List.getLast?_cons_cons, List.dropLast, emitLines_cons]
    · rw [scanLines, if_neg hc, ih (cur ++ [c]) dst (by simp [hcur, Ne.symm hc])]
      simp

/-- C12: with a sink that does not fail, `Write(p)` on a writer holding `b`
writes, for each newline-terminated line of `b ++ p` in order, the colorized
line followed by a newline; the bytes after the last newline stay in the
buffer (all of `b ++ p`, with nothing written, when there is no newline); it
returns `(len(p), nil)`. -/
theorem C12_write_lines {σ ε : Type} (pl : Option Pipeline) (write : SinkWrite σ ε)
    (hok : ∀ s x, (write s x).2 = none) (b p : Str) (dst : σ) :
    ColorizingWriter.Write pl write { buf := b } dst p =
      some { buf := (((b ++ p).splitOn '\n').getLast?).getD [],
             dst := emitLines pl write dst ((b ++ p).splitOn '\n').dropLast,
             n := p.length, err := none } ∧
    ('\n' ∉ b ++ p →
      ColorizingWriter.Write pl write { buf := b } dst p =
        some { buf := b ++ p, dst := dst, n := p.length, err := none }) := by
  have h := scanLines_ok pl write hok (b ++ p) [] dst (by simp)
  rw [List.nil_append] at h
  constructor
  · rw [Write_eq_scan, h]
  · intro hnl
    rw [Write_eq_scan, h, splitOn_sep_word '\n' _ hnl]
    simp [emitLines]

/-- C12 on a writer holding `ab` that is given `c`, newline, `d` (nil pipeline,
sink that appends): the line `abc` is written and `d` stays buffered. -/
theorem C12_write_lines_witness :
    ColorizingWriter.Write none appendSink { buf := "ab".toList } [] "c\nd".toList =
      some { buf := "d".toList, dst := "abc\n".toList, n := 3, err := none } :=
  (C12_write_lines none appendSink (fun _ _ => rfl) "ab".toList "c\nd".toList []).1

theorem scanLines_append {σ ε : Type} (pl : Option Pipeline) (write : SinkWrite σ ε)
    (x y : List Char) :
    ∀ (cur : Str) (dst : σ),
      scanLines pl write cur (x ++ y) dst =
        match scanLines pl write cur x dst with
        | (b, d, none) => scanLines pl write b y d
        | (b, d, some e) => (b ++ y, d, some e) := by
  induction x with
  | nil => intro cur dst; rw [List.nil_append, scanLines_nil]
  | cons c x ih =>
    intro cur dst
    by_cases hc : c = '\n'
    · subst hc
      rw [List.cons_append, scanLines_newline, scanLines_newline]
      rcases hw : write dst (ColorizeLogLine pl cur ++ "\n".toList) with ⟨d, _ | e⟩
      · simp only
        exact ih [] d
      · simp only
    · rw [List.cons_append, scanLines, if_neg hc, ih, scanLines, if_neg hc]

theorem scanLines_rest_no_newline {σ ε : Type} (pl : Option Pipeline) (write : SinkWrite σ ε)
    (x : List Char) :
    ∀ (cur : Str) (dst : σ), '\n' ∉ cur → (scanLines pl write cur x dst).2.2 = none →
      '\n' ∉ (scanLines pl write cur x dst).1 := by
  induction x with
  | nil => intro cur dst hcur _; rw [scanLines_nil]; exact hcur
  | cons c x ih =>
    intro cur dst hcur
    by_cases hc : c = '\n'
    · subst hc
      rw [scanLines_newline]
      rcases hw : write dst (ColorizeLogLine pl cur ++ "\n".toList) with ⟨d, _ | e⟩
      · simp only
        exact ih [] d (by simp)
      · simp
    · rw [scanLines, if_neg hc]
      exact ih (cur ++ [c]) dst (by simp [hcur, Ne.symm hc])

/-- C13: with a sink that does not fail, `Write(p1)` followed by `Write(p2)`
leaves the sink and the buffer in the same state as a single `Write(p1 ++ p2)`,
wherever the cut falls. -/
theorem C13_split_write {σ ε : Type} (pl : Option Pipeline) (write : SinkWrite σ ε)
    (hok : ∀ s x, (write s x).2 = none) (w : ColorizingWriter) (dst : σ) (p1 p2 : Str) :
    ∃ r1 r2 r : WriteResult σ ε,
      ColorizingWriter.Write pl write w dst p1 = some r1 ∧
      ColorizingWriter.Write pl write { buf := r1.buf } r1.dst p2 = some r2 ∧
      ColorizingWriter.Write pl write w dst (p1 ++ p2) = some r ∧
      r2.dst = r.dst ∧ r2.buf = r.buf := by
  refine ⟨_, _, _, Write_eq_scan pl write w dst p1, Write_eq_scan pl write _ _ p2,
    Write_eq_scan pl write w dst (p1 ++ p2), ?_⟩
  simp only
  have herr : (scanLines pl write [] (w.buf ++ p1) dst).2.2 = none := by
    rw [scanLines_ok pl write hok (w.buf ++ p1) [] dst (by simp)]
  have hnl := scanLines_rest_no_newline pl write (w.buf ++ p1) [] dst (by simp) herr
  have h1 := scanLines_append pl write (w.buf ++ p1) p2 [] dst
  have h2 := scanLines_no_newline pl write _ hnl [] p2
    (scanLines pl write [] (w.buf ++ p1) dst).2.1
  rw [List.nil_append] at h2
  rw [← List.append_assoc, h1, h2]
  rcases hs : scanLines pl write [] (w.buf ++ p1) dst with ⟨b, d, _ | e⟩
  · simp
  · rw [hs] at herr
    cases herr

/-- C13 on the line `ab`, newline, `cd` cut inside the first line (nil pipeline,
sink that appends). -/
theorem C13_split_write_witness :
    ∃ r1 r2 r : WriteResult Str Str,
      ColorizingWriter.Write none appendSink { buf := [] } [] "a".toList = some r1 ∧
      ColorizingWriter.Write none appendSink { buf := r1.buf } r1.dst "b\ncd".toList = some r2 ∧
      ColorizingWriter.Write none appendSink { buf := [] } [] ("a".toList ++ "b\ncd".toList)
        = some r ∧
      r2.dst = r.dst ∧ r2.buf = r.buf :=
  C13_split_write none appendSink (fun _ _ => rfl) { buf := [] } [] "a".toList "b\ncd".toList

/-- C14: when the sink fails on a line, `Write` returns `len(p)` and the sink's
error at once, the sink is left as that failed call left it (no later line is
attempted), and the buffer holds every byte after the failed line's newline; the
next `Write` treats these bytes like bytes that have just arrived, so complete
lines among them are written then.  Here `done` is the text of the lines written
before the failing one. -/
theorem C14_sink_failure {σ ε : Type} (pl : Option Pipeline) (write : SinkWrite σ ε)
    (w : ColorizingWriter) (dst : σ) (p done line rest : Str) (s1 s2 : σ) (e : ε)
    (hsplit : w.buf ++ p = done ++ line ++ '\n' :: rest) (hline : '\n' ∉ line)
    (hdone : ColorizingWriter.Write pl write { buf := [] } dst done =
      some { buf := [], dst := s1, n := done.length, err := none })
    (hfail : write s1 (ColorizeLogLine pl line ++ "\n".toList) = (s2, some e)) :
    ColorizingWriter.Write pl write w dst p =
      some { buf := rest, dst := s2, n := p.length, err := some e } ∧
    ∀ p2 : Str, ColorizingWriter.Write pl write { buf := rest } s2 p2 =
      (ColorizingWriter.Write pl write { buf := [] } s2 (rest ++ p2)).map
        (fun r => { r with n := p2.length }) := by
  constructor
  · rw [Write_eq_scan] at hdone ⊢
    simp only [List.nil_append, Option.some.injEq, WriteResult.mk.injEq, true_and] at hdone
    obtain ⟨hd1, hd2, hd3⟩ := hdone
    have hscan : scanLines pl write [] done dst = ([], s1, none) := by
      rcases hs : scanLines pl write [] done dst with ⟨b, d, e0⟩
      rw [hs] at hd1 hd2 hd3
      simp only at hd1 hd2 hd3
      rw [hd1, hd2, hd3]
    have h1 := scanLines_append pl write done (line ++ '\n' :: rest) [] dst
    rw [hscan] at h1
    simp only at h1
    have h2 := scanLines_no_newline pl write line hline [] ('\n' :: rest) s1
    rw [List.nil_append, scanLines_newline, hfail] at h2
    simp only at h2
    rw [hsplit, List.append_assoc, h1, h2]
  · intro p2
    rw [Write_eq_scan, Write_eq_scan]
    simp

/-- C14 on a writer holding `a`, newline, `b` that is given `c`, newline, `d`,
newline, `e`, with a sink whose second call fails: `a` is written, the call for
`bc` fails, and `d`, newline, `e` stays buffered. -/
theorem C14_sink_failure_witness :
    ColorizingWriter.Write none secondCallFails { buf := "a\nb".toList } ([], 0) "c\nd\ne".toList =
      some { buf := "d\ne".toList, dst := ("a\n".toList, 2), n := 5,
             err := some "boom".toList } :=
  (C14_sink_failure none secondCallFails { buf := "a\nb".toList } ([], 0) "c\nd\ne".toList
    "a\n".toList "bc".toList "d\ne".toList ("a\n".toList, 1) ("a\n".toList, 2) "boom".toList
    (by decide) (by decide) (by decide) (by decide)).1

/-! ## Fan-out handler -/

theorem fanout_foldl {κ ρ lvl ω ε : Type} (ctx : κ) (rec : ρ)
    (hs : List (Handler κ ρ lvl ω ε)) :
    ∀ (world : ω) (first : Option ε),
      hs.foldl (fun (st : ω × Option ε) next =>
        match next.Handle ctx rec st.1 with
        | (world, some err) => if st.2.isNone then (world, some err) else (world, st.2)
        | (world, none) => (world, st.2)) (world, first) =
      ((callAll ctx rec hs world).1,
        first.or ((callAll ctx rec hs world).2.filterMap id).head?) := by
  induction hs with
  | nil => intro world first; cases first <;> simp [callAll]
  | cons h hs ih =>
    intro world first
    rw [List.foldl_cons]
    rcases hh : h.Handle ctx rec world with ⟨w1, _ | e⟩
    · simp only
      rw [ih]
      simp [callAll, hh]
    · cases first with
      | none =>
        simp only [Option.isNone_none, if_true]
        rw [ih]
        simp [callAll, hh]
      | some e0 =>
        simp only [Option.isNone_some]
        rw [ih]
        simp [callAll, hh]

theorem callAll_world {κ ρ lvl ω ε : Type} (ctx : κ) (rec : ρ)
    (hs : List (Handler κ ρ lvl ω ε)) :
    ∀ world : ω, (callAll ctx rec hs world).1 =
      hs.foldl (fun w next => (next.Handle ctx rec w).1) world := by
  induction hs with
  | nil => intro world; rfl
  | cons h hs ih => intro world; simp [callAll, ih]

theorem callAll_length {κ ρ lvl ω ε : Type} (ctx : κ) (rec : ρ)
    (hs : List (Handler κ ρ lvl ω ε)) :
    ∀ world : ω, (callAll ctx rec hs world).2.length = hs.length := by
  induction hs with
  | nil => intro world; rfl
  | cons h hs ih => intro world; simp [callAll, ih]

theorem head?_filterMap_id_eq_none {α : Type} (l : List (Option α)) :
    (l.filterMap id).head? = none ↔ ∀ o ∈ l, o = none := by
  induction l with
  | nil => simp
  | cons a l ih =>
    cases a with
    | none => simp [ih]
    | some x => simp

/-- C15: `Handle` calls every sink exactly once, in registration order, each on
the world the previous sink left, whatever the earlier sinks returned; it
returns the first error among the calls, and nil exactly when every call
succeeded. -/
theorem C15_fanout_handle {κ ρ lvl ω ε : Type} (h : fanoutHandler κ ρ lvl ω ε) (ctx : κ)
    (rec : ρ) (world : ω) :
    (h.Handle ctx rec world).1 = (callAll ctx rec h.handlers world).1 ∧
    (h.Handle ctx rec world).1 =
      h.handlers.foldl (fun w next => (next.Handle ctx rec w).1) world ∧
    (callAll ctx rec h.handlers world).2.length = h.handlers.length ∧
    (h.Handle ctx rec world).2 =
      ((callAll ctx rec h.handlers world).2.filterMap id).head? ∧
    ((h.Handle ctx rec world).2 = none ↔
      ∀ o ∈ (callAll ctx rec h.handlers world).2, o = none) := by
  have hfold : h.Handle ctx rec world =
      ((callAll ctx rec h.handlers world).1,
        ((callAll ctx rec h.handlers world).2.filterMap id).head?) := by
    unfold fanoutHandler.Handle
    rw [fanout_foldl]
    simp
  refine ⟨by rw [hfold], by rw [hfold, callAll_world], callAll_length _ _ _ _,
    by rw [hfold], ?_⟩
  rw [hfold]
  exact head?_filterMap_id_eq_none _

/-- C15 on the sinks `[A (errors), B (succeeds)]`: both are called, `B` after
`A`, and the error returned is the one of `A`. -/
theorem C15_fanout_handle_witness :
    fanoutHandler.Handle { handlers := [sinkA, sinkB] } () "r".toList [] =
      (["Ar".toList, "Br".toList], some "errA".toList) := by
  have h := C15_fanout_handle { handlers := [sinkA, sinkB] } () "r".toList []
  exact Prod.ext (h.1.trans rfl) (h.2.2.2.1.trans rfl)

theorem enabledLoop_iff {κ ρ lvl ω ε : Type} (ctx : κ) (level : lvl)
    (hs : List (Handler κ ρ lvl ω ε)) :
    enabledLoop ctx level hs = true ↔ ∃ next ∈ hs, next.Enabled ctx level = true := by
  induction hs with
  | nil => simp [enabledLoop]
  | cons h hs ih =>
    unfold enabledLoop
    by_cases hh : h.Enabled ctx level = true
    · simp [hh]
    · simp [hh, ih]

/-- C16: `Enabled` is true exactly when at least one sink is enabled for the
level; for an empty list of sinks it is false. -/
theorem C16_fanout_enabled {κ ρ lvl ω ε : Type} (h : fanoutHandler κ ρ lvl ω ε) (ctx : κ)
    (level : lvl) :
    (h.Enabled ctx level = true ↔ ∃ next ∈ h.handlers, next.Enabled ctx level = true) ∧
    fanoutHandler.Enabled ({ handlers := [] } : fanoutHandler κ ρ lvl ω ε) ctx level = false := by
  exact ⟨enabledLoop_iff ctx level h.handlers, rfl⟩

/-- C16 on the sinks `[A, B]`, of which only `B` is enabled, from level 4 on. -/
theorem C16_fanout_enabled_witness :
    fanoutHandler.Enabled { handlers := [sinkA, sinkB] } () 4 = true ∧
    fanoutHandler.Enabled { handlers := [sinkA, sinkB] } () 3 = false :=
  ⟨(C16_fanout_enabled { handlers := [sinkA, sinkB] } () 4).1.2 ⟨sinkB, by simp, rfl⟩, rfl⟩

/-! ## `strings.TrimSpace` -/

theorem spaceRunes_pos : ∀ r ∈ spaceRunes, 0 < r.length := by decide

theorem leadingSpace_mem (s r : Str) (h : leadingSpace s = some r) :
    r ∈ spaceRunes ∧ r <+: s := by
  unfold leadingSpace at h
  refine ⟨List.mem_of_find?_eq_some h, ?_⟩
  have := List.find?_some h
  simpa using this

theorem trailingSpace_mem (s r : Str) (h : trailingSpace s = some r) :
    r ∈ spaceRunes ∧ r <:+ s := by
  unfold trailingSpace at h
  refine ⟨List.mem_of_find?_eq_some h, ?_⟩
  have := List.find?_some h
  simpa using this

theorem leadingSpace_trimLeftLoop (fuel : Nat) (s : Str) (h : s.length ≤ fuel) :
    leadingSpace (trimLeftLoop fuel s) = none := by
  induction fuel generalizing s with
  | zero =>
    have : s = [] := List.length_eq_zero.1 (Nat.le_zero.1 h)
    subst this
    decide
  | succ n ih =>
    unfold trimLeftLoop
    cases hl : leadingSpace s with
    | none => simpa using hl
    | some r =>
      simp only
      apply ih
      have hr := leadingSpace_mem s r hl
      have hpos := spaceRunes_pos r hr.1
      simp only [List.length_drop]
      omega

theorem trailingSpace_trimRightLoop (fuel : Nat) (s : Str) (h : s.length ≤ fuel) :
    trailingSpace (trimRightLoop fuel s) = none := by
  induction fuel generalizing s with
  | zero =>
    have : s = [] := List.length_eq_zero.1 (Nat.le_zero.1 h)
    subst this
    decide
  | succ n ih =>
    unfold trimRightLoop
    cases hl : trailingSpace s with
    | none => simpa using hl
    | some r =>
      simp only
      apply ih
      have hr := trailingSpace_mem s r hl
      have hpos := spaceRunes_pos r hr.1
      simp only [List.length_take]
      omega

theorem trimRightLoop_prefix (fuel : Nat) (s : Str) : trimRightLoop fuel s <+: s := by
  induction fuel generalizing s with
  | zero => exact List.prefix_refl s
  | succ n ih =>
    unfold trimRightLoop
    cases hl : trailingSpace s with
    | none => exact List.prefix_refl s
    | some r => exact (ih _).trans (List.take_prefix _ _)

/-- No white space is left at the end of `TrimSpace s`: the fuel was enough. -/
theorem trailingSpace_TrimSpace (s : Str) : trailingSpace (TrimSpace s) = none :=
  trailingSpace_trimRightLoop _ _ (Nat.le_refl _)

/-- No white space is left at the front of `TrimSpace s`: the fuel was enough. -/
theorem leadingSpace_TrimSpace (s : Str) : leadingSpace (TrimSpace s) = none := by
  have h1 : leadingSpace (trimLeftLoop s.length s) = none :=
    leadingSpace_trimLeftLoop _ _ (Nat.le_refl _)
  have h2 : TrimSpace s <+: trimLeftLoop s.length s := trimRightLoop_prefix _ _
  unfold leadingSpace at *
  rw [List.find?_eq_none] at *
  intro r hr hp
  apply h1 r hr
  simp only [List.isPrefixOf_iff_prefix] at *
  exact hp.trans h2

/-- `TrimSpace` on some texts: ASCII white space; the no-break space U+00A0 and
the next line U+0085, two bytes each; the em space U+2003 and the ideographic
space U+3000, three bytes each; and the byte A0 alone, which is not valid UTF-8
and stays. -/
theorem TrimSpace_examples :
    TrimSpace "  a b \t\r\n".toList = "a b".toList ∧
    TrimSpace [Char.ofNat 0xC2, Char.ofNat 0xA0] = [] ∧
    TrimSpace [Char.ofNat 0xC2, Char.ofNat 0x85, 'x', ' ', Char.ofNat 0xC2, Char.ofNat 0xA0] =
      ['x'] ∧
    TrimSpace [Char.ofNat 0xE2, Char.ofNat 0x80, Char.ofNat 0x83, 'x', Char.ofNat 0xE3,
      Char.ofNat 0x80, Char.ofNat 0x80, '\n'] = ['x'] ∧
    TrimSpace [Char.ofNat 0xA0, 'x'] = [Char.ofNat 0xA0, 'x'] := by
  decide

/-! ## Rotation -/

theorem put_nodes_ne {ι : Type} [DecidableEq ι] (fs : FS ι) (i j : ι) (content : Str)
    (h : j ≠ i) : (fs.put i content).nodes j = fs.nodes j := by
  simp [FS.put, h]

theorem put_nodes_eq {ι : Type} [DecidableEq ι] (fs : FS ι) (i : ι) (content : Str) :
    (fs.put i content).nodes i = some (Node.file content) := by
  simp [FS.put]

theorem put_content_ne {ι : Type} [DecidableEq ι] (fs : FS ι) (i j : ι) (content : Str)
    (h : j ≠ i) : (fs.put i content).content j = fs.content j := by
  simp [FS.content, FS.put, h]

theorem put_content_eq {ι : Type} [DecidableEq ι] (fs : FS ι) (i : ι) (content : Str) :
    (fs.put i content).content i = some content := by
  simp [FS.content, FS.put]

theorem content_eq_some {ι : Type} (fs : FS ι) (i : ι) (c : Str) :
    fs.content i = some c ↔ fs.nodes i = some (Node.file c) := by
  unfold FS.content
  rcases h : fs.nodes i with _ | n
  · simp
  · cases n <;> simp

/-- Making directories leaves every place as it was where something is. -/
theorem mkdirs_nodes_of_some {ι : Type} [DecidableEq ι] (fs : FS ι) (chain : List ι) (i : ι)
    (n : Node) (h : fs.nodes i = some n) : (fs.mkdirs chain).nodes i = some n := by
  simp [FS.mkdirs, h]

theorem mkdirs_nodes_of_not_mem {ι : Type} [DecidableEq ι] (fs : FS ι) (chain : List ι) (i : ι)
    (h : i ∉ chain) : (fs.mkdirs chain).nodes i = fs.nodes i := by
  simp [FS.mkdirs, h]

/-- Making directories makes and changes no regular file. -/
theorem mkdirs_content {ι : Type} [DecidableEq ι] (fs : FS ι) (chain : List ι) (i : ι) :
    (fs.mkdirs chain).content i = fs.content i := by
  unfold FS.content FS.mkdirs
  by_cases h : i ∈ chain ∧ fs.nodes i = none
  · simp [h]
  · simp only [if_neg h]

/-- `os.MkdirAll` makes and changes no regular file, whether it fails or not. -/
theorem osMkdirAll_content {ε ι : Type} [DecidableEq ι] (env : RotateEnv ε ι) (fs : FS ι)
    (dir : Str) (i : ι) : (osMkdirAll env fs dir).1.content i = fs.content i := by
  unfold osMkdirAll
  cases env.mkdirAllErr with
  | some e => exact mkdirs_content _ _ _
  | none =>
    simp only
    split_ifs
    · rfl
    · exact mkdirs_content _ _ _

/-- A place where something is keeps it through `os.MkdirAll`. -/
theorem osMkdirAll_nodes_of_some {ε ι : Type} [DecidableEq ι] (env : RotateEnv ε ι) (fs : FS ι)
    (dir : Str) (i : ι) (n : Node) (h : fs.nodes i = some n) :
    (osMkdirAll env fs dir).1.nodes i = some n := by
  unfold osMkdirAll
  cases env.mkdirAllErr with
  | some e => exact mkdirs_nodes_of_some _ _ _ _ h
  | none =>
    simp only
    split_ifs
    · exact h
    · exact mkdirs_nodes_of_some _ _ _ _ h

/-- A place outside the chain of the directory is as it was after `os.MkdirAll`. -/
theorem osMkdirAll_nodes_of_not_mem {ε ι : Type} [DecidableEq ι] (env : RotateEnv ε ι)
    (fs : FS ι) (dir : Str) (i : ι) (h : i ∉ dirChain env dir) :
    (osMkdirAll env fs dir).1.nodes i = fs.nodes i := by
  unfold osMkdirAll
  cases env.mkdirAllErr with
  | some e =>
    exact mkdirs_nodes_of_not_mem _ _ _ (fun hm => h (List.mem_of_mem_take hm))
  | none =>
    simp only
    split_ifs
    · rfl
    · exact mkdirs_nodes_of_not_mem _ _ _ h

/-- When `os.MkdirAll` succeeds, the whole chain has been made. -/
theorem osMkdirAll_ok {ε ι : Type} [DecidableEq ι] (env : RotateEnv ε ι) (fs : FS ι)
    (dir : Str) (h : (osMkdirAll env fs dir).2 = none) :
    osMkdirAll env fs dir = (fs.mkdirs (dirChain env dir), none) := by
  unfold osMkdirAll at h ⊢
  cases hm : env.mkdirAllErr with
  | some e => rw [hm] at h; cases h
  | none =>
    rw [hm] at h
    simp only at h ⊢
    split_ifs at h ⊢ with hf
    rfl

/-- The call is `os.MkdirAll` on the archive directory, followed, when that
succeeds, by the steps of `rotateTail` on the source and the archive path. -/
theorem RotateAndCompressLog_eq {ε ι : Type} [DecidableEq ι] (env : RotateEnv ε ι) (fs : FS ι)
    (srcPath archiveDir : Str) :
    RotateAndCompressLog env fs srcPath archiveDir =
      match osMkdirAll env fs (rotateDir archiveDir) with
      | (fs1, some err) => (fs1, some err)
      | (fs1, none) => rotateTail env fs1 (rotateSrc srcPath) (rotateDst env archiveDir) := by
  rfl

theorem rotate_mkdir_fails {ε ι : Type} [DecidableEq ι] (env : RotateEnv ε ι) (fs : FS ι)
    (srcPath archiveDir : Str) (e : ε)
    (h1 : (osMkdirAll env fs (rotateDir archiveDir)).2 = some e) :
    RotateAndCompressLog env fs srcPath archiveDir =
      ((osMkdirAll env fs (rotateDir archiveDir)).1, some e) := by
  rw [RotateAndCompressLog_eq]
  rcases hm : osMkdirAll env fs (rotateDir archiveDir) with ⟨fs1, r⟩
  rw [hm] at h1
  simp only at h1
  subst h1
  rfl

theorem rotate_mkdir_ok {ε ι : Type} [DecidableEq ι] (env : RotateEnv ε ι) (fs : FS ι)
    (srcPath archiveDir : Str) (h1 : (osMkdirAll env fs (rotateDir archiveDir)).2 = none) :
    RotateAndCompressLog env fs srcPath archiveDir =
      rotateTail env (osMkdirAll env fs (rotateDir archiveDir)).1 (rotateSrc srcPath)
        (rotateDst env archiveDir) := by
  rw [RotateAndCompressLog_eq]
  rcases hm : osMkdirAll env fs (rotateDir archiveDir) with ⟨fs1, r⟩
  rw [hm] at h1
  simp only at h1
  subst h1
  rfl

theorem tail_stat_fails {ε ι : Type} [DecidableEq ι] (env : RotateEnv ε ι) (fs : FS ι)
    (src dst : Str) (e : ε) (h2 : env.statErr = some e) :
    rotateTail env fs src dst = (fs, some e) := by
  simp [rotateTail, osStat, h2]

theorem tail_absent {ε ι : Type} [DecidableEq ι] (env : RotateEnv ε ι) (fs : FS ι)
    (src dst : Str) (h2 : env.statErr = none) (h3 : fs.nodes (env.resolve src) = none) :
    rotateTail env fs src dst = (fs, none) := by
  simp [rotateTail, osStat, h2, h3]

theorem tail_empty {ε ι : Type} [DecidableEq ι] (env : RotateEnv ε ι) (fs : FS ι)
    (src dst : Str) (h2 : env.statErr = none)
    (h3 : fs.nodes (env.resolve src) = some (Node.file [])) :
    rotateTail env fs src dst = (fs, none) := by
  simp [rotateTail, osStat, h2, h3]

theorem tail_open_fails {ε ι : Type} [DecidableEq ι] (env : RotateEnv ε ι) (fs : FS ι)
    (src dst c : Str) (e : ε) (h2 : env.statErr = none)
    (h3 : fs.nodes (env.resolve src) = some (Node.file c)) (hc : c ≠ [])
    (h4 : env.openErr = some e) :
    rotateTail env fs src dst = (fs, some e) := by
  simp [rotateTail, osStat, osOpen, h2, h3, h4, hc]

/-- A failing `os.Create` leaves the file system as it was. -/
theorem osCreate_fails {ε ι : Type} [DecidableEq ι] (env : RotateEnv ε ι) (fs : FS ι)
    (dst : Str) (e : ε) (h : (osCreate env fs dst).2 = some e) :
    osCreate env fs dst = (fs, some e) := by
  unfold osCreate at h ⊢
  cases hc : env.createErr with
  | some e1 =>
    rw [hc] at h
    simp only at h ⊢
    rw [h]
  | none =>
    rw [hc] at h
    simp only at h ⊢
    rcases hn : fs.nodes (env.resolve dst) with _ | n
    · rw [hn] at h; cases h
    · cases n with
      | file c1 => rw [hn] at h; cases h
      | dir =>
        rw [hn] at h
        simp only at h ⊢
        rw [h]

/-- A successful `os.Create` leaves an empty regular file at the path. -/
theorem osCreate_ok {ε ι : Type} [DecidableEq ι] (env : RotateEnv ε ι) (fs : FS ι)
    (dst : Str) (h : (osCreate env fs dst).2 = none) :
    osCreate env fs dst = (fs.put (env.resolve dst) [], none) ∧ env.createErr = none ∧
      fs.nodes (env.resolve dst) ≠ some Node.dir := by
  unfold osCreate at h ⊢
  cases hc : env.createErr with
  | some e1 => rw [hc] at h; cases h
  | none =>
    rw [hc] at h
    simp only at h ⊢
    rcases hn : fs.nodes (env.resolve dst) with _ | n
    · simp
    · cases n with
      | file c1 => simp
      | dir => rw [hn] at h; cases h

theorem tail_create_fails {ε ι : Type} [DecidableEq ι] (env : RotateEnv ε ι) (fs : FS ι)
    (src dst c : Str) (e : ε) (h2 : env.statErr = none)
    (h3 : fs.nodes (env.resolve src) = some (Node.file c)) (hc : c ≠ [])
    (h4 : env.openErr = none) (h5 : (osCreate env fs dst).2 = some e) :
    rotateTail env fs src dst = (fs, some e) := by
  simp [rotateTail, osStat, osOpen, h2, h3, h4, hc, osCreate_fails env fs dst e h5]

/-- When the archive has been created, the call ends in one of four ways. -/
theorem tail_after_create {ε ι : Type} [DecidableEq ι] (env : RotateEnv ε ι) (fs : FS ι)
    (src dst c : Str) (h2 : env.statErr = none)
    (h3 : fs.nodes (env.resolve src) = some (Node.file c)) (hc : c ≠ [])
    (h4 : env.openErr = none) (h5 : (osCreate env fs dst).2 = none) :
    rotateTail env fs src dst =
      (let r3 := ioCopy env (fs.put (env.resolve dst) []) dst src
       let r4 := gzClose env r3.1 dst
       let r5 := outClose env r4.1 dst
       if r3.2.isSome then (r5.1, r3.2)
       else if r4.2.isSome then (r5.1, r4.2)
       else if r5.2.isSome then (r5.1, r5.2)
       else osTruncate env r5.1 src) := by
  simp [rotateTail, osStat, osOpen, h2, h3, h4, hc, (osCreate_ok env fs dst h5).1]

/-- With the archive created at another place than the source, a failure of the
copy, of the compressor close or of the output close is returned and leaves the
source as it was; otherwise the call ends with the truncation. -/
theorem tail_ends {ε ι : Type} [DecidableEq ι] (env : RotateEnv ε ι) (fs : FS ι)
    (src dst c : Str) (h2 : env.statErr = none)
    (h3 : fs.nodes (env.resolve src) = some (Node.file c)) (hc : c ≠ [])
    (h4 : env.openErr = none) (h5 : (osCreate env fs dst).2 = none)
    (hne : env.resolve dst ≠ env.resolve src) :
    (∀ e, env.copyErr = some e →
      (rotateTail env fs src dst).2 = some e ∧
      (rotateTail env fs src dst).1.nodes (env.resolve src) = some (Node.file c)) ∧
    (∀ e, env.copyErr = none → env.gzCloseErr = some e →
      (rotateTail env fs src dst).2 = some e ∧
      (rotateTail env fs src dst).1.nodes (env.resolve src) = some (Node.file c)) ∧
    (∀ e, env.copyErr = none → env.gzCloseErr = none → env.outCloseErr = some e →
      (rotateTail env fs src dst).2 = some e ∧
      (rotateTail env fs src dst).1.nodes (env.resolve src) = some (Node.file c)) ∧
    (env.copyErr = none → env.gzCloseErr = none → env.outCloseErr = none →
      rotateTail env fs src dst =
        osTruncate env ((fs.put (env.resolve dst) []).put (env.resolve dst) (env.compress c))
          src) := by
  have hsrc : env.resolve src ≠ env.resolve dst := Ne.symm hne
  rw [tail_after_create env fs src dst c h2 h3 hc h4 h5]
  refine ⟨?_, ?_, ?_, ?_⟩
  · intro e hcp
    cases hgz : env.gzCloseErr <;> cases hoc : env.outCloseErr <;>
      simp [ioCopy, gzClose, outClose, hcp, hgz, hoc, FS.put, hsrc, h3]
  · intro e hcp hgz
    cases hoc : env.outCloseErr <;>
      simp [ioCopy, gzClose, outClose, hcp, hgz, hoc, FS.put, hsrc, h3]
  · intro e hcp hgz hoc
    simp [ioCopy, gzClose, outClose, hcp, hgz, hoc, FS.put, hsrc, h3]
  · intro hcp hgz hoc
    simp [ioCopy, gzClose, outClose, hcp, hgz, hoc, FS.put, hsrc, h3]

/-- The copy writes to the archive only. -/
theorem ioCopy_nodes_ne {ε ι : Type} [DecidableEq ι] (env : RotateEnv ε ι) (fs : FS ι)
    (dst src : Str) (j : ι) (h : j ≠ env.resolve dst) :
    (ioCopy env fs dst src).1.nodes j = fs.nodes j := by
  unfold ioCopy
  cases env.copyErr with
  | some e => exact put_nodes_ne _ _ _ _ h
  | none =>
    rcases fs.nodes (env.resolve src) with _ | n
    · exact put_nodes_ne _ _ _ _ h
    · cases n <;> exact put_nodes_ne _ _ _ _ h

/-- The close of the compressor writes to the archive only. -/
theorem gzClose_nodes_ne {ε ι : Type} [DecidableEq ι] (env : RotateEnv ε ι) (fs : FS ι)
    (dst : Str) (j : ι) (h : j ≠ env.resolve dst) :
    (gzClose env fs dst).1.nodes j = fs.nodes j := by
  unfold gzClose
  cases env.gzCloseErr with
  | some e => exact put_nodes_ne _ _ _ _ h
  | none => rfl

/-- The close of the output writes to the archive only. -/
theorem outClose_nodes_ne {ε ι : Type} [DecidableEq ι] (env : RotateEnv ε ι) (fs : FS ι)
    (dst : Str) (j : ι) (h : j ≠ env.resolve dst) :
    (outClose env fs dst).1.nodes j = fs.nodes j := by
  unfold outClose
  cases env.outCloseErr with
  | some e => exact put_nodes_ne _ _ _ _ h
  | none => rfl

/-- The close of the output returns the error of the environment. -/
theorem outClose_err {ε ι : Type} [DecidableEq ι] (env : RotateEnv ε ι) (fs : FS ι)
    (dst : Str) : (outClose env fs dst).2 = env.outCloseErr := by
  unfold outClose
  cases env.outCloseErr <;> rfl

/-- A copy that succeeds has read a regular file. -/
theorem ioCopy_ok {ε ι : Type} [DecidableEq ι] (env : RotateEnv ε ι) (fs : FS ι)
    (dst src : Str) (h : (ioCopy env fs dst src).2 = none) :
    env.copyErr = none ∧ ∃ c, fs.nodes (env.resolve src) = some (Node.file c) := by
  unfold ioCopy at h
  cases hc : env.copyErr with
  | some e => rw [hc] at h; cases h
  | none =>
    rw [hc] at h
    rcases hn : fs.nodes (env.resolve src) with _ | n
    · rw [hn] at h; cases h
    · cases n with
      | file c => exact ⟨rfl, c, rfl⟩
      | dir => rw [hn] at h; cases h

/-- The close of the compressor returns the error of the environment. -/
theorem gzClose_err {ε ι : Type} [DecidableEq ι] (env : RotateEnv ε ι) (fs : FS ι)
    (dst : Str) : (gzClose env fs dst).2 = env.gzCloseErr := by
  unfold gzClose
  cases env.gzCloseErr <;> rfl

/-- The truncation of a regular file returns the error of the environment. -/
theorem osTruncate_file {ε ι : Type} [DecidableEq ι] (env : RotateEnv ε ι) (fs : FS ι)
    (src c : Str) (h : fs.nodes (env.resolve src) = some (Node.file c)) :
    (osTruncate env fs src).2 = env.truncateErr := by
  unfold osTruncate
  rw [h]
  cases env.truncateErr <;> rfl

theorem content_congr {ι : Type} (fs1 fs2 : FS ι) (i : ι) (h : fs1.nodes i = fs2.nodes i) :
    fs1.content i = fs2.content i := by
  unfold FS.content
  rw [h]

/-- The steps after `os.MkdirAll`, one by one: the step that fails gives the
value returned, and up to the truncation the only place written to is the one of
the archive. -/
theorem tail_steps {ε ι : Type} [DecidableEq ι] (env : RotateEnv ε ι) (fs : FS ι)
    (src dst : Str) :
    (osStat env fs src = StatResult.notExist → rotateTail env fs src dst = (fs, none)) ∧
    (∀ e, osStat env fs src = StatResult.failed e → rotateTail env fs src dst = (fs, some e)) ∧
    (osStat env fs src = StatResult.size 0 → rotateTail env fs src dst = (fs, none)) ∧
    (∀ n, osStat env fs src = StatResult.size n → n ≠ 0 →
      (∀ e, osOpen env fs src = some e → rotateTail env fs src dst = (fs, some e)) ∧
      (osOpen env fs src = none →
        (∀ e, (osCreate env fs dst).2 = some e → rotateTail env fs src dst = (fs, some e)) ∧
        ((osCreate env fs dst).2 = none →
          (∀ e, (ioCopy env (osCreate env fs dst).1 dst src).2 = some e →
            (rotateTail env fs src dst).2 = some e ∧
            ∀ j, j ≠ env.resolve dst → (rotateTail env fs src dst).1.nodes j = fs.nodes j) ∧
          ((ioCopy env (osCreate env fs dst).1 dst src).2 = none →
            (∀ e, env.gzCloseErr = some e →
              (rotateTail env fs src dst).2 = some e ∧
              ∀ j, j ≠ env.resolve dst → (rotateTail env fs src dst).1.nodes j = fs.nodes j) ∧
            (env.gzCloseErr = none →
              (∀ e, env.outCloseErr = some e →
                (rotateTail env fs src dst).2 = some e ∧
                ∀ j, j ≠ env.resolve dst →
                  (rotateTail env fs src dst).1.nodes j = fs.nodes j) ∧
              (env.outCloseErr = none →
                rotateTail env fs src dst =
                  osTruncate env (ioCopy env (osCreate env fs dst).1 dst src).1 src)))))) := by
  refine ⟨?_, ?_, ?_, ?_⟩
  · intro h
    simp only [rotateTail, h]
  · intro e h
    simp only [rotateTail, h]
  · intro h
    simp only [rotateTail, h, if_true]
  · intro n h hn
    refine ⟨?_, ?_⟩
    · intro e ho
      simp only [rotateTail, h, if_neg hn, ho]
    · intro ho
      refine ⟨?_, ?_⟩
      · intro e hcr
        simp only [rotateTail, h, if_neg hn, ho, osCreate_fails env fs dst e hcr]
      · intro hcr
        have hcr1 := (osCreate_ok env fs dst hcr).1
        have hput : ∀ j, j ≠ env.resolve dst →
            (outClose env (gzClose env (ioCopy env (osCreate env fs dst).1 dst src).1 dst).1
              dst).1.nodes j = fs.nodes j := by
          intro j hj
          rw [outClose_nodes_ne _ _ _ _ hj, gzClose_nodes_ne _ _ _ _ hj,
            ioCopy_nodes_ne _ _ _ _ _ hj, hcr1]
          exact put_nodes_ne _ _ _ _ hj
        have hrun : rotateTail env fs src dst =
            (let r3 := ioCopy env (osCreate env fs dst).1 dst src
             let r4 := gzClose env r3.1 dst
             let r5 := outClose env r4.1 dst
             if r3.2.isSome then (r5.1, r3.2)
             else if r4.2.isSome then (r5.1, r4.2)
             else if r5.2.isSome then (r5.1, r5.2)
             else osTruncate env r5.1 src) := by
          simp only [rotateTail, h, if_neg hn, ho, hcr1]
        rw [hrun]
        refine ⟨?_, ?_⟩
        · intro e hcp
          simp only [hcp, Option.isSome_some, if_true]
          exact ⟨trivial, hput⟩
        · intro hcp
          refine ⟨?_, ?_⟩
          · intro e hgz
            simp only [hcp, Option.isSome_none, gzClose_err, hgz, Option.isSome_some, if_true]
            exact ⟨by simp, hput⟩
          · intro hgz
            refine ⟨?_, ?_⟩
            · intro e hoc
              simp only [hcp, Option.isSome_none, gzClose_err, outClose_err, hgz, hoc,
                Option.isSome_some, if_true]
              exact ⟨by simp, hput⟩
            · intro hoc
              simp only [hcp, Option.isSome_none, gzClose_err, outClose_err, hgz, hoc]
              simp [gzClose, outClose, hgz, hoc]

/-- C17 (as the code behaves): provided the archive path does not lead to the
source file itself, a failure of the directory creation, of the stat call, of
opening the source, of creating the archive, of the copy, of the compressor
close or of the output close is returned with the contents of the source file
unchanged; and whenever the contents of the source file have changed, each of
these steps has succeeded and the value returned is the one of the truncation. -/
theorem C17_truncate_last {ε ι : Type} [DecidableEq ι] (env : RotateEnv ε ι) (fs : FS ι)
    (srcPath archiveDir : Str)
    (hne : env.resolve (rotateDst env archiveDir) ≠ env.resolve (rotateSrc srcPath)) :
    (∀ e, (osMkdirAll env fs (rotateDir archiveDir)).2 = some e →
      (RotateAndCompressLog env fs srcPath archiveDir).2 = some e ∧
      (RotateAndCompressLog env fs srcPath archiveDir).1.content
        (env.resolve (rotateSrc srcPath)) = fs.content (env.resolve (rotateSrc srcPath))) ∧
    ((osMkdirAll env fs (rotateDir archiveDir)).2 = none →
      (∀ e, osStat env (afterMkdirAll env fs archiveDir) (rotateSrc srcPath) =
          StatResult.failed e →
        (RotateAndCompressLog env fs srcPath archiveDir).2 = some e ∧
        (RotateAndCompressLog env fs srcPath archiveDir).1.content
          (env.resolve (rotateSrc srcPath)) = fs.content (env.resolve (rotateSrc srcPath))) ∧
      (∀ n, osStat env (afterMkdirAll env fs archiveDir) (rotateSrc srcPath) =
          StatResult.size n → n ≠ 0 →
        (∀ e, osOpen env (afterMkdirAll env fs archiveDir) (rotateSrc srcPath) = some e →
          (RotateAndCompressLog env fs srcPath archiveDir).2 = some e ∧
          (RotateAndCompressLog env fs srcPath archiveDir).1.content
            (env.resolve (rotateSrc srcPath)) = fs.content (env.resolve (rotateSrc srcPath))) ∧
        (osOpen env (afterMkdirAll env fs archiveDir) (rotateSrc srcPath) = none →
          (∀ e, (osCreate env (afterMkdirAll env fs archiveDir)
              (rotateDst env archiveDir)).2 = some e →
            (RotateAndCompressLog env fs srcPath archiveDir).2 = some e ∧
            (RotateAndCompressLog env fs srcPath archiveDir).1.content
              (env.resolve (rotateSrc srcPath)) =
                fs.content (env.resolve (rotateSrc srcPath))) ∧
          ((osCreate env (afterMkdirAll env fs archiveDir)
              (rotateDst env archiveDir)).2 = none →
            (∀ e, (ioCopy env (afterCreate env fs archiveDir) (rotateDst env archiveDir)
                (rotateSrc srcPath)).2 = some e →
              (RotateAndCompressLog env fs srcPath archiveDir).2 = some e ∧
              (RotateAndCompressLog env fs srcPath archiveDir).1.content
                (env.resolve (rotateSrc srcPath)) =
                  fs.content (env.resolve (rotateSrc srcPath))) ∧
            ((ioCopy env (afterCreate env fs archiveDir) (rotateDst env archiveDir)
                (rotateSrc srcPath)).2 = none →
              (∀ e, env.gzCloseErr = some e →
                (RotateAndCompressLog env fs srcPath archiveDir).2 = some e ∧
                (RotateAndCompressLog env fs srcPath archiveDir).1.content
                  (env.resolve (rotateSrc srcPath)) =
                    fs.content (env.resolve (rotateSrc srcPath))) ∧
              (env.gzCloseErr = none → ∀ e, env.outCloseErr = some e →
                (RotateAndCompressLog env fs srcPath archiveDir).2 = some e ∧
                (RotateAndCompressLog env fs srcPath archiveDir).1.content
                  (env.resolve (rotateSrc srcPath)) =
                    fs.content (env.resolve (rotateSrc srcPath)))))))) ∧
    ((RotateAndCompressLog env fs srcPath archiveDir).1.content
        (env.resolve (rotateSrc srcPath)) ≠ fs.content (env.resolve (rotateSrc srcPath)) →
      (osMkdirAll env fs (rotateDir archiveDir)).2 = none ∧
      (∃ n, osStat env (afterMkdirAll env fs archiveDir) (rotateSrc srcPath) =
        StatResult.size n ∧ n ≠ 0) ∧
      osOpen env (afterMkdirAll env fs archiveDir) (rotateSrc srcPath) = none ∧
      (osCreate env (afterMkdirAll env fs archiveDir) (rotateDst env archiveDir)).2 = none ∧
      (ioCopy env (afterCreate env fs archiveDir) (rotateDst env archiveDir)
        (rotateSrc srcPath)).2 = none ∧
      env.gzCloseErr = none ∧ env.outCloseErr = none ∧
      (RotateAndCompressLog env fs srcPath archiveDir).2 = env.truncateErr) := by
  have hsrc : env.resolve (rotateSrc srcPath) ≠ env.resolve (rotateDst env archiveDir) :=
    Ne.symm hne
  have h0 : (afterMkdirAll env fs archiveDir).content (env.resolve (rotateSrc srcPath)) =
      fs.content (env.resolve (rotateSrc srcPath)) := osMkdirAll_content env fs _ _
  obtain ⟨s1, s2, s3, s4⟩ := tail_steps env (afterMkdirAll env fs archiveDir)
    (rotateSrc srcPath) (rotateDst env archiveDir)
  have hkeep : ∀ e,
      ((rotateTail env (afterMkdirAll env fs archiveDir) (rotateSrc srcPath)
          (rotateDst env archiveDir)).2 = some e ∧
        ∀ j, j ≠ env.resolve (rotateDst env archiveDir) →
          (rotateTail env (afterMkdirAll env fs archiveDir) (rotateSrc srcPath)
            (rotateDst env archiveDir)).1.nodes j = (afterMkdirAll env fs archiveDir).nodes j) →
      (rotateTail env (afterMkdirAll env fs archiveDir) (rotateSrc srcPath)
          (rotateDst env archiveDir)).2 = some e ∧
        (rotateTail env (afterMkdirAll env fs archiveDir) (rotateSrc srcPath)
          (rotateDst env archiveDir)).1.content (env.resolve (rotateSrc srcPath)) =
            fs.content (env.resolve (rotateSrc srcPath)) := by
    intro e h
    exact ⟨h.1, (content_congr _ _ _ (h.2 _ hsrc)).trans h0⟩
  refine ⟨?_, ?_, ?_⟩
  · intro e h1
    rw [rotate_mkdir_fails env fs srcPath archiveDir e h1]
    exact ⟨rfl, h0⟩
  · intro h1
    have hrun : RotateAndCompressLog env fs srcPath archiveDir =
        rotateTail env (afterMkdirAll env fs archiveDir) (rotateSrc srcPath)
          (rotateDst env archiveDir) := rotate_mkdir_ok env fs srcPath archiveDir h1
    rw [hrun]
    refine ⟨?_, ?_⟩
    · intro e h2
      rw [s2 e h2]
      exact ⟨rfl, h0⟩
    · intro n h2 hn
      obtain ⟨o1, o2⟩ := s4 n h2 hn
      refine ⟨?_, ?_⟩
      · intro e h4
        rw [o1 e h4]
        exact ⟨rfl, h0⟩
      · intro h4
        obtain ⟨c1, c2⟩ := o2 h4
        refine ⟨?_, ?_⟩
        · intro e h5
          rw [c1 e h5]
          exact ⟨rfl, h0⟩
        · intro h5
          obtain ⟨p1, p2⟩ := c2 h5
          refine ⟨?_, ?_⟩
          · intro e h6
            exact hkeep e (p1 e h6)
          · intro h6
            obtain ⟨g1, g2⟩ := p2 h6
            refine ⟨?_, ?_⟩
            · intro e h7
              exact hkeep e (g1 e h7)
            · intro h7 e h8
              exact hkeep e ((g2 h7).1 e h8)
  · intro hchg
    rcases h1 : (osMkdirAll env fs (rotateDir archiveDir)).2 with _ | e1
    swap
    · rw [rotate_mkdir_fails env fs srcPath archiveDir e1 h1] at hchg
      exact absurd h0 hchg
    have hrun : RotateAndCompressLog env fs srcPath archiveDir =
        rotateTail env (afterMkdirAll env fs archiveDir) (rotateSrc srcPath)
          (rotateDst env archiveDir) := rotate_mkdir_ok env fs srcPath archiveDir h1
    rw [hrun] at hchg ⊢
    rcases h2 : osStat env (afterMkdirAll env fs archiveDir) (rotateSrc srcPath) with _ | e2 | n
    · rw [s1 h2] at hchg
      exact absurd h0 hchg
    · rw [s2 e2 h2] at hchg
      exact absurd h0 hchg
    by_cases hn : n = 0
    · subst hn
      rw [s3 h2] at hchg
      exact absurd h0 hchg
    obtain ⟨o1, o2⟩ := s4 n h2 hn
    rcases h4 : osOpen env (afterMkdirAll env fs archiveDir) (rotateSrc srcPath) with _ | e4
    swap
    · rw [o1 e4 h4] at hchg
      exact absurd h0 hchg
    obtain ⟨c1, c2⟩ := o2 h4
    rcases h5 : (osCreate env (afterMkdirAll env fs archiveDir)
        (rotateDst env archiveDir)).2 with _ | e5
    swap
    · rw [c1 e5 h5] at hchg
      exact absurd h0 hchg
    obtain ⟨p1, p2⟩ := c2 h5
    rcases h6 : (ioCopy env (afterCreate env fs archiveDir) (rotateDst env archiveDir)
        (rotateSrc srcPath)).2 with _ | e6
    swap
    · exact absurd (hkeep e6 (p1 e6 h6)).2 hchg
    obtain ⟨g1, g2⟩ := p2 h6
    rcases h7 : env.gzCloseErr with _ | e7
    swap
    · exact absurd (hkeep e7 (g1 e7 h7)).2 hchg
    obtain ⟨q1, q2⟩ := g2 h7
    rcases h8 : env.outCloseErr with _ | e8
    swap
    · exact absurd (hkeep e8 (q1 e8 h8)).2 hchg
    refine ⟨rfl, ⟨n, rfl, hn⟩, rfl, rfl, rfl, rfl, rfl, ?_⟩
    rw [q2 h8]
    obtain ⟨_, c, hc⟩ := ioCopy_ok env _ _ _ h6
    apply osTruncate_file env _ _ c
    rw [ioCopy_nodes_ne _ _ _ _ _ hsrc]
    exact hc

/-- C17 on `server.log` when the copy fails: the error of the copy is returned
and `server.log` still holds `hello`. -/
theorem C17_truncate_last_witness :
    (RotateAndCompressLog { calmEnv with copyErr := some "io".toList } oneLogFS [] []).2 =
      some "io".toList ∧
    (RotateAndCompressLog { calmEnv with copyErr := some "io".toList } oneLogFS [] []).1.content
      "server.log".toList = some "hello".toList :=
  ((((C17_truncate_last { calmEnv with copyErr := some "io".toList } oneLogFS [] []
    (by decide)).2.1 (by decide)).2 5 rfl (by decide)).2 rfl).2 rfl |>.1 "io".toList rfl

/-- C17 fails as stated when the source has the very path of the archive: with
the source `logs/server_2026-11-02_00-00-00.log.gz`, rotated at that second into
`logs`, creating the archive empties the source; when the compressor close then
fails, its error is returned although the source has lost its contents. -/
theorem C17_counterexample :
    rotateDst { calmEnv with gzCloseErr := some "io".toList, junk := [] } "logs".toList =
      rotateSrc "logs/server_2026-11-02_00-00-00.log.gz".toList ∧
    aliasFS.content "logs/server_2026-11-02_00-00-00.log.gz".toList = some "hello".toList ∧
    (RotateAndCompressLog { calmEnv with gzCloseErr := some "io".toList, junk := [] } aliasFS
      "logs/server_2026-11-02_00-00-00.log.gz".toList "logs".toList).2 = some "io".toList ∧
    (RotateAndCompressLog { calmEnv with gzCloseErr := some "io".toList, junk := [] } aliasFS
      "logs/server_2026-11-02_00-00-00.log.gz".toList "logs".toList).1.content
      "logs/server_2026-11-02_00-00-00.log.gz".toList = some [] := by
  decide

/-- The same loss under other spellings of the paths: `./logs//server_...` in
`logs/` and `logs/server_...` in `logs` lead to one file. -/
theorem rotate_other_spelling :
    rotateDst { calmEnv with gzCloseErr := some "io".toList, junk := [] } "logs/".toList ≠
      rotateSrc "./logs//server_2026-11-02_00-00-00.log.gz".toList ∧
    (RotateAndCompressLog { calmEnv with gzCloseErr := some "io".toList, junk := [] } aliasFS
      "./logs//server_2026-11-02_00-00-00.log.gz".toList "logs/".toList).2 = some "io".toList ∧
    (RotateAndCompressLog { calmEnv with gzCloseErr := some "io".toList, junk := [] } aliasFS
      "./logs//server_2026-11-02_00-00-00.log.gz".toList "logs/".toList).1.content
      "logs/server_2026-11-02_00-00-00.log.gz".toList = some [] := by
  decide

/-- The layout of the archive names, read element by element. -/
theorem Format_layout (t : Time) :
    t.Format "2006-01-02_15-04-05".toList =
      appendInt t.year 4 ++ '-' :: appendInt t.month 2 ++ '-' :: appendInt t.day 2 ++
        '_' :: appendInt t.hour 2 ++ '-' :: appendInt t.minute 2 ++ '-' :: appendInt t.second 2 := by
  simp [Time.Format]

theorem toDigitsCore_small (fuel n : Nat) (ds : List Char) (h : n < 10) :
    Nat.toDigitsCore 10 (fuel + 1) n ds = Nat.digitChar n :: ds := by
  have h1 : n / 10 = 0 := by omega
  have h2 : n % 10 = n := by omega
  simp [Nat.toDigitsCore, h1, h2]

theorem toDigitsCore_big (fuel n : Nat) (ds : List Char) (h : 10 ≤ n) :
    Nat.toDigitsCore 10 (fuel + 1) n ds =
      Nat.toDigitsCore 10 fuel (n / 10) (Nat.digitChar (n % 10) :: ds) := by
  have h1 : n / 10 ≠ 0 := by omega
  simp [Nat.toDigitsCore, h1]

theorem digitChar_zero : Nat.digitChar 0 = '0' := rfl

theorem appendInt_two (n : Nat) (h : n < 100) : appendInt n 2 = twoDigits n := by
  unfold appendInt twoDigits Nat.toDigits
  by_cases h10 : n < 10
  · rw [toDigitsCore_small n n [] h10]
    have h1 : n / 10 = 0 := by omega
    have h2 : n % 10 = n := by omega
    simp [h1, h2, digitChar_zero]
  · obtain ⟨k, rfl⟩ : ∃ k, n = k + 1 := ⟨n - 1, by omega⟩
    rw [toDigitsCore_big (k + 1) (k + 1) [] (by omega),
      toDigitsCore_small k ((k + 1) / 10) _ (by omega)]
    simp

theorem appendInt_four (n : Nat) (h : n < 10000) : appendInt n 4 = fourDigits n := by
  unfold appendInt fourDigits Nat.toDigits
  by_cases h10 : n < 10
  · rw [toDigitsCore_small n n [] h10]
    have h1 : n / 1000 = 0 := by omega
    have h2 : n / 100 % 10 = 0 := by omega
    have h3 : n / 10 % 10 = 0 := by omega
    have h4 : n % 10 = n := by omega
    simp [h1, h2, h3, h4, List.replicate, digitChar_zero]
  by_cases h100 : n < 100
  · obtain ⟨k, rfl⟩ : ∃ k, n = k + 1 := ⟨n - 1, by omega⟩
    rw [toDigitsCore_big (k + 1) (k + 1) [] (by omega),
      toDigitsCore_small k ((k + 1) / 10) _ (by omega)]
    have h1 : (k + 1) / 1000 = 0 := by omega
    have h2 : (k + 1) / 100 % 10 = 0 := by omega
    have h3 : (k + 1) / 10 % 10 = (k + 1) / 10 := by omega
    simp [h1, h2, h3, List.replicate, digitChar_zero]
  by_cases h1000 : n < 1000
  · obtain ⟨k, rfl⟩ : ∃ k, n = k + 2 := ⟨n - 2, by omega⟩
    rw [toDigitsCore_big (k + 2) (k + 2) [] (by omega),
      toDigitsCore_big (k + 1) ((k + 2) / 10) _ (by omega),
      toDigitsCore_small k ((k + 2) / 10 / 10) _ (by omega)]
    have h1 : (k + 2) / 1000 = 0 := by omega
    have h2 : (k + 2) / 100 % 10 = (k + 2) / 10 / 10 := by omega
    have h3 : (k + 2) / 10 % 10 = (k + 2) / 10 % 10 := rfl
    simp [h1, h2, List.replicate, digitChar_zero]
  · obtain ⟨k, rfl⟩ : ∃ k, n = k + 3 := ⟨n - 3, by omega⟩
    rw [toDigitsCore_big (k + 3) (k + 3) [] (by omega),
      toDigitsCore_big (k + 2) ((k + 3) / 10) _ (by omega),
      toDigitsCore_big (k + 1) ((k + 3) / 10 / 10) _ (by omega),
      toDigitsCore_small k ((k + 3) / 10 / 10 / 10) _ (by omega)]
    have h1 : (k + 3) / 1000 = (k + 3) / 10 / 10 / 10 := by omega
    have h2 : (k + 3) / 100 % 10 = (k + 3) / 10 / 10 % 10 := by omega
    simp [h1, h2]

/-- For a date of the calendar up to the year 9999 the name of the archive
carries the time as `YYYY-MM-DD_HH-MM-SS`. -/
theorem Format_stamp (t : Time) (hy : t.year < 10000) (hmo : t.month < 100) (hd : t.day < 100)
    (hh : t.hour < 100) (hmi : t.minute < 100) (hs : t.second < 100) :
    t.Format "2006-01-02_15-04-05".toList = stampOf t := by
  rw [Format_layout, appendInt_four _ hy, appendInt_two _ hmo, appendInt_two _ hd,
    appendInt_two _ hh, appendInt_two _ hmi, appendInt_two _ hs]
  rfl

/-- The places after a rotation in which no step fails, the archive path leading
to another place than the source and to no directory. -/
theorem rotate_success {ε ι : Type} [DecidableEq ι] (env : RotateEnv ε ι) (fs : FS ι)
    (srcPath archiveDir c : Str)
    (h1 : (osMkdirAll env fs (rotateDir archiveDir)).2 = none) (h2 : env.statErr = none)
    (h3 : fs.nodes (env.resolve (rotateSrc srcPath)) = some (Node.file c)) (hc : c ≠ [])
    (h4 : env.openErr = none)
    (h5 : (osCreate env (osMkdirAll env fs (rotateDir archiveDir)).1
      (rotateDst env archiveDir)).2 = none)
    (h6 : env.copyErr = none) (h7 : env.gzCloseErr = none) (h8 : env.outCloseErr = none)
    (h9 : env.truncateErr = none)
    (hne : env.resolve (rotateDst env archiveDir) ≠ env.resolve (rotateSrc srcPath)) :
    (RotateAndCompressLog env fs srcPath archiveDir).2 = none ∧
    ∀ i, (RotateAndCompressLog env fs srcPath archiveDir).1.nodes i =
      if i = env.resolve (rotateSrc srcPath) then some (Node.file [])
      else if i = env.resolve (rotateDst env archiveDir) then some (Node.file (env.compress c))
      else (fs.mkdirs (dirChain env (rotateDir archiveDir))).nodes i := by
  have h3a := osMkdirAll_nodes_of_some env fs (rotateDir archiveDir) _ _ h3
  rw [rotate_mkdir_ok env fs srcPath archiveDir h1,
    (tail_ends env _ _ _ c h2 h3a hc h4 h5 hne).2.2.2 h6 h7 h8]
  have hfs : (osMkdirAll env fs (rotateDir archiveDir)).1 =
      fs.mkdirs (dirChain env (rotateDir archiveDir)) := by
    rw [osMkdirAll_ok env fs _ h1]
  rw [hfs] at h3a ⊢
  unfold osTruncate
  rw [put_nodes_ne _ _ _ _ (Ne.symm hne), put_nodes_ne _ _ _ _ (Ne.symm hne), h3a]
  simp only [h9]
  refine ⟨trivial, ?_⟩
  intro i
  simp only [FS.put]
  split_ifs <;> rfl

/-- C18 (as the code behaves): given a source that is a non-empty regular file,
no failing step and nothing yet at the archive path, the call returns no error,
the source exists with zero length, the archive `server_<time>.log.gz` in the
archive directory, the time written `YYYY-MM-DD_HH-MM-SS`, holds a gzip stream
that decompresses to the former contents of the source, it is the only new file,
and no other file changes: every other place is as `os.MkdirAll` left it. -/
theorem C18_rotation_success {ε ι : Type} [DecidableEq ι] (env : RotateEnv ε ι) (fs : FS ι)
    (srcPath archiveDir c : Str) (gunzip : Str → Option Str)
    (hgz : ∀ x, gunzip (env.compress x) = some x)
    (h1 : (osMkdirAll env fs (rotateDir archiveDir)).2 = none) (h2 : env.statErr = none)
    (h4 : env.openErr = none) (h5 : env.createErr = none) (h6 : env.copyErr = none)
    (h7 : env.gzCloseErr = none) (h8 : env.outCloseErr = none) (h9 : env.truncateErr = none)
    (h3 : fs.nodes (env.resolve (rotateSrc srcPath)) = some (Node.file c)) (hc : c ≠ [])
    (hnew : fs.nodes (env.resolve (rotateDst env archiveDir)) = none)
    (hout : env.resolve (rotateDst env archiveDir) ∉ dirChain env (rotateDir archiveDir)) :
    (RotateAndCompressLog env fs srcPath archiveDir).2 = none ∧
    (RotateAndCompressLog env fs srcPath archiveDir).1.nodes (env.resolve (rotateSrc srcPath)) =
      some (Node.file []) ∧
    (∃ a, (RotateAndCompressLog env fs srcPath archiveDir).1.nodes
        (env.resolve (rotateDst env archiveDir)) = some (Node.file a) ∧ gunzip a = some c) ∧
    rotateDst env archiveDir =
      env.join (rotateDir archiveDir)
        ("server_".toList ++ env.now.Format "2006-01-02_15-04-05".toList ++ ".log.gz".toList) ∧
    (env.now.calendar →
      env.now.Format "2006-01-02_15-04-05".toList = stampOf env.now ∧
      (stampOf env.now).length = 19) ∧
    (∀ i, (fs.content i = none ∧
        (RotateAndCompressLog env fs srcPath archiveDir).1.content i ≠ none) ↔
      i = env.resolve (rotateDst env archiveDir)) ∧
    (∀ i, i ≠ env.resolve (rotateSrc srcPath) → i ≠ env.resolve (rotateDst env archiveDir) →
      (RotateAndCompressLog env fs srcPath archiveDir).1.content i = fs.content i ∧
      (RotateAndCompressLog env fs srcPath archiveDir).1.nodes i =
        (osMkdirAll env fs (rotateDir archiveDir)).1.nodes i) := by
  have hne : env.resolve (rotateDst env archiveDir) ≠ env.resolve (rotateSrc srcPath) := by
    intro h
    rw [h, h3] at hnew
    cases hnew
  have hnew1 : (osMkdirAll env fs (rotateDir archiveDir)).1.nodes
      (env.resolve (rotateDst env archiveDir)) = none := by
    rw [osMkdirAll_nodes_of_not_mem env fs _ _ hout]
    exact hnew
  have h5a : (osCreate env (osMkdirAll env fs (rotateDir archiveDir)).1
      (rotateDst env archiveDir)).2 = none := by
    simp [osCreate, h5, hnew1]
  obtain ⟨herr, hnodes⟩ :=
    rotate_success env fs srcPath archiveDir c h1 h2 h3 hc h4 h5a h6 h7 h8 h9 hne
  have hfs : (osMkdirAll env fs (rotateDir archiveDir)).1 =
      fs.mkdirs (dirChain env (rotateDir archiveDir)) := by
    rw [osMkdirAll_ok env fs _ h1]
  have hcontent : ∀ i, (RotateAndCompressLog env fs srcPath archiveDir).1.content i =
      if i = env.resolve (rotateSrc srcPath) then some []
      else if i = env.resolve (rotateDst env archiveDir) then some (env.compress c)
      else fs.content i := by
    intro i
    by_cases hs : i = env.resolve (rotateSrc srcPath)
    · rw [if_pos hs, content_eq_some, hnodes, if_pos hs]
    · by_cases hd : i = env.resolve (rotateDst env archiveDir)
      · rw [if_neg hs, if_pos hd, content_eq_some, hnodes, if_neg hs, if_pos hd]
      · rw [if_neg hs, if_neg hd, ← mkdirs_content fs (dirChain env (rotateDir archiveDir)) i]
        unfold FS.content
        rw [hnodes, if_neg hs, if_neg hd]
  refine ⟨herr, ?_, ?_, rfl, ?_, ?_, ?_⟩
  · rw [hnodes, if_pos rfl]
  · refine ⟨env.compress c, ?_, hgz c⟩
    rw [hnodes, if_neg hne, if_pos rfl]
  · intro hcal
    obtain ⟨hy, _, hmo, _, hd, hh, hmi, hs⟩ := hcal
    refine ⟨Format_stamp _ (by omega) (by omega) (by omega) (by omega) (by omega) (by omega), ?_⟩
    simp [stampOf, fourDigits, twoDigits]
  · intro i
    rw [hcontent]
    constructor
    · rintro ⟨hq, hafter⟩
      by_cases hqs : i = env.resolve (rotateSrc srcPath)
      · rw [hqs, (content_eq_some _ _ _).2 h3] at hq
        cases hq
      · by_cases hqd : i = env.resolve (rotateDst env archiveDir)
        · exact hqd
        · rw [if_neg hqs, if_neg hqd] at hafter
          exact absurd hq hafter
    · intro hq
      rw [hq, if_neg hne, if_pos rfl]
      refine ⟨?_, by simp⟩
      unfold FS.content
      rw [hnew]
  · intro i hqs hqd
    refine ⟨?_, ?_⟩
    · rw [hcontent, if_neg hqs, if_neg hqd]
    · rw [hnodes, if_neg hqs, if_neg hqd, hfs]

/-- C18 on a file system holding only `server.log` with the text `hello`. -/
theorem C18_rotation_success_witness :
    (RotateAndCompressLog calmEnv oneLogFS [] []).2 = none ∧
    (RotateAndCompressLog calmEnv oneLogFS [] []).1.nodes "server.log".toList =
      some (Node.file []) ∧
    (∃ a, (RotateAndCompressLog calmEnv oneLogFS [] []).1.nodes
        "logs/server_2026-11-02_00-00-00.log.gz".toList = some (Node.file a) ∧
      calmGunzip a = some "hello".toList) ∧
    calmEnv.now.Format "2006-01-02_15-04-05".toList = "2026-11-02_00-00-00".toList :=
  have h := C18_rotation_success calmEnv oneLogFS [] [] "hello".toList calmGunzip
    (fun x => by simp [calmEnv, calmGunzip]) (by decide) rfl rfl rfl rfl rfl rfl rfl
    (by decide) (by decide) (by decide) (by decide)
  ⟨h.1, h.2.1, h.2.2.1,
    (h.2.2.2.2.1 ⟨by decide, by decide, by decide, by decide, by decide, by decide, by decide,
      by decide⟩).1⟩

/-- C18 fails as stated when an archive of the same second exists: the rotation
of `server.log` succeeds, but no new file appears; the archive that was there is
overwritten. -/
theorem C18_counterexample :
    (RotateAndCompressLog calmEnv sameSecondFS [] []).2 = none ∧
    sameSecondFS.nodes "server.log".toList = some (Node.file "hello".toList) ∧
    sameSecondFS.nodes "logs/server_2026-11-02_00-00-00.log.gz".toList =
      some (Node.file "gz:old".toList) ∧
    (RotateAndCompressLog calmEnv sameSecondFS [] []).1.nodes
      "logs/server_2026-11-02_00-00-00.log.gz".toList = some (Node.file "gz:hello".toList) ∧
    ¬ ∃ q, sameSecondFS.content q = none ∧
      (RotateAndCompressLog calmEnv sameSecondFS [] []).1.content q ≠ none := by
  refine ⟨by decide, by decide, by decide, by decide, ?_⟩
  rintro ⟨q, hq, hafter⟩
  have hnodes := (rotate_success calmEnv sameSecondFS [] [] "hello".toList (by decide) rfl
    (by decide) (by decide) rfl (by decide) rfl rfl rfl rfl (by decide)).2 q
  have hs : calmEnv.resolve (rotateSrc []) = "server.log".toList := by decide
  have hd : calmEnv.resolve (rotateDst calmEnv []) =
      "logs/server_2026-11-02_00-00-00.log.gz".toList := by decide
  rw [hs, hd] at hnodes
  by_cases h1 : q = "server.log".toList
  · rw [h1] at hq
    revert hq
    decide
  · by_cases h2 : q = "logs/server_2026-11-02_00-00-00.log.gz".toList
    · rw [h2] at hq
      revert hq
      decide
    · rw [if_neg h1, if_neg h2] at hnodes
      apply hafter
      rw [← hq, ← mkdirs_content sameSecondFS (dirChain calmEnv (rotateDir [])) q]
      unfold FS.content
      rw [hnodes]

/-- C19 (as the code behaves): when the source path leads to nothing, and is
not the archive directory or a directory above it, or when the source is a
regular file of zero length, the file system is left as `os.MkdirAll` left it:
no regular file is made or changed, whatever fails, and the source is as it
was; and when neither the creation of the archive directory nor the stat call
fails, no error is returned.  The archive directory is made before the source
is looked at. -/
theorem C19_rotation_noop {ε ι : Type} [DecidableEq ι] (env : RotateEnv ε ι) (fs : FS ι)
    (srcPath archiveDir : Str)
    (hnothing : (fs.nodes (env.resolve (rotateSrc srcPath)) = none ∧
        env.resolve (rotateSrc srcPath) ∉ dirChain env (rotateDir archiveDir)) ∨
      fs.nodes (env.resolve (rotateSrc srcPath)) = some (Node.file [])) :
    (RotateAndCompressLog env fs srcPath archiveDir).1 =
      (osMkdirAll env fs (rotateDir archiveDir)).1 ∧
    (∀ i, (RotateAndCompressLog env fs srcPath archiveDir).1.content i = fs.content i) ∧
    (RotateAndCompressLog env fs srcPath archiveDir).1.nodes (env.resolve (rotateSrc srcPath)) =
      fs.nodes (env.resolve (rotateSrc srcPath)) ∧
    ((osMkdirAll env fs (rotateDir archiveDir)).2 = none → env.statErr = none →
      (RotateAndCompressLog env fs srcPath archiveDir).2 = none) := by
  have hsame : (osMkdirAll env fs (rotateDir archiveDir)).1.nodes
      (env.resolve (rotateSrc srcPath)) = fs.nodes (env.resolve (rotateSrc srcPath)) := by
    rcases hnothing with ⟨_, h⟩ | h
    · exact osMkdirAll_nodes_of_not_mem env fs _ _ h
    · rw [h]
      exact osMkdirAll_nodes_of_some env fs _ _ _ h
  have key : (RotateAndCompressLog env fs srcPath archiveDir).1 =
        (osMkdirAll env fs (rotateDir archiveDir)).1 ∧
      ((osMkdirAll env fs (rotateDir archiveDir)).2 = none → env.statErr = none →
        (RotateAndCompressLog env fs srcPath archiveDir).2 = none) := by
    rcases h1 : (osMkdirAll env fs (rotateDir archiveDir)).2 with _ | e1
    swap
    · rw [rotate_mkdir_fails env fs srcPath archiveDir e1 h1]
      exact ⟨rfl, fun h => by cases h⟩
    rw [rotate_mkdir_ok env fs srcPath archiveDir h1]
    rcases h2 : env.statErr with _ | e2
    swap
    · rw [tail_stat_fails env _ _ _ e2 h2]
      exact ⟨rfl, fun _ h => by cases h⟩
    rcases hnothing with ⟨h3, _⟩ | h3
    · rw [tail_absent env _ _ _ h2 (hsame.trans h3)]
      exact ⟨rfl, fun _ _ => rfl⟩
    · rw [tail_empty env _ _ _ h2 (hsame.trans h3)]
      exact ⟨rfl, fun _ _ => rfl⟩
  refine ⟨key.1, ?_, ?_, key.2⟩
  · intro i
    rw [key.1]
    exact osMkdirAll_content env fs _ i
  · rw [key.1]
    exact hsame

/-- C19 on an empty file system: nothing to rotate, no error. -/
theorem C19_rotation_noop_witness :
    (RotateAndCompressLog calmEnv emptyFS [] []).2 = none ∧
    (RotateAndCompressLog calmEnv emptyFS [] []).1.nodes "logs".toList = some Node.dir :=
  ⟨(C19_rotation_noop calmEnv emptyFS [] [] (Or.inl ⟨rfl, by decide⟩)).2.2.2 (by decide) rfl,
    by decide⟩

/-- C19 fails as stated in two ways.  When the archive directory cannot be
made, the call for a source that does not exist returns that error.  And when
the source path is the archive directory itself, which does not exist, the call
makes the directory, takes it for the source, creates an archive and returns the
error of reading a directory. -/
theorem C19_counterexample :
    (emptyFS.nodes (calmEnv.resolve (rotateSrc [])) = none ∧
      (RotateAndCompressLog { calmEnv with mkdirAllErr := some "denied".toList } emptyFS
        [] []).2 = some "denied".toList) ∧
    (emptyFS.nodes (calmEnv.resolve (rotateSrc "logs".toList)) = none ∧
      (RotateAndCompressLog calmEnv emptyFS "logs".toList "logs".toList).2 =
        some "is a directory".toList ∧
      (RotateAndCompressLog calmEnv emptyFS "logs".toList "logs".toList).1.nodes
        "logs/server_2026-11-02_00-00-00.log.gz".toList = some (Node.file "gz:".toList)) := by
  decide

/-- The call on some inputs.  A source path that is one no-break space (the
bytes C2 A0) is trimmed to nothing, so `server.log` is rotated.  With `a/b` for
the archive directory and `a` for the source, nothing existing, the call makes
both directories, takes `a` for the source and returns the error of reading a
directory.  An archive directory below the regular file `server.log` cannot be
made. -/
theorem rotate_examples :
    (RotateAndCompressLog calmEnv oneLogFS [Char.ofNat 0xC2, Char.ofNat 0xA0] []).1.nodes
      "server.log".toList = some (Node.file []) ∧
    (RotateAndCompressLog calmEnv oneLogFS [Char.ofNat 0xC2, Char.ofNat 0xA0] []).1.nodes
      "logs/server_2026-11-02_00-00-00.log.gz".toList = some (Node.file "gz:hello".toList) ∧
    (RotateAndCompressLog calmEnv emptyFS "a".toList "a/b".toList).2 =
      some "is a directory".toList ∧
    (RotateAndCompressLog calmEnv oneLogFS [] "server.log/x".toList).2 =
      some "not a directory".toList := by
  decide

/-! ## Parser: the scalars -/

theorem rdropWhile_split {α : Type} (p : α → Bool) (l : List α) :
    ∃ b, l = l.rdropWhile p ++ b ∧ ∀ x ∈ b, p x = true := by
  induction l using List.reverseRecOn with
  | nil => exact ⟨[], by simp, by simp⟩
  | append_singleton l a ih =>
    by_cases ha : p a = true
    · obtain ⟨b, hb1, hb2⟩ := ih
      refine ⟨b ++ [a], ?_, ?_⟩
      · rw [List.rdropWhile_concat_pos _ _ _ ha, ← List.append_assoc, ← hb1]
      · intro x hx
        rcases List.mem_append.1 hx with h | h
        · exact hb2 x h
        · rw [List.mem_singleton.1 h]; exact ha
    · exact ⟨[], by rw [List.rdropWhile_concat_neg _ _ _ ha, List.append_nil], by simp⟩

/-- `Trim` removes a run of cutset bytes at either end and stops at the first
byte, from either end, that is not in the cutset. -/
theorem Trim_spec (s cutset : Str) :
    ∃ a b, (∀ c ∈ a, c ∈ cutset) ∧ (∀ c ∈ b, c ∈ cutset) ∧ s = a ++ Trim s cutset ++ b ∧
      (∀ c, (Trim s cutset).head? = some c → c ∉ cutset) ∧
      (∀ c, (Trim s cutset).getLast? = some c → c ∉ cutset) := by
  obtain ⟨b, hb1, hb2⟩ := rdropWhile_split (fun c => decide (c ∈ cutset))
    (s.dropWhile (fun c => decide (c ∈ cutset)))
  refine ⟨s.takeWhile (fun c => decide (c ∈ cutset)), b, ?_, ?_, ?_, ?_, ?_⟩
  · intro c hc
    simpa using List.mem_takeWhile_imp hc
  · intro c hc
    simpa using hb2 c hc
  · unfold Trim
    rw [List.append_assoc, ← hb1, List.takeWhile_append_dropWhile]
  · intro c hc
    unfold Trim at hc
    have hpre : (s.dropWhile (fun c => decide (c ∈ cutset))).rdropWhile
        (fun c => decide (c ∈ cutset)) <+: s.dropWhile (fun c => decide (c ∈ cutset)) :=
      List.rdropWhile_prefix _ _
    obtain ⟨t, ht⟩ := hpre
    have hhead : (s.dropWhile (fun c => decide (c ∈ cutset))).head? = some c := by
      rw [← ht]
      cases hl : (s.dropWhile (fun c => decide (c ∈ cutset))).rdropWhile
          (fun c => decide (c ∈ cutset)) with
      | nil => rw [hl] at hc; cases hc
      | cons x xs => rw [hl] at hc; simpa using hc
    have := List.head?_dropWhile_not (fun c => decide (c ∈ cutset)) s
    rw [hhead] at this
    simpa using this
  · intro c hc
    unfold Trim at hc
    have hne : (s.dropWhile (fun c => decide (c ∈ cutset))).rdropWhile
        (fun c => decide (c ∈ cutset)) ≠ [] := by
      intro h
      rw [h] at hc
      cases hc
    have hlast := List.rdropWhile_last_not (fun c => decide (c ∈ cutset)) _ hne
    rw [List.getLast?_eq_getLast _ hne] at hc
    simp only [Option.some.injEq] at hc
    rw [hc] at hlast
    simpa using hlast

theorem lastValueOf_of_filter_singleton (key : Str) (toks : List Str) (t : Str)
    (h : toks.filter (hasKey key) = [t]) : lastValueOf key toks = valueOfToken t := by
  unfold lastValueOf
  have : toks.filter (fun t => decide ('=' ∈ t ∧ t.take (t.indexOf '=') = key)) = [t] := h
  rw [this]
  rfl

theorem lastValueOf_of_filter_nil (key : Str) (toks : List Str)
    (h : toks.filter (hasKey key) = []) : lastValueOf key toks = [] := by
  unfold lastValueOf
  have : toks.filter (fun t => decide ('=' ∈ t ∧ t.take (t.indexOf '=') = key)) = [] := h
  rw [this]
  rfl

theorem foldl_parseToken_skip_all (toks : List Str) (rec : LogRecord)
    (h : ∀ tok ∈ toks, '=' ∉ tok ∨ tok.head? = some '=') :
    toks.foldl parseToken rec = rec := by
  induction toks with
  | nil => rfl
  | cons t ts ih =>
    rw [List.foldl_cons, parseToken_skip rec t (h t (by simp))]
    exact ih (fun tok htok => h tok (List.mem_cons_of_mem _ htok))

theorem foldl_parseToken_raw (toks : List Str) (rec : LogRecord) :
    (toks.foldl parseToken rec).Raw = rec.Raw := by
  induction toks generalizing rec with
  | nil => rfl
  | cons t ts ih =>
    rw [List.foldl_cons, ih]
    rcases usable_or_skip t with ⟨hm, hp⟩ | hs
    · rw [parseToken_usable rec t hm hp]
      split_ifs <;> rfl
    · rw [parseToken_skip rec t hs]

/-- C20: `Raw` is the line.  When exactly one token has the key `time` (`msg`),
`Time` (`Message`) is the text of that token after its first `=`, unchanged;
when exactly one token has the key `level`, `Level` is its value without the
double quotes at its two ends; a scalar whose key no token has is empty; and a
line without any usable token gives the empty record for that line. -/
theorem C20_parse_scalars (line : Str) :
    (ParseTextLogLine line).Raw = line ∧
    (∀ t, (splitQuotedTokens line).filter (hasKey "time".toList) = [t] →
      (ParseTextLogLine line).Time = valueOfToken t) ∧
    ((splitQuotedTokens line).filter (hasKey "time".toList) = [] →
      (ParseTextLogLine line).Time = []) ∧
    (∀ t, (splitQuotedTokens line).filter (hasKey "msg".toList) = [t] →
      (ParseTextLogLine line).Message = valueOfToken t) ∧
    ((splitQuotedTokens line).filter (hasKey "msg".toList) = [] →
      (ParseTextLogLine line).Message = []) ∧
    (∀ t, (splitQuotedTokens line).filter (hasKey "level".toList) = [t] →
      ∃ a b, (∀ c ∈ a, c = '"') ∧ (∀ c ∈ b, c = '"') ∧
        valueOfToken t = a ++ (ParseTextLogLine line).Level ++ b ∧
        (ParseTextLogLine line).Level.head? ≠ some '"' ∧
        (ParseTextLogLine line).Level.getLast? ≠ some '"') ∧
    ((splitQuotedTokens line).filter (hasKey "level".toList) = [] →
      (ParseTextLogLine line).Level = []) ∧
    ((∀ tok ∈ splitQuotedTokens line, '=' ∉ tok ∨ tok.head? = some '=') →
      ParseTextLogLine line = emptyRecord line) := by
  obtain ⟨hT, hL, hM⟩ := foldl_parseToken_scalars line (splitQuotedTokens line)
  have hrec : ParseTextLogLine line =
      (splitQuotedTokens line).foldl parseToken (emptyRecord line) := rfl
  rw [hrec]
  refine ⟨?_, ?_, ?_, ?_, ?_, ?_, ?_, ?_⟩
  · rw [foldl_parseToken_raw]; rfl
  · intro t ht
    rw [hT, lastValueOf_of_filter_singleton _ _ t ht]
  · intro ht
    rw [hT, lastValueOf_of_filter_nil _ _ ht]
  · intro t ht
    rw [hM, lastValueOf_of_filter_singleton _ _ t ht]
  · intro ht
    rw [hM, lastValueOf_of_filter_nil _ _ ht]
  · intro t ht
    rw [hL, lastValueOf_of_filter_singleton _ _ t ht]
    obtain ⟨a, b, ha, hb, hs, hh, hl⟩ := Trim_spec (valueOfToken t) "\"".toList
    refine ⟨a, b, ?_, ?_, hs, ?_, ?_⟩
    · intro c hc
      simpa using ha c hc
    · intro c hc
      simpa using hb c hc
    · intro h
      exact hh '"' h (by decide)
    · intro h
      exact hl '"' h (by decide)
  · intro ht
    rw [hL, lastValueOf_of_filter_nil _ _ ht, Trim_nil]
  · intro h
    exact foldl_parseToken_skip_all _ _ h

/-- C20 on the line `time=12 level="info" msg="a b" k=v`. -/
theorem C20_parse_scalars_witness :
    (ParseTextLogLine "time=12 level=\"info\" msg=\"a b\" k=v".toList).Time = "12".toList ∧
    (ParseTextLogLine "time=12 level=\"info\" msg=\"a b\" k=v".toList).Message =
      "\"a b\"".toList ∧
    (ParseTextLogLine "time=12 level=\"info\" msg=\"a b\" k=v".toList).Level = "info".toList ∧
    ParseTextLogLine "x = y".toList = emptyRecord "x = y".toList :=
  ⟨(C20_parse_scalars "time=12 level=\"info\" msg=\"a b\" k=v".toList).2.1
      "time=12".toList (by decide),
   (C20_parse_scalars "time=12 level=\"info\" msg=\"a b\" k=v".toList).2.2.2.1
      "msg=\"a b\"".toList (by decide),
   by decide,
   (C20_parse_scalars "x = y".toList).2.2.2.2.2.2.2 (by decide)⟩

/-! ## Frame of the transform and style processors -/

theorem transformField_frame (t : FieldTransformer) (f : RecordField) :
    (transformField t f).Key = f.Key ∧ (transformField t f).Value = f.Value ∧
    (transformField t f).ShowKey = f.ShowKey ∧ (transformField t f).Style = f.Style ∧
    (transformField t f).Styled = f.Styled := by
  unfold transformField
  split_ifs <;> exact ⟨rfl, rfl, rfl, rfl, rfl⟩

theorem styleField_frame (sp : FieldStyleProvider) (f : RecordField) :
    (styleField sp f).Key = f.Key ∧ (styleField sp f).Value = f.Value ∧
    (styleField sp f).ValueOut = f.ValueOut ∧ (styleField sp f).ShowKey = f.ShowKey := by
  unfold styleField
  split_ifs <;> exact ⟨rfl, rfl, rfl, rfl⟩

/-- C21: the transform processor keeps `Raw`, `Time`, `Level`, `Message` and the
number and order of the fields; every field keeps `Key`, `Value`, `ShowKey`,
`Style` and `Styled`; its display value becomes the hook's output when the hook
answers `applied = true` for `(Key, Value)` and the whole field is unchanged
otherwise; without a transformer the record is unchanged. -/
theorem C21_transform_frame (rec : LogRecord) :
    (∀ t : FieldTransformer,
      (fieldTransformProcessor.Process { transformer := some t } rec).Raw = rec.Raw ∧
      (fieldTransformProcessor.Process { transformer := some t } rec).Time = rec.Time ∧
      (fieldTransformProcessor.Process { transformer := some t } rec).Level = rec.Level ∧
      (fieldTransformProcessor.Process { transformer := some t } rec).Message = rec.Message ∧
      (fieldTransformProcessor.Process { transformer := some t } rec).Fields.length =
        rec.Fields.length ∧
      ∀ (i : Nat) (f : RecordField), rec.Fields[i]? = some f →
        ∃ g, (fieldTransformProcessor.Process { transformer := some t } rec).Fields[i]? = some g ∧
          g.Key = f.Key ∧ g.Value = f.Value ∧ g.ShowKey = f.ShowKey ∧ g.Style = f.Style ∧
          g.Styled = f.Styled ∧
          ((t f.Key f.Value).2 = true → g.ValueOut = (t f.Key f.Value).1) ∧
          ((t f.Key f.Value).2 = false → g = f)) ∧
    fieldTransformProcessor.Process { transformer := none } rec = rec := by
  refine ⟨?_, rfl⟩
  intro t
  rw [fieldTransformProcessor_Process_eq]
  refine ⟨rfl, rfl, rfl, rfl, by simp, ?_⟩
  intro i f hf
  obtain ⟨h1, h2, h3, h4, h5⟩ := transformField_frame t f
  refine ⟨transformField t f, by simp [hf], h1, h2, h3, h4, h5, ?_, ?_⟩
  · intro hok
    unfold transformField
    rw [if_pos hok]
  · intro hok
    unfold transformField
    rw [if_neg (by simp [hok])]

/-- C21 on the fields `name=hub` and `dimension=overworld` with a hook for the
key `dimension`. -/
theorem C21_transform_frame_witness :
    (fieldTransformProcessor.Process { transformer := some dimensionUpper }
        twoFieldRecord).Fields =
      [plainField "name".toList "hub".toList,
       { plainField "dimension".toList "overworld".toList with
         ValueOut := "OVERWORLD".toList }] ∧
    fieldTransformProcessor.Process { transformer := none } twoFieldRecord = twoFieldRecord :=
  ⟨by decide, (C21_transform_frame twoFieldRecord).2⟩

theorem styleLoopStateful_inv {σ : Type} (sp : StatefulStyleProvider σ) (rec : LogRecord)
    (s : σ) (body : Nat → LogRecord × σ → LogRecord × σ)
    (hbody : body = fun i (st : LogRecord × σ) =>
      match st.1.Fields[i]? with
      | none => st
      | some f =>
        let value := if f.ValueOut ≠ [] then f.ValueOut else f.Value
        let r := sp st.2 f.Key value
        if r.1.2 then
          (st.1.updField i (fun f => { f with Style := r.1.1, Styled := true }), r.2)
        else (st.1, r.2)) :
    ∀ k, k ≤ rec.Fields.length →
      (forRange k body (rec, s)).1.Fields.length = rec.Fields.length ∧
      (forRange k body (rec, s)).1.Fields.drop k = rec.Fields.drop k ∧
      (forRange k body (rec, s)).2 =
        (rec.Fields.take k).foldl (fun s f => (sp s f.Key (effectiveValue f)).2) s := by
  intro k
  induction k with
  | zero => intro _; simp [forRange]
  | succ k ih =>
    intro hk
    have hlt : k < rec.Fields.length := hk
    obtain ⟨ih1, ih2, ih3⟩ := ih (Nat.le_of_lt hlt)
    rw [forRange_succ]
    generalize forRange k body (rec, s) = st at ih1 ih2 ih3
    have hget : st.1.Fields[k]? = some rec.Fields[k] := by
      have h1 : (st.1.Fields.drop k)[0]? = (rec.Fields.drop k)[0]? := by rw [ih2]
      simpa [List.getElem?_drop, List.getElem?_eq_getElem hlt] using h1
    have htake : (rec.Fields.take (k + 1)).foldl
        (fun s f => (sp s f.Key (effectiveValue f)).2) s =
        (sp st.2 rec.Fields[k].Key (effectiveValue rec.Fields[k])).2 := by
      rw [List.take_succ, List.getElem?_eq_getElem hlt, List.foldl_append, ← ih3]
      rfl
    have hdrop : ∀ g : RecordField,
        (st.1.Fields.set k g).drop (k + 1) = rec.Fields.drop (k + 1) := by
      intro g
      rw [List.drop_set_of_lt _ _ (Nat.lt_succ_self k)]
      have := congrArg (List.drop 1) ih2
      simpa [List.drop_drop, Nat.add_comm] using this
    have hdrop0 : st.1.Fields.drop (k + 1) = rec.Fields.drop (k + 1) := by
      have := congrArg (List.drop 1) ih2
      simpa [List.drop_drop, Nat.add_comm] using this
    rw [hbody]
    simp only [hget]
    have hev : (if rec.Fields[k].ValueOut ≠ [] then rec.Fields[k].ValueOut
        else rec.Fields[k].Value) = effectiveValue rec.Fields[k] := rfl
    rw [hev, htake]
    split_ifs with hok
    · rw [updField_of_getElem? _ _ _ _ hget]
      exact ⟨by simpa using ih1, hdrop _, rfl⟩
    · exact ⟨ih1, hdrop0, rfl⟩

theorem forRange_fst {α β : Type} (n : Nat) (bodyS : Nat → α × β → α × β)
    (bodyP : Nat → α → α) (h : ∀ i st, (bodyS i st).1 = bodyP i st.1) (x : α × β) :
    (forRange n bodyS x).1 = forRange n bodyP x.1 := by
  induction n with
  | zero => rfl
  | succ n ih => rw [forRange_succ, forRange_succ, h, ih]

theorem styleLoopStateful_state {σ : Type} (sp : StatefulStyleProvider σ) (rec : LogRecord)
    (s : σ) :
    (styleLoopStateful sp rec s).2 =
      rec.Fields.foldl (fun s f => (sp s f.Key (effectiveValue f)).2) s := by
  have h := (styleLoopStateful_inv sp rec s _ rfl rec.Fields.length (Nat.le_refl _)).2.2
  rw [List.take_length] at h
  exact h

theorem styleLoopStateful_logged_fst (sp : FieldStyleProvider) (rec : LogRecord)
    (log : List (Str × Str)) :
    (styleLoopStateful (loggedProvider sp) rec log).1 =
      fieldStyleProcessor.Process { provider := some sp } rec := by
  unfold styleLoopStateful fieldStyleProcessor.Process
  simp only
  apply forRange_fst
  intro i st
  cases hget : st.1.Fields[i]? with
  | none => rfl
  | some f =>
    simp only [loggedProvider]
    split_ifs <;> rfl

theorem foldl_log (fields : List RecordField) (log : List (Str × Str)) :
    fields.foldl (fun s f => s ++ [(f.Key, effectiveValue f)]) log =
      log ++ fields.map (fun f => (f.Key, effectiveValue f)) := by
  induction fields generalizing log with
  | nil => simp
  | cons f fs ih => rw [List.foldl_cons, ih]; simp

/-- C22: the style processor keeps the scalars of the record and the number and
order of the fields; it never changes `Key`, `Value`, display value or
`ShowKey`; a field gets the style returned for `(Key, effectiveValue)` and is
marked styled when the provider answers `applied = true`, and is unchanged
otherwise; without a provider the record is unchanged.  The provider is asked
once per field, in field order, with `(Key, effectiveValue)`: a provider with a
state is taken through exactly these queries. -/
theorem C22_style_processor (rec : LogRecord) :
    (∀ sp : FieldStyleProvider,
      (fieldStyleProcessor.Process { provider := some sp } rec).Raw = rec.Raw ∧
      (fieldStyleProcessor.Process { provider := some sp } rec).Time = rec.Time ∧
      (fieldStyleProcessor.Process { provider := some sp } rec).Level = rec.Level ∧
      (fieldStyleProcessor.Process { provider := some sp } rec).Message = rec.Message ∧
      (fieldStyleProcessor.Process { provider := some sp } rec).Fields.length =
        rec.Fields.length ∧
      ∀ (i : Nat) (f : RecordField), rec.Fields[i]? = some f →
        ∃ g, (fieldStyleProcessor.Process { provider := some sp } rec).Fields[i]? = some g ∧
          g.Key = f.Key ∧ g.Value = f.Value ∧ g.ValueOut = f.ValueOut ∧
          g.ShowKey = f.ShowKey ∧
          ((sp f.Key (if f.ValueOut ≠ [] then f.ValueOut else f.Value)).2 = true →
            g.Style = (sp f.Key (if f.ValueOut ≠ [] then f.ValueOut else f.Value)).1 ∧
            g.Styled = true) ∧
          ((sp f.Key (if f.ValueOut ≠ [] then f.ValueOut else f.Value)).2 = false → g = f)) ∧
    fieldStyleProcessor.Process { provider := none } rec = rec ∧
    (∀ (σ : Type) (sp : StatefulStyleProvider σ) (s : σ),
      (styleLoopStateful sp rec s).2 =
        rec.Fields.foldl
          (fun s f => (sp s f.Key (if f.ValueOut ≠ [] then f.ValueOut else f.Value)).2) s) ∧
    (∀ (sp : FieldStyleProvider) (log : List (Str × Str)),
      styleLoopStateful (loggedProvider sp) rec log =
        (fieldStyleProcessor.Process { provider := some sp } rec,
          log ++ rec.Fields.map
            (fun f => (f.Key, if f.ValueOut ≠ [] then f.ValueOut else f.Value)))) := by
  refine ⟨?_, rfl, ?_, ?_⟩
  · intro sp
    rw [fieldStyleProcessor_Process_eq]
    refine ⟨rfl, rfl, rfl, rfl, by simp, ?_⟩
    intro i f hf
    obtain ⟨h1, h2, h3, h4⟩ := styleField_frame sp f
    refine ⟨styleField sp f, by simp [hf], h1, h2, h3, h4, ?_, ?_⟩
    · intro hok
      have hok2 : (sp f.Key (effectiveValue f)).2 = true := hok
      unfold styleField
      rw [if_pos hok2]
      exact ⟨rfl, rfl⟩
    · intro hok
      have hok2 : (sp f.Key (effectiveValue f)).2 = false := hok
      unfold styleField
      rw [if_neg (by simp [hok2])]
  · intro σ sp s
    exact styleLoopStateful_state sp rec s
  · intro sp log
    apply Prod.ext
    · exact styleLoopStateful_logged_fst sp rec log
    · rw [styleLoopStateful_state]
      exact foldl_log rec.Fields log

/-- C22 on the fields `name=hub` and `dimension=overworld` with a provider for
the key `name`: the queries are `(name, hub)` and `(dimension, overworld)`. -/
theorem C22_style_processor_witness :
    styleLoopStateful (loggedProvider nameBold) twoFieldRecord [] =
      ({ twoFieldRecord with
          Fields := [{ plainField "name".toList "hub".toList with
              Style := New.Bold, Styled := true },
            plainField "dimension".toList "overworld".toList] },
        [("name".toList, "hub".toList), ("dimension".toList, "overworld".toList)]) :=
  ((C22_style_processor twoFieldRecord).2.2.2 nameBold []).trans (by decide)

/-! ## Level badge -/

/-- C23: the badge is `S.Wrap(label)`, where `U` is the uppercased level, `label`
is `LevelLabels[U]` when present and `U` otherwise, and `S` is the theme's
`Debug`, `Warn` or `Error` style when `U` is `DEBUG`, `WARN` or `ERROR` and its
`Info` style for every other `U`. -/
theorem C23_level_badge (ToUpper : Str → Str) (r : defaultRenderer) (level : Str) :
    (∀ m : GoMap Str, r.profile.LevelLabels = some m →
      r.levelBadge ToUpper level =
        (if ToUpper level = "DEBUG".toList then r.theme.Debug
         else if ToUpper level = "WARN".toList then r.theme.Warn
         else if ToUpper level = "ERROR".toList then r.theme.Error
         else r.theme.Info).Wrap
          (match m (ToUpper level) with
           | some label => label
           | none => ToUpper level)) ∧
    (ToUpper level ≠ "DEBUG".toList → ToUpper level ≠ "WARN".toList →
      ToUpper level ≠ "ERROR".toList →
      r.levelBadge ToUpper level =
        r.theme.Info.Wrap ((mapGet r.profile.LevelLabels (ToUpper level)).getD (ToUpper level))) := by
  constructor
  · intro m hm
    rw [levelBadge_eq]
    unfold badgeStyle mapGet
    rw [hm, Option.some_bind]
    cases m (ToUpper level) <;> rfl
  · intro h1 h2 h3
    rw [levelBadge_eq]
    unfold badgeStyle
    rw [if_neg h1, if_neg h2, if_neg h3]

/-- C23 with the ASCII upper-casing, the default theme and the default labels:
`debug`, `Debug` and `DEBUG` get the `Debug` style and the label `DBG`;
`warning` and `fatal` get the `Info` style and their own upper-cased names. -/
theorem C23_level_badge_witness :
    defaultPipelineRenderer.levelBadge upperASCII "debug".toList =
      DefaultTheme.Debug.Wrap "DBG".toList ∧
    defaultPipelineRenderer.levelBadge upperASCII "Debug".toList =
      DefaultTheme.Debug.Wrap "DBG".toList ∧
    defaultPipelineRenderer.levelBadge upperASCII "DEBUG".toList =
      DefaultTheme.Debug.Wrap "DBG".toList ∧
    defaultPipelineRenderer.levelBadge upperASCII "warning".toList =
      DefaultTheme.Info.Wrap "WARNING".toList ∧
    defaultPipelineRenderer.levelBadge upperASCII "fatal".toList =
      DefaultTheme.Info.Wrap "FATAL".toList :=
  ⟨((C23_level_badge upperASCII defaultPipelineRenderer "debug".toList).1 _ rfl).trans
      (by decide),
   ((C23_level_badge upperASCII defaultPipelineRenderer "Debug".toList).1 _ rfl).trans
      (by decide),
   ((C23_level_badge upperASCII defaultPipelineRenderer "DEBUG".toList).1 _ rfl).trans
      (by decide),
   (C23_level_badge upperASCII defaultPipelineRenderer "warning".toList).2
      (by decide) (by decide) (by decide),
   (C23_level_badge upperASCII defaultPipelineRenderer "fatal".toList).2
      (by decide) (by decide) (by decide)⟩

/-! ## Chalk -/

theorem decorationTable_spec :
    ∀ p ∈ decorationTable, ∀ c : Chalk,
      p.1 c = { enabled := c.enabled, codes := c.codes ++ [Itoa p.2] } := by
  simp only [decorationTable, List.forall_mem_cons]
  refine ⟨?_, ?_, ?_, ?_, ?_, ?_, ?_, ?_, ?_, ?_, ?_, ?_, ?_, ?_, ?_, ?_, ?_, ?_, ?_, ?_, ?_,
    ?_, ?_, ?_, ?_, ?_, ?_, ?_, ?_, ?_, ?_, ?_⟩
  all_goals first
    | (intro c; rfl)
    | (intro p hp; cases hp)

/-- C24: wrapping the empty text gives the empty text; a disabled chalk wraps
every text into itself; `cloneWith`, and with it every decoration, returns a
chalk with the codes of `c` followed by the new code and with the enabled flag
of `c` (`Hex` and `BgHex` return `c` itself when the colour does not parse).
The receiver `c` is a value: no decoration changes it. -/
theorem C24_chalk (c : Chalk) (t : Str) :
    c.Wrap [] = [] ∧
    (c.enabled = false → c.Wrap t = t) ∧
    (∀ code : Str, c.cloneWith code = { enabled := c.enabled, codes := c.codes ++ [code] }) ∧
    (∀ p ∈ decorationTable, p.1 c = { enabled := c.enabled, codes := c.codes ++ [Itoa p.2] }) ∧
    c.Bold = { enabled := c.enabled, codes := c.codes ++ ["1".toList] } ∧
    (∀ r g b : Nat, c.RGB r g b =
      { enabled := c.enabled,
        codes := c.codes ++
          ["38;2;".toList ++ Itoa r ++ ";".toList ++ Itoa g ++ ";".toList ++ Itoa b] }) ∧
    (∀ r g b : Nat, c.BgRGB r g b =
      { enabled := c.enabled,
        codes := c.codes ++
          ["48;2;".toList ++ Itoa r ++ ";".toList ++ Itoa g ++ ";".toList ++ Itoa b] }) ∧
    (∀ h : Str, c.Hex h = c ∨ ∃ r g b : Nat, c.Hex h = c.RGB r g b) ∧
    (∀ h : Str, c.BgHex h = c ∨ ∃ r g b : Nat, c.BgHex h = c.BgRGB r g b) := by
  refine ⟨?_, ?_, fun _ => rfl, fun p hp => decorationTable_spec p hp c, rfl,
    fun _ _ _ => rfl, fun _ _ _ => rfl, ?_, ?_⟩
  · unfold Chalk.Wrap
    simp
  · intro h
    unfold Chalk.Wrap
    simp [h]
  · intro h
    unfold Chalk.Hex
    rcases parseHexColor h with _ | ⟨r, g, b⟩
    · exact Or.inl rfl
    · exact Or.inr ⟨r, g, b, rfl⟩
  · intro h
    unfold Chalk.BgHex
    rcases parseHexColor h with _ | ⟨r, g, b⟩
    · exact Or.inl rfl
    · exact Or.inr ⟨r, g, b, rfl⟩

/-- C24 on a disabled chalk with two decorations. -/
theorem C24_chalk_witness :
    (Disabled.Bold.RGB 1 2 3).Wrap "x".toList = "x".toList ∧
    (Disabled.Bold.RGB 1 2 3).codes = ["1".toList, "38;2;1;2;3".toList] :=
  ⟨(C24_chalk (Disabled.Bold.RGB 1 2 3) "x".toList).2.1 rfl, by decide⟩

/-! ## StripANSI -/

theorem matchANSI_length (s tail : Str) (h : matchANSI s = some tail) :
    tail.length + 3 ≤ s.length := by
  unfold matchANSI at h
  split at h
  · rename_i rest
    split at h
    · rename_i tail0 hd
      simp only [Option.some.injEq] at h
      subst h
      have hsuf : (rest.dropWhile isCodeChar).length ≤ rest.length :=
        (List.dropWhile_sublist isCodeChar).length_le
      rw [hd] at hsuf
      simp only [List.length_cons] at hsuf ⊢
      omega
    · cases h
  · cases h

theorem stripLoop_fuel (fuel1 : Nat) :
    ∀ (fuel2 : Nat) (s : Str), s.length ≤ fuel1 → s.length ≤ fuel2 →
      stripLoop fuel1 s = stripLoop fuel2 s := by
  induction fuel1 with
  | zero =>
    intro fuel2 s h1 _
    have hs : s = [] := List.length_eq_zero.1 (Nat.le_zero.1 h1)
    subst hs
    cases fuel2 <;> rfl
  | succ fuel1 ih =>
    intro fuel2 s h1 h2
    cases s with
    | nil => cases fuel2 <;> rfl
    | cons c rest =>
      cases fuel2 with
      | zero => simp at h2
      | succ fuel2 =>
        simp only [List.length_cons, Nat.add_le_add_iff_right] at h1 h2
        unfold stripLoop
        cases hm : matchANSI (c :: rest) with
        | none =>
          simp only
          rw [ih fuel2 rest h1 h2]
        | some tail =>
          simp only
          have hl := matchANSI_length _ _ hm
          simp only [List.length_cons] at hl
          exact ih fuel2 tail (by omega) (by omega)

theorem StripANSI_nil : StripANSI [] = [] := rfl

theorem stripLoop_succ_cons (fuel : Nat) (c : Char) (rest : Str) :
    stripLoop (fuel + 1) (c :: rest) =
      match matchANSI (c :: rest) with
      | some tail => stripLoop fuel tail
      | none => c :: stripLoop fuel rest := rfl

theorem StripANSI_cons (c : Char) (rest : Str) :
    StripANSI (c :: rest) =
      match matchANSI (c :: rest) with
      | some tail => StripANSI tail
      | none => c :: StripANSI rest := by
  have h0 : StripANSI (c :: rest) = stripLoop (rest.length + 1) (c :: rest) := rfl
  rw [h0, stripLoop_succ_cons]
  cases hm : matchANSI (c :: rest) with
  | none => rfl
  | some tail =>
    simp only
    have hl := matchANSI_length _ _ hm
    simp only [List.length_cons] at hl
    exact stripLoop_fuel _ _ _ (by omega) (Nat.le_refl _)

theorem matchANSI_not_esc (c : Char) (rest : Str) (h : c ≠ '\x1b') :
    matchANSI (c :: rest) = none := by
  unfold matchANSI
  split
  · rename_i heq
    simp only [List.cons.injEq] at heq
    exact absurd heq.1 h
  · rfl

theorem StripANSI_no_esc (t : Str) (h : '\x1b' ∉ t) : StripANSI t = t := by
  induction t with
  | nil => rfl
  | cons c rest ih =>
    simp only [List.mem_cons, not_or] at h
    rw [StripANSI_cons, matchANSI_not_esc c rest (Ne.symm h.1)]
    simp only
    rw [ih h.2]

theorem dropWhile_code_run (a : Str) (x : Char) (rest : Str)
    (ha : ∀ ch ∈ a, isCodeChar ch = true) (hx : isCodeChar x = false) :
    (a ++ x :: rest).dropWhile isCodeChar = x :: rest := by
  induction a with
  | nil => simp [List.dropWhile, hx]
  | cons c a ih =>
    rw [List.cons_append, List.dropWhile_cons, if_pos (ha c (by simp))]
    exact ih (fun ch hch => ha ch (List.mem_cons_of_mem _ hch))

theorem dropWhile_code_all (a : Str) (ha : ∀ ch ∈ a, isCodeChar ch = true) :
    a.dropWhile isCodeChar = [] := by
  induction a with
  | nil => rfl
  | cons c a ih =>
    rw [List.dropWhile_cons, if_pos (ha c (by simp))]
    exact ih (fun ch hch => ha ch (List.mem_cons_of_mem _ hch))

/-- The marker that `Wrap` puts before the text is a match of the pattern. -/
theorem matchANSI_code (codes tail : Str) (h : ∀ ch ∈ codes, isCodeChar ch = true) :
    matchANSI ("\x1b[".toList ++ codes ++ "m".toList ++ tail) = some tail := by
  have hform : "\x1b[".toList ++ codes ++ "m".toList ++ tail =
      '\x1b' :: '[' :: (codes ++ 'm' :: tail) := by simp
  rw [hform]
  unfold matchANSI
  simp only
  rw [dropWhile_code_run codes 'm' tail h (by decide)]
  rfl

/-- A match never runs into a following ESC byte. -/
theorem matchANSI_append_esc (s u : Str) (hs : s ≠ []) :
    matchANSI (s ++ '\x1b' :: u) = (matchANSI s).map (fun tail => tail ++ '\x1b' :: u) := by
  cases s with
  | nil => exact absurd rfl hs
  | cons c1 s1 =>
    by_cases h1 : c1 = '\x1b'
    swap
    · rw [List.cons_append, matchANSI_not_esc c1 _ h1, matchANSI_not_esc c1 _ h1]
      rfl
    subst h1
    cases s1 with
    | nil =>
      have : matchANSI (['\x1b'] ++ '\x1b' :: u) = none := by
        unfold matchANSI
        split
        · rename_i heq
          simp only [List.singleton_append, List.cons.injEq] at heq
          exact absurd heq.2.1 (by decide)
        · rfl
      rw [this]
      rfl
    | cons c2 rest =>
      by_cases h2 : c2 = '['
      swap
      · have e1 : matchANSI (('\x1b' :: c2 :: rest) ++ '\x1b' :: u) = none := by
          unfold matchANSI
          split
          · rename_i heq
            simp only [List.cons_append, List.cons.injEq] at heq
            exact absurd heq.2.1 h2
          · rfl
        have e2 : matchANSI ('\x1b' :: c2 :: rest) = none := by
          unfold matchANSI
          split
          · rename_i heq
            simp only [List.cons.injEq] at heq
            exact absurd heq.2.1 h2
          · rfl
        rw [e1, e2]
        rfl
      subst h2
      have e1 : matchANSI (('\x1b' :: '[' :: rest) ++ '\x1b' :: u) =
          match (rest ++ '\x1b' :: u).dropWhile isCodeChar with
          | 'm' :: tail => some tail
          | _ => none := rfl
      have e2 : matchANSI ('\x1b' :: '[' :: rest) =
          match rest.dropWhile isCodeChar with
          | 'm' :: tail => some tail
          | _ => none := rfl
      rw [e1, e2]
      -- cut `rest` at its first byte outside the class
      have hcut : rest = rest.takeWhile isCodeChar ++ rest.dropWhile isCodeChar :=
        (List.takeWhile_append_dropWhile isCodeChar rest).symm
      have hrun : ∀ ch ∈ rest.takeWhile isCodeChar, isCodeChar ch = true :=
        fun ch hch => List.mem_takeWhile_imp hch
      cases hd : rest.dropWhile isCodeChar with
      | nil =>
        have hall : rest = rest.takeWhile isCodeChar := by
          rw [hd, List.append_nil] at hcut
          exact hcut
        have : (rest ++ '\x1b' :: u).dropWhile isCodeChar = '\x1b' :: u := by
          rw [hall]
          exact dropWhile_code_run _ _ _ hrun (by decide)
        rw [this]
        rfl
      | cons x b =>
        have hx : isCodeChar x = false := by
          have := List.head?_dropWhile_not isCodeChar rest
          rw [hd] at this
          simpa using this
        have : (rest ++ '\x1b' :: u).dropWhile isCodeChar = x :: (b ++ '\x1b' :: u) := by
          conv_lhs => rw [hcut, hd]
          rw [List.append_assoc, List.cons_append]
          exact dropWhile_code_run _ _ _ hrun hx
        rw [this]
        by_cases hm : x = 'm'
        · subst hm
          rfl
        · have n1 : (match x :: (b ++ '\x1b' :: u) with
              | 'm' :: tail => some tail
              | _ => none) = (none : Option Str) := by
            split
            · rename_i heq
              simp only [List.cons.injEq] at heq
              exact absurd heq.1 hm
            · rfl
          have n2 : (match x :: b with
              | 'm' :: tail => some tail
              | _ => none) = (none : Option Str) := by
            split
            · rename_i heq
              simp only [List.cons.injEq] at heq
              exact absurd heq.1 hm
            · rfl
          rw [n1, n2]
          rfl

/-- Text followed by an ESC byte is stripped piece by piece. -/
theorem StripANSI_append_esc (n : Nat) :
    ∀ (t u : Str), t.length ≤ n →
      StripANSI (t ++ '\x1b' :: u) = StripANSI t ++ StripANSI ('\x1b' :: u) := by
  induction n with
  | zero =>
    intro t u h
    have ht : t = [] := List.length_eq_zero.1 (Nat.le_zero.1 h)
    subst ht
    rfl
  | succ n ih =>
    intro t u h
    cases t with
    | nil => rfl
    | cons c rest =>
      simp only [List.length_cons, Nat.add_le_add_iff_right] at h
      have hm := matchANSI_append_esc (c :: rest) u (by simp)
      rw [StripANSI_cons c rest]
      have hcons : (c :: rest) ++ '\x1b' :: u = c :: (rest ++ '\x1b' :: u) := rfl
      rw [hcons, StripANSI_cons, ← hcons, hm]
      cases hmt : matchANSI (c :: rest) with
      | none =>
        simp only [Option.map_none']
        rw [ih rest u h]
        rfl
      | some tail =>
        simp only [Option.map_some']
        have hl := matchANSI_length _ _ hmt
        simp only [List.length_cons] at hl
        exact ih tail u (by omega)

theorem digitChar_isDigit (n : Nat) (h : n < 10) : (Nat.digitChar n).isDigit = true := by
  interval_cases n <;> decide

theorem toDigitsCore_isDigit (fuel : Nat) :
    ∀ (n : Nat) (ds : List Char), (∀ ch ∈ ds, ch.isDigit = true) →
      ∀ ch ∈ Nat.toDigitsCore 10 fuel n ds, ch.isDigit = true := by
  induction fuel with
  | zero => intro n ds hds; simpa [Nat.toDigitsCore] using hds
  | succ fuel ih =>
    intro n ds hds
    have hd : (Nat.digitChar (n % 10)).isDigit = true :=
      digitChar_isDigit _ (Nat.mod_lt _ (by decide))
    have hcons : ∀ ch ∈ Nat.digitChar (n % 10) :: ds, ch.isDigit = true := by
      intro ch hch
      rcases List.mem_cons.1 hch with h | h
      · rw [h]; exact hd
      · exact hds ch h
    unfold Nat.toDigitsCore
    simp only
    split_ifs
    · exact hcons
    · exact ih _ _ hcons

theorem Itoa_nat_code (n : Nat) : ∀ ch ∈ Itoa (n : Int), isCodeChar ch = true := by
  intro ch hch
  have hnn : ¬ ((n : Int) < 0) := by omega
  unfold Itoa at hch
  rw [if_neg hnn] at hch
  have := toDigitsCore_isDigit _ _ [] (by simp) ch hch
  unfold isCodeChar
  simp [this]

theorem Itoa_nonneg_code (v : Int) (hv : 0 ≤ v) : ∀ ch ∈ Itoa v, isCodeChar ch = true := by
  obtain ⟨n, rfl⟩ := Int.eq_ofNat_of_zero_le hv
  exact Itoa_nat_code n

theorem rgb_code (pre : Str) (hpre : ∀ ch ∈ pre, isCodeChar ch = true) (r g b : Nat) :
    ∀ ch ∈ pre ++ Itoa r ++ ";".toList ++ Itoa g ++ ";".toList ++ Itoa b,
      isCodeChar ch = true := by
  intro ch hch
  simp only [List.mem_append] at hch
  rcases hch with ((((h | h) | h) | h) | h) | h
  · exact hpre ch h
  · exact Itoa_nat_code r ch h
  · have : ch = ';' := by simpa using h
    rw [this]; decide
  · exact Itoa_nat_code g ch h
  · have : ch = ';' := by simpa using h
    rw [this]; decide
  · exact Itoa_nat_code b ch h

theorem cloneWith_codes (c : Chalk) (code : Str)
    (hc : ∀ x ∈ c.codes, ∀ ch ∈ x, isCodeChar ch = true)
    (hcode : ∀ ch ∈ code, isCodeChar ch = true) :
    ∀ x ∈ (c.cloneWith code).codes, ∀ ch ∈ x, isCodeChar ch = true := by
  intro x hx
  unfold Chalk.cloneWith at hx
  simp only [List.mem_append, List.mem_singleton] at hx
  rcases hx with h | h
  · exact hc x h
  · rw [h]; exact hcode

/-- Every code of a chalk made by the methods of the package consists of digits
and semicolons. -/
theorem Built_codes (c : Chalk) (h : Built c) :
    ∀ x ∈ c.codes, ∀ ch ∈ x, isCodeChar ch = true := by
  induction h with
  | new => intro x hx; cases hx
  | disabled => intro x hx; cases hx
  | withEnabled c enabled _ ih => exact ih
  | fixed p c hp _ ih =>
    rw [decorationTable_spec p hp c]
    have hnn : 0 ≤ p.2 := by
      revert p
      decide
    exact cloneWith_codes c (Itoa p.2) ih (Itoa_nonneg_code p.2 hnn)
  | rgb c r g b _ ih =>
    exact cloneWith_codes c _ ih (rgb_code "38;2;".toList (by decide) r g b)
  | bgRGB c r g b _ ih =>
    exact cloneWith_codes c _ ih (rgb_code "48;2;".toList (by decide) r g b)
  | hex c h _ ih =>
    unfold Chalk.Hex
    rcases parseHexColor h with _ | ⟨r, g, b⟩
    · exact ih
    · exact cloneWith_codes c _ ih (rgb_code "38;2;".toList (by decide) r g b)
  | bgHex c h _ ih =>
    unfold Chalk.BgHex
    rcases parseHexColor h with _ | ⟨r, g, b⟩
    · exact ih
    · exact cloneWith_codes c _ ih (rgb_code "48;2;".toList (by decide) r g b)

theorem Join_codes (codes : List Str) (h : ∀ x ∈ codes, ∀ ch ∈ x, isCodeChar ch = true) :
    ∀ ch ∈ Join codes ";".toList, isCodeChar ch = true := by
  intro ch hch
  by_contra hn
  have hsep : ch ∉ ";".toList := by
    intro hm
    have : ch = ';' := by simpa using hm
    rw [this] at hn
    exact hn (by decide)
  exact not_mem_Join ch codes _ hsep (fun w hw hm => hn (h w hw ch hm)) hch

/-- C26: for a chalk made from `New()` or `Disabled()` by the methods of the
package and every text `t`, stripping the wrapped text gives the same as
stripping `t`; when `t` has no ESC byte, it gives `t` itself. -/
theorem C26_strip_wrap (c : Chalk) (hc : Built c) (t : Str) :
    StripANSI (c.Wrap t) = StripANSI t ∧ ('\x1b' ∉ t → StripANSI (c.Wrap t) = t) := by
  have hmain : StripANSI (c.Wrap t) = StripANSI t := by
    unfold Chalk.Wrap
    split_ifs
    · rfl
    · have hj := Join_codes c.codes (Built_codes c hc)
      have hform : "\x1b[".toList ++ Join c.codes ";".toList ++ "m".toList ++ t ++ "\x1b[0m".toList
          = '\x1b' :: ('[' :: (Join c.codes ";".toList ++ "m".toList ++ t ++ "\x1b[0m".toList)) := by
        simp
      have hm := matchANSI_code (Join c.codes ";".toList) (t ++ "\x1b[0m".toList) hj
      have hm2 : matchANSI ('\x1b' :: ('[' :: (Join c.codes ";".toList ++ "m".toList ++ t ++
          "\x1b[0m".toList))) = some (t ++ "\x1b[0m".toList) := by
        rw [← hm]
        congr 1
        simp
      rw [hform, StripANSI_cons, hm2]
      simp only
      have htail : t ++ "\x1b[0m".toList = t ++ '\x1b' :: "[0m".toList := by simp
      rw [htail, StripANSI_append_esc t.length t _ (Nat.le_refl _)]
      have hend : StripANSI ('\x1b' :: "[0m".toList) = [] := by decide
      rw [hend, List.append_nil]
  exact ⟨hmain, fun hesc => hmain.trans (StripANSI_no_esc t hesc)⟩

/-- C26 on a bold chalk with an RGB colour and the text `hi`. -/
theorem C26_strip_wrap_witness :
    StripANSI ((New.Bold.RGB 64 224 208).Wrap "hi".toList) = "hi".toList :=
  (C26_strip_wrap (New.Bold.RGB 64 224 208)
    (Built.rgb _ 64 224 208 (Built.fixed (Chalk.Bold, 1) New (by simp [decorationTable])
      Built.new)) "hi".toList).2 (by decide)

/-! ## The default pipeline on plain lines -/

theorem default_hide_none (k : Str) (hk : k ∉ specialKeys) :
    mapGet defaultPipelineRenderer.profile.HideKeys k = none := by
  have h0 : mapGet defaultPipelineRenderer.profile.HideKeys k =
      List.lookup k [("time".toList, true), ("level".toList, true), ("msg".toList, true),
        ("err".toList, true), ("error".toList, true), ("player".toList, true),
        ("world".toList, true)] := rfl
  rw [h0]
  simp only [specialKeys, List.mem_cons, List.mem_singleton, List.not_mem_nil, or_false,
    not_or] at hk
  obtain ⟨h1, h2, h3, h4, h5, h6, h7⟩ := hk
  have b1 : (k == "time".toList) = false := by simpa using h1
  have b2 : (k == "level".toList) = false := by simpa using h2
  have b3 : (k == "msg".toList) = false := by simpa using h3
  have b4 : (k == "err".toList) = false := by simpa using h4
  have b5 : (k == "error".toList) = false := by simpa using h5
  have b6 : (k == "player".toList) = false := by simpa using h6
  have b7 : (k == "world".toList) = false := by simpa using h7
  simp only [List.lookup, b1, b2, b3, b4, b5, b6, b7]

/-- A plain token outside the special keys is a field that renders as itself. -/
theorem plain_token (tok : Str) (hm : '=' ∈ tok) (hp : 0 < tok.indexOf '=')
    (hk : tok.take (tok.indexOf '=') ∉ specialKeys) :
    ∃ f, fieldOfToken tok = some f ∧
      fieldPart defaultPipelineRenderer.profile (errFallback DefaultTheme.ErrKey f) = tok := by
  have hres : tok.take (tok.indexOf '=') ∉ reservedKeys := by
    intro h
    apply hk
    simp only [reservedKeys, List.mem_cons, List.mem_singleton, List.not_mem_nil,
      or_false] at h
    simp only [specialKeys, List.mem_cons, List.mem_singleton, List.not_mem_nil, or_false]
    rcases h with h | h | h
    · exact Or.inl h
    · exact Or.inr (Or.inl h)
    · exact Or.inr (Or.inr (Or.inl h))
  have herr : ¬ (tok.take (tok.indexOf '=') = "err".toList ∨
      tok.take (tok.indexOf '=') = "error".toList) := by
    intro h
    apply hk
    simp only [specialKeys, List.mem_cons, List.mem_singleton, List.not_mem_nil, or_false]
    rcases h with h | h
    · exact Or.inr (Or.inr (Or.inr (Or.inl h)))
    · exact Or.inr (Or.inr (Or.inr (Or.inr (Or.inl h))))
  refine ⟨_, by unfold fieldOfToken; rw [if_pos ⟨hm, hp, hres⟩], ?_⟩
  have hfb : errFallback DefaultTheme.ErrKey
      { Key := tok.take (tok.indexOf '='), Value := tok.drop (tok.indexOf '=' + 1),
        ValueOut := [], ShowKey := true, Styled := false, Style := Chalk.zero } =
      { Key := tok.take (tok.indexOf '='), Value := tok.drop (tok.indexOf '=' + 1),
        ValueOut := [], ShowKey := true, Styled := false, Style := Chalk.zero } := by
    unfold errFallback
    rw [if_neg (fun h => herr h.2)]
  rw [hfb]
  have hvis : keyVisible defaultPipelineRenderer.profile
      { Key := tok.take (tok.indexOf '='), Value := tok.drop (tok.indexOf '=' + 1),
        ValueOut := [], ShowKey := true, Styled := false, Style := Chalk.zero } = true := by
    unfold keyVisible
    simp only
    rw [default_hide_none _ hk]
    rfl
  unfold fieldPart
  rw [if_pos hvis]
  have hsv : styledValue
      { Key := tok.take (tok.indexOf '='), Value := tok.drop (tok.indexOf '=' + 1),
        ValueOut := [], ShowKey := true, Styled := false, Style := Chalk.zero } =
      tok.drop (tok.indexOf '=' + 1) := rfl
  rw [hsv]
  have hsplit := (split_at_indexOf '=' tok hm).1
  simp only
  conv_rhs => rw [hsplit]
  simp

theorem plain_fields (toks : List Str)
    (h : ∀ tok ∈ toks, '=' ∈ tok ∧ 0 < tok.indexOf '=' ∧
      tok.take (tok.indexOf '=') ∉ specialKeys) :
    ((toks.filterMap fieldOfToken).map (errFallback DefaultTheme.ErrKey)).map
      (fieldPart defaultPipelineRenderer.profile) = toks := by
  induction toks with
  | nil => rfl
  | cons t ts ih =>
    obtain ⟨hm, hp, hk⟩ := h t (by simp)
    obtain ⟨f, hf, hpart⟩ := plain_token t hm hp hk
    rw [List.filterMap_cons, hf]
    simp only [List.map_cons]
    rw [hpart, ih (fun tok htok => h tok (List.mem_cons_of_mem _ htok))]

theorem filter_hasKey_nil (key : Str) (hkey : key ∈ specialKeys) (toks : List Str)
    (h : ∀ tok ∈ toks, tok.take (tok.indexOf '=') ∉ specialKeys) :
    toks.filter (hasKey key) = [] := by
  rw [List.filter_eq_nil_iff]
  intro tok htok hhas
  unfold hasKey at hhas
  simp only [decide_eq_true_eq] at hhas
  exact h tok htok (hhas.2 ▸ hkey)

/-- C25: the default pipeline returns a plain line as it is: when the line is
the single-space join of tokens without space or double quote, each with its
first `=` behind a non-empty key that is none of `time`, `level`, `msg`, `err`,
`error`, `player`, `world`, then `Colorize(line) = line`. -/
theorem C25_default_identity (ToUpper : Str → Str) (toks : List Str)
    (h : ∀ tok ∈ toks, ' ' ∉ tok ∧ '"' ∉ tok ∧ '=' ∈ tok ∧ 0 < tok.indexOf '=' ∧
      tok.take (tok.indexOf '=') ∉ specialKeys) :
    (defaultPipeline ToUpper).Colorize (Join toks " ".toList) = Join toks " ".toList := by
  have hsplit : splitQuotedTokens (Join toks " ".toList) = toks := by
    rw [splitQuotedTokens_eq_scan]
    apply scan_Join_clean
    intro w hw
    obtain ⟨h1, h2, h3, _, _⟩ := h w hw
    exact ⟨fun he => (by rw [he] at h3; cases h3), h1, h2⟩
  have hkeys : ∀ tok ∈ toks, tok.take (tok.indexOf '=') ∉ specialKeys :=
    fun tok htok => (h tok htok).2.2.2.2
  obtain ⟨hT, hL, hM⟩ := foldl_parseToken_scalars (Join toks " ".toList) toks
  have hparse : ParseTextLogLine (Join toks " ".toList) =
      toks.foldl parseToken (emptyRecord (Join toks " ".toList)) := by
    unfold ParseTextLogLine emptyRecord
    rw [hsplit]
  have hF : (ParseTextLogLine (Join toks " ".toList)).Fields = toks.filterMap fieldOfToken := by
    rw [hparse, foldl_parseToken_fields]
    rfl
  rw [lastValueOf_of_filter_nil _ _ (filter_hasKey_nil _ (by decide) toks hkeys)] at hT hM
  rw [lastValueOf_of_filter_nil _ _ (filter_hasKey_nil _ (by decide) toks hkeys), Trim_nil] at hL
  rw [← hparse] at hT hL hM
  rw [Colorize_default, parts_eq, processed_default]
  simp only
  rw [hT, hL, hM, hF]
  have hpf := plain_fields toks (fun tok htok =>
    ⟨(h tok htok).2.2.1, (h tok htok).2.2.2.1, (h tok htok).2.2.2.2⟩)
  simp only [ne_eq, not_true_eq_false, if_false, List.nil_append]
  rw [hpf]

/-- C25 on the line `addr=[::]:19132 proto_id=594 name=hub`. -/
theorem C25_default_identity_witness :
    (defaultPipeline upperASCII).Colorize "addr=[::]:19132 proto_id=594 name=hub".toList =
      "addr=[::]:19132 proto_id=594 name=hub".toList :=
  C25_default_identity upperASCII
    ["addr=[::]:19132".toList, "proto_id=594".toList, "name=hub".toList] (by decide)

end Consolex
